import Mathlib

/-!
# Packed bit arrays of `contrib/external_lib/cBitArray.h`

A shallow embedding of the two storage engines (`cRawBitArrayBytes`, 8-bit words, and
`cRawBitArray`, 32-bit words) and of the size-tracking facades built on them
(`cBitArrayBytes`, `cBitArray`).

Conventions of the embedding.

* A machine integer is a `Nat` (or an `Int` for a signed value); every place where the C++
  arithmetic wraps or a value is narrowed carries an explicit `% 2 ^ w`.
* The heap block behind `bit_fields` is the list of its allocated words; the null pointer of the
  default constructor is the empty list.  Reading or writing a word outside the block is
  undefined behaviour in C++ and is `none` here.
* The mask table `position_masks` is declared in the header but defined elsewhere, so every
  function that reads it takes the table as an argument.
* The printing methods write to the `ostream` of the caller; the stream and its insertions are
  an argument of theirs (`OStream`).
* `assert` is enabled: a failed assertion is the fault `Fault.assert_failed`.
-/

/-! ## Machine arithmetic and memory -/

/-- Conversion of an unsigned value to `int` (32 bits, two's complement). -/
def toInt32 (x : Nat) : Int :=
  if x % 2 ^ 32 < 2 ^ 31 then ((x % 2 ^ 32 : Nat) : Int) else ((x % 2 ^ 32 : Nat) : Int) - 2 ^ 32

/-- Conversion of an `int` to `unsigned long long`, as done by the usual arithmetic conversions
when an `int` is compared with an `unsigned long long`. -/
def toUInt64 (z : Int) : Nat := (z % 2 ^ 64).toNat

/-- The signed number with the same 64 bits as an `unsigned long long` (two's complement). -/
def toInt64 (x : Nat) : Int :=
  if x % 2 ^ 64 < 2 ^ 63 then ((x % 2 ^ 64 : Nat) : Int) else ((x % 2 ^ 64 : Nat) : Int) - 2 ^ 64

/-- The value of `-x` for an `int` `x`, computed in 32 bits, two's complement: `-INT_MIN` wraps
around to `INT_MIN`. -/
def negInt32 (x : Int) : Int := toInt32 ((-x) % 2 ^ 32).toNat

/-- The value of `x - 1` for an `unsigned long long` `x`: zero wraps to `2^64 - 1`. -/
def decUInt64 (x : Nat) : Nat := if x % 2 ^ 64 = 0 then 2 ^ 64 - 1 else x % 2 ^ 64 - 1

/-- The value of `x - 1` in 32 bits: zero wraps to `2^32 - 1`. -/
def decUInt32 (x : Nat) : Nat := if x % 2 ^ 32 = 0 then 2 ^ 32 - 1 else x % 2 ^ 32 - 1

/-- The value of `~x` for an `unsigned int` `x`. -/
def notUInt32 (x : Nat) : Nat := 2 ^ 32 - 1 - x % 2 ^ 32

/-- The bits of `(1 << last_bit) - 1`, computed in `int` (32 bits, two's complement, the
subtraction wrapping around) and read as an `unsigned int`. -/
def lowMask (last_bit : Nat) : Nat := decUInt32 (1 <<< last_bit)

/-- Read of `bit_fields[k]`. -/
def readWord (bit_fields : List Nat) (k : Nat) : Option Nat := bit_fields[k]?

/-- Write `bit_fields[k] = w`. -/
def writeWord (bit_fields : List Nat) (k : Nat) (w : Nat) : Option (List Nat) :=
  if k < bit_fields.length then some (bit_fields.set k w) else none

/-- The loop `for (unsigned long long i = ...; i < num_fields; i++) bit_fields[i] = w;`
shared by `Zero` and `Ones`, entered with the current value of `i`. -/
def fillLoop (w : Nat) (num_fields : Nat) (i : Nat) (bit_fields : List Nat) : Option (List Nat) :=
  if i < num_fields then
    match writeWord bit_fields i w with
    | some bf => fillLoop w num_fields (i + 1) bf
    | none => none
  else some bit_fields
termination_by num_fields - i

/-- How a call can fail. -/
inductive Fault where
  /-- An `assert` did not hold. -/
  | assert_failed
  /-- The engine touched a word outside the allocated block. -/
  | undefined_behaviour
deriving DecidableEq

/-- The outcome of an engine call as seen by a facade. -/
def liftEngine {α : Type} : Option α → Except Fault α
  | some a => .ok a
  | none => .error .undefined_behaviour

/-! ## The engine with 8-bit words -/

/-- The raw store `cRawBitArrayBytes`: the block of `unsigned char` words behind `bit_fields`. -/
structure cRawBitArrayBytes where
  bit_fields : List Nat
deriving DecidableEq

namespace cRawBitArrayBytes

/-- `GetNumFields`: `1 + ((num_bits - 1) >> 3)` in `unsigned long long`. -/
def GetNumFields (num_bits : Nat) : Nat := (1 + (decUInt64 num_bits >>> 3)) % 2 ^ 64

/-- `GetField`: `index >> 3`. -/
def GetField (index : Nat) : Nat := index >>> 3

/-- `GetFieldPos`: `index & 7`. -/
def GetFieldPos (index : Nat) : Nat := index &&& 7

/-- The default constructor: `bit_fields(NULL)`. -/
def empty : cRawBitArrayBytes := ⟨[]⟩

/-- `Zero`: the word count is narrowed to `const int num_fields` before the loop. -/
def Zero (self : cRawBitArrayBytes) (num_bits : Nat) : Option cRawBitArrayBytes :=
  let num_fields : Int := toInt32 (GetNumFields num_bits)
  (fillLoop 0 (toUInt64 num_fields) 0 self.bit_fields).map fun bf => ⟨bf⟩

/-- `Ones`: fill with `~0`, then mask the last word when `num_bits` is not a multiple of 8. -/
def Ones (self : cRawBitArrayBytes) (num_bits : Nat) : Option cRawBitArrayBytes :=
  let num_fields := GetNumFields num_bits
  match fillLoop 255 num_fields 0 self.bit_fields with
  | none => none
  | some bf =>
    let last_bit := GetFieldPos num_bits
    if last_bit > 0 then
      match readWord bf (decUInt64 num_fields) with
      | none => none
      | some w =>
        (writeWord bf (decUInt64 num_fields) ((w &&& lowMask last_bit) % 2 ^ 8)).map
          fun bf' => ⟨bf'⟩
    else some ⟨bf⟩

/-- `GetBit`. -/
def GetBit (position_masks : Nat → Nat) (self : cRawBitArrayBytes) (index : Nat) : Option Bool :=
  let field_id := GetField index
  let pos_id := GetFieldPos index
  (readWord self.bit_fields field_id).map fun w => (w &&& position_masks pos_id) != 0

/-- `SetBit`: the mask is widened to `unsigned int`, the result narrowed back to a byte. -/
def SetBit (position_masks : Nat → Nat) (self : cRawBitArrayBytes) (index : Nat) (value : Bool) :
    Option cRawBitArrayBytes :=
  let field_id := GetField index
  let pos_id := GetFieldPos index
  let pos_mask := position_masks pos_id
  match readWord self.bit_fields field_id with
  | none => none
  | some w =>
    let w' := if value then (w ||| pos_mask) % 2 ^ 8 else (w &&& notUInt32 pos_mask) % 2 ^ 8
    (writeWord self.bit_fields field_id w').map fun bf => ⟨bf⟩

end cRawBitArrayBytes

/-! ## The engine with 32-bit words -/

/-- The raw store `cRawBitArray`: the block of `unsigned int` words behind `bit_fields`. -/
structure cRawBitArray where
  bit_fields : List Nat
deriving DecidableEq

namespace cRawBitArray

/-- `GetNumFields`: `1 + ((num_bits - 1) >> 5)` in `unsigned long long`. -/
def GetNumFields (num_bits : Nat) : Nat := (1 + (decUInt64 num_bits >>> 5)) % 2 ^ 64

/-- `GetField`: `index >> 5`. -/
def GetField (index : Nat) : Nat := index >>> 5

/-- `GetFieldPos`: `index & 31`. -/
def GetFieldPos (index : Nat) : Nat := index &&& 31

/-- The default constructor: `bit_fields(NULL)`. -/
def empty : cRawBitArray := ⟨[]⟩

/-- `Zero`: the word count is narrowed to `const int num_fields` before the loop. -/
def Zero (self : cRawBitArray) (num_bits : Nat) : Option cRawBitArray :=
  let num_fields : Int := toInt32 (GetNumFields num_bits)
  (fillLoop 0 (toUInt64 num_fields) 0 self.bit_fields).map fun bf => ⟨bf⟩

/-- `Ones`: fill with `~0`, then mask the last word when `num_bits` is not a multiple of 32. -/
def Ones (self : cRawBitArray) (num_bits : Nat) : Option cRawBitArray :=
  let num_fields := GetNumFields num_bits
  match fillLoop (2 ^ 32 - 1) num_fields 0 self.bit_fields with
  | none => none
  | some bf =>
    let last_bit := GetFieldPos num_bits
    if last_bit > 0 then
      match readWord bf (decUInt64 num_fields) with
      | none => none
      | some w =>
        (writeWord bf (decUInt64 num_fields) ((w &&& lowMask last_bit) % 2 ^ 32)).map
          fun bf' => ⟨bf'⟩
    else some ⟨bf⟩

/-- `GetBit`. -/
def GetBit (position_masks : Nat → Nat) (self : cRawBitArray) (index : Nat) : Option Bool :=
  let field_id := GetField index
  let pos_id := GetFieldPos index
  (readWord self.bit_fields field_id).map fun w => (w &&& position_masks pos_id) != 0

/-- `SetBit`. -/
def SetBit (position_masks : Nat → Nat) (self : cRawBitArray) (index : Nat) (value : Bool) :
    Option cRawBitArray :=
  let field_id := GetField index
  let pos_id := GetFieldPos index
  let pos_mask := position_masks pos_id
  match readWord self.bit_fields field_id with
  | none => none
  | some w =>
    let w' := if value then (w ||| pos_mask) % 2 ^ 32 else (w &&& notUInt32 pos_mask) % 2 ^ 32
    (writeWord self.bit_fields field_id w').map fun bf => ⟨bf⟩

end cRawBitArray

/-! ## Output

The printing methods write to the `ostream` of the caller with `operator<<`.  What an insertion
writes is decided by the stream (its format flags, width, locale and error state), not by
`cBitArray.h`, so the stream is a parameter of the printing methods. -/

/-- The `ostream` of the caller, as far as the printing methods use it: a state `σ` and the
three insertions they make, each giving the state of the stream after it. -/
structure OStream (σ : Type) where
  /-- The insertion `out << b` of a `bool`. -/
  insert_bool : σ → Bool → σ
  /-- The insertion `out << i` of an `unsigned long long`. -/
  insert_index : σ → Nat → σ
  /-- The insertion `out << " "` of a string literal. -/
  insert_text : σ → List Char → σ

/-- A stream with the format flags of a newly constructed `std::ostream` and no error bit set.
Its state is the text written so far; a `bool` is written as `1` or `0`, an index as its
decimal digits, a string as it is. -/
def plainStream : OStream (List Char) where
  insert_bool out b := out ++ [if b then '1' else '0']
  insert_index out i := out ++ Nat.toDigits 10 i
  insert_text out t := out ++ t

/-- The stream `plainStream` after `out << std::boolalpha`: a `bool` is written as `true` or
`false`. -/
def boolalphaStream : OStream (List Char) where
  insert_bool out b := out ++ (if b then ['t', 'r', 'u', 'e'] else ['f', 'a', 'l', 's', 'e'])
  insert_index out i := out ++ Nat.toDigits 10 i
  insert_text out t := out ++ t

/-- The stream `plainStream` after `out << std::hex`: an index is written as its hexadecimal
digits. -/
def hexStream : OStream (List Char) where
  insert_bool out b := out ++ [if b then '1' else '0']
  insert_index out i := out ++ Nat.toDigits 16 i
  insert_text out t := out ++ t

/-- A stream with `failbit` set: no insertion writes anything. -/
def failedStream : OStream (List Char) where
  insert_bool out _ := out
  insert_index out _ := out
  insert_text out _ := out

/-- Where a printing loop stands when the model stops following it. -/
inductive LoopStatus where
  /-- The loop condition was false and the function returned. -/
  | returned
  /-- The call `GetBit(index)` read a word outside the allocated block. -/
  | undefined_behaviour (index : Nat)
  /-- The loop is still running, about to test its condition with this value of `i`. -/
  | running (i : Nat)
deriving DecidableEq

/-- The loop of `cRawBitArrayBytes::PrintRightToLeft`,
`for (unsigned long long i = num_bits - 1; i >= 0; i--) out << GetBit(i);`,
followed for at most `steps` tests of its condition from the current `i`. -/
def cRawBitArrayBytes.PrintRightToLeft.loop {σ : Type} (os : OStream σ) (position_masks : Nat → Nat)
    (self : cRawBitArrayBytes) : Nat → Nat → σ → σ × LoopStatus
  | 0, i, out => (out, .running i)
  | steps + 1, i, out =>
    if i ≥ 0 then
      match self.GetBit position_masks i with
      | some b => cRawBitArrayBytes.PrintRightToLeft.loop os position_masks self steps
          (decUInt64 i) (os.insert_bool out b)
      | none => (out, .undefined_behaviour i)
    else (out, .returned)

/-- `cRawBitArrayBytes::PrintRightToLeft`, followed for at most `steps` tests of the loop
condition: the stream after the insertions made and where the loop stands. -/
def cRawBitArrayBytes.PrintRightToLeft {σ : Type} (os : OStream σ) (position_masks : Nat → Nat)
    (self : cRawBitArrayBytes) (num_bits : Nat) (steps : Nat) (out : σ) : σ × LoopStatus :=
  cRawBitArrayBytes.PrintRightToLeft.loop os position_masks self steps (decUInt64 num_bits) out

/-- The loop of `cRawBitArrayBytes::Print`,
`for (unsigned long long i = 0; i < num_bits; i++) out << GetBit(i);`, entered with the
current value of `i`. -/
def cRawBitArrayBytes.Print.loop {σ : Type} (os : OStream σ) (position_masks : Nat → Nat) (self : cRawBitArrayBytes)
    (num_bits : Nat) (i : Nat) (out : σ) : σ × LoopStatus :=
  if i < num_bits then
    match self.GetBit position_masks i with
    | some b => cRawBitArrayBytes.Print.loop os position_masks self num_bits (i + 1) (os.insert_bool out b)
    | none => (out, .undefined_behaviour i)
  else (out, .returned)
termination_by num_bits - i

/-- `cRawBitArrayBytes::Print`: the stream after the insertions made and how the call ended. -/
def cRawBitArrayBytes.Print {σ : Type} (os : OStream σ) (position_masks : Nat → Nat) (self : cRawBitArrayBytes)
    (num_bits : Nat) (out : σ) : σ × LoopStatus :=
  cRawBitArrayBytes.Print.loop os position_masks self num_bits 0 out

/-- The loop of `cRawBitArrayBytes::PrintOneIDs`,
`for (unsigned long long i = 0; i < num_bits; i++) if (GetBit(i) == true) out << i << " ";`,
entered with the current value of `i`. -/
def cRawBitArrayBytes.PrintOneIDs.loop {σ : Type} (os : OStream σ) (position_masks : Nat → Nat) (self : cRawBitArrayBytes)
    (num_bits : Nat) (i : Nat) (out : σ) : σ × LoopStatus :=
  if i < num_bits then
    match self.GetBit position_masks i with
    | some b =>
      if b == true then
        cRawBitArrayBytes.PrintOneIDs.loop os position_masks self num_bits (i + 1)
          (os.insert_text (os.insert_index out i) [' '])
      else cRawBitArrayBytes.PrintOneIDs.loop os position_masks self num_bits (i + 1) out
    | none => (out, .undefined_behaviour i)
  else (out, .returned)
termination_by num_bits - i

/-- `cRawBitArrayBytes::PrintOneIDs`: the stream after the insertions made and how the call ended. -/
def cRawBitArrayBytes.PrintOneIDs {σ : Type} (os : OStream σ) (position_masks : Nat → Nat) (self : cRawBitArrayBytes)
    (num_bits : Nat) (out : σ) : σ × LoopStatus :=
  cRawBitArrayBytes.PrintOneIDs.loop os position_masks self num_bits 0 out

/-- The loop of `cRawBitArray::PrintRightToLeft`,
`for (unsigned long long i = num_bits - 1; i >= 0; i--) out << GetBit(i);`,
followed for at most `steps` tests of its condition from the current `i`. -/
def cRawBitArray.PrintRightToLeft.loop {σ : Type} (os : OStream σ) (position_masks : Nat → Nat)
    (self : cRawBitArray) : Nat → Nat → σ → σ × LoopStatus
  | 0, i, out => (out, .running i)
  | steps + 1, i, out =>
    if i ≥ 0 then
      match self.GetBit position_masks i with
      | some b => cRawBitArray.PrintRightToLeft.loop os position_masks self steps
          (decUInt64 i) (os.insert_bool out b)
      | none => (out, .undefined_behaviour i)
    else (out, .returned)

/-- `cRawBitArray::PrintRightToLeft`, followed for at most `steps` tests of the loop
condition: the stream after the insertions made and where the loop stands. -/
def cRawBitArray.PrintRightToLeft {σ : Type} (os : OStream σ) (position_masks : Nat → Nat)
    (self : cRawBitArray) (num_bits : Nat) (steps : Nat) (out : σ) : σ × LoopStatus :=
  cRawBitArray.PrintRightToLeft.loop os position_masks self steps (decUInt64 num_bits) out

/-- The loop of `cRawBitArray::Print`,
`for (unsigned long long i = 0; i < num_bits; i++) out << GetBit(i);`, entered with the
current value of `i`. -/
def cRawBitArray.Print.loop {σ : Type} (os : OStream σ) (position_masks : Nat → Nat) (self : cRawBitArray)
    (num_bits : Nat) (i : Nat) (out : σ) : σ × LoopStatus :=
  if i < num_bits then
    match self.GetBit position_masks i with
    | some b => cRawBitArray.Print.loop os position_masks self num_bits (i + 1) (os.insert_bool out b)
    | none => (out, .undefined_behaviour i)
  else (out, .returned)
termination_by num_bits - i

/-- `cRawBitArray::Print`: the stream after the insertions made and how the call ended. -/
def cRawBitArray.Print {σ : Type} (os : OStream σ) (position_masks : Nat → Nat) (self : cRawBitArray)
    (num_bits : Nat) (out : σ) : σ × LoopStatus :=
  cRawBitArray.Print.loop os position_masks self num_bits 0 out

/-- The loop of `cRawBitArray::PrintOneIDs`,
`for (unsigned long long i = 0; i < num_bits; i++) if (GetBit(i) == true) out << i << " ";`,
entered with the current value of `i`. -/
def cRawBitArray.PrintOneIDs.loop {σ : Type} (os : OStream σ) (position_masks : Nat → Nat) (self : cRawBitArray)
    (num_bits : Nat) (i : Nat) (out : σ) : σ × LoopStatus :=
  if i < num_bits then
    match self.GetBit position_masks i with
    | some b =>
      if b == true then
        cRawBitArray.PrintOneIDs.loop os position_masks self num_bits (i + 1)
          (os.insert_text (os.insert_index out i) [' '])
      else cRawBitArray.PrintOneIDs.loop os position_masks self num_bits (i + 1) out
    | none => (out, .undefined_behaviour i)
  else (out, .returned)
termination_by num_bits - i

/-- `cRawBitArray::PrintOneIDs`: the stream after the insertions made and how the call ended. -/
def cRawBitArray.PrintOneIDs {σ : Type} (os : OStream σ) (position_masks : Nat → Nat) (self : cRawBitArray)
    (num_bits : Nat) (out : σ) : σ × LoopStatus :=
  cRawBitArray.PrintOneIDs.loop os position_masks self num_bits 0 out

/-! ## Engine combinators without a body

`cBitArray.h` declares the boolean combinators of both engines and defines them elsewhere.  The
facades below take them as a parameter. -/

/-- The twelve boolean combinators of an engine `Raw`.  The first six are the overloads
`self.OP(array1, array2, num_bits)`, which store into `self`; the last six are the overloads
`self.OP(array2, num_bits)`, which combine into `self`.  Each returns the new `self`, or `none`
when it touches a word outside an allocated block. -/
structure Combinators (Raw : Type) where
  AND : Raw → Raw → Raw → Nat → Option Raw
  OR : Raw → Raw → Raw → Nat → Option Raw
  NAND : Raw → Raw → Raw → Nat → Option Raw
  NOR : Raw → Raw → Raw → Nat → Option Raw
  XOR : Raw → Raw → Raw → Nat → Option Raw
  EQU : Raw → Raw → Raw → Nat → Option Raw
  AND_in_place : Raw → Raw → Nat → Option Raw
  OR_in_place : Raw → Raw → Nat → Option Raw
  NAND_in_place : Raw → Raw → Nat → Option Raw
  NOR_in_place : Raw → Raw → Nat → Option Raw
  XOR_in_place : Raw → Raw → Nat → Option Raw
  EQU_in_place : Raw → Raw → Nat → Option Raw

/-! ## The facade `cBitArrayBytes` -/

/-- The class `cBitArrayBytes`: an engine and the number of bits it holds. -/
structure cBitArrayBytes where
  bit_array : cRawBitArrayBytes
  array_size : Nat
deriving DecidableEq

namespace cBitArrayBytes

/-- The default constructor: an empty engine and `array_size(0)`. -/
def empty : cBitArrayBytes := ⟨cRawBitArrayBytes.empty, 0⟩

/-- `GetSize`. -/
def GetSize (self : cBitArrayBytes) : Nat := self.array_size

/-- The receiver after a call that hands it to the engine, with the outcome of the call.  After
undefined behaviour in the engine the contents of the receiver mean nothing; the model keeps
the receiver it had. -/
def afterEngine (self : cBitArrayBytes) :
    Option cRawBitArrayBytes → Except Fault Unit × cBitArrayBytes
  | some ba => (.ok (), { self with bit_array := ba })
  | none => (.error .undefined_behaviour, self)

/-- `Set`: `assert(index < array_size)`, then `bit_array.SetBit(index, value)`.  The result is
the outcome of the call and the array after it. -/
def Set (position_masks : Nat → Nat) (self : cBitArrayBytes) (index : Nat) (value : Bool) :
    Except Fault Unit × cBitArrayBytes :=
  if index < self.array_size then
    self.afterEngine (self.bit_array.SetBit position_masks index value)
  else (.error .assert_failed, self)

/-- `Get`: `assert(index < array_size)`, then `bit_array.GetBit(index)`. -/
def Get (position_masks : Nat → Nat) (self : cBitArrayBytes) (index : Nat) : Except Fault Bool :=
  if index < self.array_size then
    liftEngine (self.bit_array.GetBit position_masks index)
  else .error .assert_failed

/-- `Clear`: `bit_array.Zero(array_size)`. -/
def Clear (self : cBitArrayBytes) : Except Fault Unit × cBitArrayBytes :=
  self.afterEngine (self.bit_array.Zero self.array_size)

/-- `SetAll`: `bit_array.Ones(array_size)`. -/
def SetAll (self : cBitArrayBytes) : Except Fault Unit × cBitArrayBytes :=
  self.afterEngine (self.bit_array.Ones self.array_size)

/-- `AND`: `assert(array_size == array2.array_size)`, then the engine combines the two arrays
into a default-constructed `out_array`, which gets the size of the receiver. -/
def AND (ops : Combinators cRawBitArrayBytes) (self array2 : cBitArrayBytes) :
    Except Fault cBitArrayBytes :=
  if self.array_size = array2.array_size then
    let out_array : cBitArrayBytes := empty
    match ops.AND out_array.bit_array self.bit_array array2.bit_array self.array_size with
    | some ba => .ok { bit_array := ba, array_size := self.array_size }
    | none => .error .undefined_behaviour
  else .error .assert_failed

/-- `OR`: `assert(array_size == array2.array_size)`, then the engine combines the two arrays
into a default-constructed `out_array`, which gets the size of the receiver. -/
def OR (ops : Combinators cRawBitArrayBytes) (self array2 : cBitArrayBytes) :
    Except Fault cBitArrayBytes :=
  if self.array_size = array2.array_size then
    let out_array : cBitArrayBytes := empty
    match ops.OR out_array.bit_array self.bit_array array2.bit_array self.array_size with
    | some ba => .ok { bit_array := ba, array_size := self.array_size }
    | none => .error .undefined_behaviour
  else .error .assert_failed

/-- `NAND`: `assert(array_size == array2.array_size)`, then the engine combines the two arrays
into a default-constructed `out_array`, which gets the size of the receiver. -/
def NAND (ops : Combinators cRawBitArrayBytes) (self array2 : cBitArrayBytes) :
    Except Fault cBitArrayBytes :=
  if self.array_size = array2.array_size then
    let out_array : cBitArrayBytes := empty
    match ops.NAND out_array.bit_array self.bit_array array2.bit_array self.array_size with
    | some ba => .ok { bit_array := ba, array_size := self.array_size }
    | none => .error .undefined_behaviour
  else .error .assert_failed

/-- `NOR`: `assert(array_size == array2.array_size)`, then the engine combines the two arrays
into a default-constructed `out_array`, which gets the size of the receiver. -/
def NOR (ops : Combinators cRawBitArrayBytes) (self array2 : cBitArrayBytes) :
    Except Fault cBitArrayBytes :=
  if self.array_size = array2.array_size then
    let out_array : cBitArrayBytes := empty
    match ops.NOR out_array.bit_array self.bit_array array2.bit_array self.array_size with
    | some ba => .ok { bit_array := ba, array_size := self.array_size }
    | none => .error .undefined_behaviour
  else .error .assert_failed

/-- `XOR`: `assert(array_size == array2.array_size)`, then the engine combines the two arrays
into a default-constructed `out_array`, which gets the size of the receiver. -/
def XOR (ops : Combinators cRawBitArrayBytes) (self array2 : cBitArrayBytes) :
    Except Fault cBitArrayBytes :=
  if self.array_size = array2.array_size then
    let out_array : cBitArrayBytes := empty
    match ops.XOR out_array.bit_array self.bit_array array2.bit_array self.array_size with
    | some ba => .ok { bit_array := ba, array_size := self.array_size }
    | none => .error .undefined_behaviour
  else .error .assert_failed

/-- `EQU`: `assert(array_size == array2.array_size)`, then the engine combines the two arrays
into a default-constructed `out_array`, which gets the size of the receiver. -/
def EQU (ops : Combinators cRawBitArrayBytes) (self array2 : cBitArrayBytes) :
    Except Fault cBitArrayBytes :=
  if self.array_size = array2.array_size then
    let out_array : cBitArrayBytes := empty
    match ops.EQU out_array.bit_array self.bit_array array2.bit_array self.array_size with
    | some ba => .ok { bit_array := ba, array_size := self.array_size }
    | none => .error .undefined_behaviour
  else .error .assert_failed

/-- `ANDSELF`: `assert(array_size == array2.array_size)`, then `bit_array.AND(array2.bit_array,
array_size)`.  The result is the outcome of the call and the receiver after it. -/
def ANDSELF (ops : Combinators cRawBitArrayBytes) (self array2 : cBitArrayBytes) :
    Except Fault Unit × cBitArrayBytes :=
  if self.array_size = array2.array_size then
    self.afterEngine (ops.AND_in_place self.bit_array array2.bit_array self.array_size)
  else (.error .assert_failed, self)

/-- `ORSELF`: `assert(array_size == array2.array_size)`, then `bit_array.OR(array2.bit_array,
array_size)`.  The result is the outcome of the call and the receiver after it. -/
def ORSELF (ops : Combinators cRawBitArrayBytes) (self array2 : cBitArrayBytes) :
    Except Fault Unit × cBitArrayBytes :=
  if self.array_size = array2.array_size then
    self.afterEngine (ops.OR_in_place self.bit_array array2.bit_array self.array_size)
  else (.error .assert_failed, self)

/-- `NANDSELF`: `assert(array_size == array2.array_size)`, then `bit_array.NAND(array2.bit_array,
array_size)`.  The result is the outcome of the call and the receiver after it. -/
def NANDSELF (ops : Combinators cRawBitArrayBytes) (self array2 : cBitArrayBytes) :
    Except Fault Unit × cBitArrayBytes :=
  if self.array_size = array2.array_size then
    self.afterEngine (ops.NAND_in_place self.bit_array array2.bit_array self.array_size)
  else (.error .assert_failed, self)

/-- `NORSELF`: `assert(array_size == array2.array_size)`, then `bit_array.NOR(array2.bit_array,
array_size)`.  The result is the outcome of the call and the receiver after it. -/
def NORSELF (ops : Combinators cRawBitArrayBytes) (self array2 : cBitArrayBytes) :
    Except Fault Unit × cBitArrayBytes :=
  if self.array_size = array2.array_size then
    self.afterEngine (ops.NOR_in_place self.bit_array array2.bit_array self.array_size)
  else (.error .assert_failed, self)

/-- `XORSELF`: `assert(array_size == array2.array_size)`, then `bit_array.XOR(array2.bit_array,
array_size)`.  The result is the outcome of the call and the receiver after it. -/
def XORSELF (ops : Combinators cRawBitArrayBytes) (self array2 : cBitArrayBytes) :
    Except Fault Unit × cBitArrayBytes :=
  if self.array_size = array2.array_size then
    self.afterEngine (ops.XOR_in_place self.bit_array array2.bit_array self.array_size)
  else (.error .assert_failed, self)

/-- `EQUSELF`: `assert(array_size == array2.array_size)`, then `bit_array.EQU(array2.bit_array,
array_size)`.  The result is the outcome of the call and the receiver after it. -/
def EQUSELF (ops : Combinators cRawBitArrayBytes) (self array2 : cBitArrayBytes) :
    Except Fault Unit × cBitArrayBytes :=
  if self.array_size = array2.array_size then
    self.afterEngine (ops.EQU_in_place self.bit_array array2.bit_array self.array_size)
  else (.error .assert_failed, self)

/-- `operator&`: `return AND(ar2);`. -/
def operator_and (ops : Combinators cRawBitArrayBytes) (self ar2 : cBitArrayBytes) :
    Except Fault cBitArrayBytes :=
  self.AND ops ar2

/-- `operator|`: `return OR(ar2);`. -/
def operator_or (ops : Combinators cRawBitArrayBytes) (self ar2 : cBitArrayBytes) :
    Except Fault cBitArrayBytes :=
  self.OR ops ar2

/-- `operator^`: `return XOR(ar2);`. -/
def operator_xor (ops : Combinators cRawBitArrayBytes) (self ar2 : cBitArrayBytes) :
    Except Fault cBitArrayBytes :=
  self.XOR ops ar2

/-- `operator&=`: `return ANDSELF(ar2);`. -/
def operator_and_assign (ops : Combinators cRawBitArrayBytes) (self ar2 : cBitArrayBytes) :
    Except Fault Unit × cBitArrayBytes :=
  self.ANDSELF ops ar2

/-- `operator|=`: `return ORSELF(ar2);`. -/
def operator_or_assign (ops : Combinators cRawBitArrayBytes) (self ar2 : cBitArrayBytes) :
    Except Fault Unit × cBitArrayBytes :=
  self.ORSELF ops ar2

/-- `operator^=`: `return XORSELF(ar2);`. -/
def operator_xor_assign (ops : Combinators cRawBitArrayBytes) (self ar2 : cBitArrayBytes) :
    Except Fault Unit × cBitArrayBytes :=
  self.XORSELF ops ar2

end cBitArrayBytes

/-! ## The facade `cBitArray` -/

/-- The class `cBitArray`: an engine and the number of bits it holds. -/
structure cBitArray where
  bit_array : cRawBitArray
  array_size : Nat
deriving DecidableEq

namespace cBitArray

/-- The default constructor: an empty engine and `array_size(0)`. -/
def empty : cBitArray := ⟨cRawBitArray.empty, 0⟩

/-- `GetSize`. -/
def GetSize (self : cBitArray) : Nat := self.array_size

/-- The receiver after a call that hands it to the engine, with the outcome of the call.  After
undefined behaviour in the engine the contents of the receiver mean nothing; the model keeps
the receiver it had. -/
def afterEngine (self : cBitArray) : Option cRawBitArray → Except Fault Unit × cBitArray
  | some ba => (.ok (), { self with bit_array := ba })
  | none => (.error .undefined_behaviour, self)

/-- `Set`: `assert(index < array_size)`, then `bit_array.SetBit(index, value)`.  The result is
the outcome of the call and the array after it. -/
def Set (position_masks : Nat → Nat) (self : cBitArray) (index : Nat) (value : Bool) :
    Except Fault Unit × cBitArray :=
  if index < self.array_size then
    self.afterEngine (self.bit_array.SetBit position_masks index value)
  else (.error .assert_failed, self)

/-- `Get`: `assert(index < array_size)`, then `bit_array.GetBit(index)`. -/
def Get (position_masks : Nat → Nat) (self : cBitArray) (index : Nat) : Except Fault Bool :=
  if index < self.array_size then
    liftEngine (self.bit_array.GetBit position_masks index)
  else .error .assert_failed

/-- `Clear`: `bit_array.Zero(array_size)`. -/
def Clear (self : cBitArray) : Except Fault Unit × cBitArray :=
  self.afterEngine (self.bit_array.Zero self.array_size)

/-- `SetAll`: `bit_array.Ones(array_size)`. -/
def SetAll (self : cBitArray) : Except Fault Unit × cBitArray :=
  self.afterEngine (self.bit_array.Ones self.array_size)

/-- `AND`: `assert(array_size == array2.array_size)`, then the engine combines the two arrays
into a default-constructed `out_array`, which gets the size of the receiver. -/
def AND (ops : Combinators cRawBitArray) (self array2 : cBitArray) : Except Fault cBitArray :=
  if self.array_size = array2.array_size then
    let out_array : cBitArray := empty
    match ops.AND out_array.bit_array self.bit_array array2.bit_array self.array_size with
    | some ba => .ok { bit_array := ba, array_size := self.array_size }
    | none => .error .undefined_behaviour
  else .error .assert_failed

/-- `OR`: `assert(array_size == array2.array_size)`, then the engine combines the two arrays
into a default-constructed `out_array`, which gets the size of the receiver. -/
def OR (ops : Combinators cRawBitArray) (self array2 : cBitArray) : Except Fault cBitArray :=
  if self.array_size = array2.array_size then
    let out_array : cBitArray := empty
    match ops.OR out_array.bit_array self.bit_array array2.bit_array self.array_size with
    | some ba => .ok { bit_array := ba, array_size := self.array_size }
    | none => .error .undefined_behaviour
  else .error .assert_failed

/-- `NAND`: `assert(array_size == array2.array_size)`, then the engine combines the two arrays
into a default-constructed `out_array`, which gets the size of the receiver. -/
def NAND (ops : Combinators cRawBitArray) (self array2 : cBitArray) : Except Fault cBitArray :=
  if self.array_size = array2.array_size then
    let out_array : cBitArray := empty
    match ops.NAND out_array.bit_array self.bit_array array2.bit_array self.array_size with
    | some ba => .ok { bit_array := ba, array_size := self.array_size }
    | none => .error .undefined_behaviour
  else .error .assert_failed

/-- `NOR`: `assert(array_size == array2.array_size)`, then the engine combines the two arrays
into a default-constructed `out_array`, which gets the size of the receiver. -/
def NOR (ops : Combinators cRawBitArray) (self array2 : cBitArray) : Except Fault cBitArray :=
  if self.array_size = array2.array_size then
    let out_array : cBitArray := empty
    match ops.NOR out_array.bit_array self.bit_array array2.bit_array self.array_size with
    | some ba => .ok { bit_array := ba, array_size := self.array_size }
    | none => .error .undefined_behaviour
  else .error .assert_failed

/-- `XOR`: `assert(array_size == array2.array_size)`, then the engine combines the two arrays
into a default-constructed `out_array`, which gets the size of the receiver. -/
def XOR (ops : Combinators cRawBitArray) (self array2 : cBitArray) : Except Fault cBitArray :=
  if self.array_size = array2.array_size then
    let out_array : cBitArray := empty
    match ops.XOR out_array.bit_array self.bit_array array2.bit_array self.array_size with
    | some ba => .ok { bit_array := ba, array_size := self.array_size }
    | none => .error .undefined_behaviour
  else .error .assert_failed

/-- `EQU`: `assert(array_size == array2.array_size)`, then the engine combines the two arrays
into a default-constructed `out_array`, which gets the size of the receiver. -/
def EQU (ops : Combinators cRawBitArray) (self array2 : cBitArray) : Except Fault cBitArray :=
  if self.array_size = array2.array_size then
    let out_array : cBitArray := empty
    match ops.EQU out_array.bit_array self.bit_array array2.bit_array self.array_size with
    | some ba => .ok { bit_array := ba, array_size := self.array_size }
    | none => .error .undefined_behaviour
  else .error .assert_failed

/-- `ANDSELF`: `assert(array_size == array2.array_size)`, then `bit_array.AND(array2.bit_array,
array_size)`.  The result is the outcome of the call and the receiver after it. -/
def ANDSELF (ops : Combinators cRawBitArray) (self array2 : cBitArray) :
    Except Fault Unit × cBitArray :=
  if self.array_size = array2.array_size then
    self.afterEngine (ops.AND_in_place self.bit_array array2.bit_array self.array_size)
  else (.error .assert_failed, self)

/-- `ORSELF`: `assert(array_size == array2.array_size)`, then `bit_array.OR(array2.bit_array,
array_size)`.  The result is the outcome of the call and the receiver after it. -/
def ORSELF (ops : Combinators cRawBitArray) (self array2 : cBitArray) :
    Except Fault Unit × cBitArray :=
  if self.array_size = array2.array_size then
    self.afterEngine (ops.OR_in_place self.bit_array array2.bit_array self.array_size)
  else (.error .assert_failed, self)

/-- `NANDSELF`: `assert(array_size == array2.array_size)`, then `bit_array.NAND(array2.bit_array,
array_size)`.  The result is the outcome of the call and the receiver after it. -/
def NANDSELF (ops : Combinators cRawBitArray) (self array2 : cBitArray) :
    Except Fault Unit × cBitArray :=
  if self.array_size = array2.array_size then
    self.afterEngine (ops.NAND_in_place self.bit_array array2.bit_array self.array_size)
  else (.error .assert_failed, self)

/-- `NORSELF`: `assert(array_size == array2.array_size)`, then `bit_array.NOR(array2.bit_array,
array_size)`.  The result is the outcome of the call and the receiver after it. -/
def NORSELF (ops : Combinators cRawBitArray) (self array2 : cBitArray) :
    Except Fault Unit × cBitArray :=
  if self.array_size = array2.array_size then
    self.afterEngine (ops.NOR_in_place self.bit_array array2.bit_array self.array_size)
  else (.error .assert_failed, self)

/-- `XORSELF`: `assert(array_size == array2.array_size)`, then `bit_array.XOR(array2.bit_array,
array_size)`.  The result is the outcome of the call and the receiver after it. -/
def XORSELF (ops : Combinators cRawBitArray) (self array2 : cBitArray) :
    Except Fault Unit × cBitArray :=
  if self.array_size = array2.array_size then
    self.afterEngine (ops.XOR_in_place self.bit_array array2.bit_array self.array_size)
  else (.error .assert_failed, self)

/-- `EQUSELF`: `assert(array_size == array2.array_size)`, then `bit_array.EQU(array2.bit_array,
array_size)`.  The result is the outcome of the call and the receiver after it. -/
def EQUSELF (ops : Combinators cRawBitArray) (self array2 : cBitArray) :
    Except Fault Unit × cBitArray :=
  if self.array_size = array2.array_size then
    self.afterEngine (ops.EQU_in_place self.bit_array array2.bit_array self.array_size)
  else (.error .assert_failed, self)

/-- `operator&`: `return AND(ar2);`. -/
def operator_and (ops : Combinators cRawBitArray) (self ar2 : cBitArray) : Except Fault cBitArray :=
  self.AND ops ar2

/-- `operator|`: `return OR(ar2);`. -/
def operator_or (ops : Combinators cRawBitArray) (self ar2 : cBitArray) : Except Fault cBitArray :=
  self.OR ops ar2

/-- `operator^`: `return XOR(ar2);`. -/
def operator_xor (ops : Combinators cRawBitArray) (self ar2 : cBitArray) : Except Fault cBitArray :=
  self.XOR ops ar2

/-- `operator&=`: `return ANDSELF(ar2);`. -/
def operator_and_assign (ops : Combinators cRawBitArray) (self ar2 : cBitArray) :
    Except Fault Unit × cBitArray :=
  self.ANDSELF ops ar2

/-- `operator|=`: `return ORSELF(ar2);`. -/
def operator_or_assign (ops : Combinators cRawBitArray) (self ar2 : cBitArray) :
    Except Fault Unit × cBitArray :=
  self.ORSELF ops ar2

/-- `operator^=`: `return XORSELF(ar2);`. -/
def operator_xor_assign (ops : Combinators cRawBitArray) (self ar2 : cBitArray) :
    Except Fault Unit × cBitArray :=
  self.XORSELF ops ar2

end cBitArray

/-! ## Construction with a size, and sequences of calls -/

/-- A call of `Clear()`, `SetAll()` or `Set(index, value)` on a facade. -/
inductive Call where
  | Clear
  | SetAll
  | Set (index : Nat) (value : Bool)
deriving DecidableEq

/-- The sized constructor `cRawBitArrayBytes(num_bits)`: `new unsigned char[num_fields]` gives a block of
`num_fields` words whose content is not initialised, here the words `fresh k`; then
`Zero(num_bits)`. -/
def cRawBitArrayBytes.sized (fresh : Nat → Nat) (num_bits : Nat) : Option cRawBitArrayBytes :=
  let num_fields := cRawBitArrayBytes.GetNumFields num_bits
  let bit_fields := (List.range num_fields).map fun k => fresh k % 2 ^ 8
  cRawBitArrayBytes.Zero ⟨bit_fields⟩ num_bits

/-- The sized constructor `cBitArrayBytes(in_size)`: `bit_array(in_size), array_size(in_size)`. -/
def cBitArrayBytes.sized (fresh : Nat → Nat) (in_size : Nat) : Except Fault cBitArrayBytes :=
  match cRawBitArrayBytes.sized fresh in_size with
  | some ba => .ok ⟨ba, in_size⟩
  | none => .error .undefined_behaviour

/-- One call on a `cBitArrayBytes`: the outcome and the array after it. -/
def cBitArrayBytes.call (position_masks : Nat → Nat) (self : cBitArrayBytes) : Call → Except Fault Unit × cBitArrayBytes
  | .Clear => self.Clear
  | .SetAll => self.SetAll
  | .Set index value => self.Set position_masks index value

/-- The calls of a list made one after the other on a `cBitArrayBytes`, up to the first one that fails. -/
def cBitArrayBytes.calls (position_masks : Nat → Nat) (self : cBitArrayBytes) : List Call → Except Fault Unit × cBitArrayBytes
  | [] => (.ok (), self)
  | c :: rest =>
    match cBitArrayBytes.call position_masks self c with
    | (.ok _, next) => cBitArrayBytes.calls position_masks next rest
    | (.error e, next) => (.error e, next)

/-- The sized constructor `cRawBitArray(num_bits)`: `new unsigned int[num_fields]` gives a block of
`num_fields` words whose content is not initialised, here the words `fresh k`; then
`Zero(num_bits)`. -/
def cRawBitArray.sized (fresh : Nat → Nat) (num_bits : Nat) : Option cRawBitArray :=
  let num_fields := cRawBitArray.GetNumFields num_bits
  let bit_fields := (List.range num_fields).map fun k => fresh k % 2 ^ 32
  cRawBitArray.Zero ⟨bit_fields⟩ num_bits

/-- The sized constructor `cBitArray(in_size)`: `bit_array(in_size), array_size(in_size)`. -/
def cBitArray.sized (fresh : Nat → Nat) (in_size : Nat) : Except Fault cBitArray :=
  match cRawBitArray.sized fresh in_size with
  | some ba => .ok ⟨ba, in_size⟩
  | none => .error .undefined_behaviour

/-- One call on a `cBitArray`: the outcome and the array after it. -/
def cBitArray.call (position_masks : Nat → Nat) (self : cBitArray) : Call → Except Fault Unit × cBitArray
  | .Clear => self.Clear
  | .SetAll => self.SetAll
  | .Set index value => self.Set position_masks index value

/-- The calls of a list made one after the other on a `cBitArray`, up to the first one that fails. -/
def cBitArray.calls (position_masks : Nat → Nat) (self : cBitArray) : List Call → Except Fault Unit × cBitArray
  | [] => (.ok (), self)
  | c :: rest =>
    match cBitArray.call position_masks self c with
    | (.ok _, next) => cBitArray.calls position_masks next rest
    | (.error e, next) => (.error e, next)

/-! ## Engine methods declared without a body

`cBitArray.h` declares `FindBit1`, `CountBits`, `CountBits2`, `SHIFT` and `INCREMENT` of both
engines and defines them elsewhere.  They are modelled here from the specification, once for a
word of `width` bits; the methods of the facades that call them are defined in the header and
follow it. -/

/-- Modelled from the spec: the number of words of a store of `num_bits` bits,
"`ceil(bit_count / W)`", which the modelled methods iterate over. -/
def specNumWords (width num_bits : Nat) : Nat := (num_bits + (width - 1)) / width

/-- Modelled from the spec: the read of bit `i` in the modelled methods; the bit "lives in word
`i / W`, at intra-word position `i % W`".  A word outside the block gives `none`. -/
def specBit (width : Nat) (bit_fields : List Nat) (i : Nat) : Option Bool :=
  (readWord bit_fields (i / width)).map fun w => w.testBit (i % width)

/-- Modelled from the spec: the write of bit `i` in the modelled methods, on the word `i / W` at
position `i % W`. -/
def specSetBit (width : Nat) (bit_fields : List Nat) (i : Nat) (v : Bool) : Option (List Nat) :=
  match readWord bit_fields (i / width) with
  | none => none
  | some w =>
    writeWord bit_fields (i / width)
      (if v then (w ||| 2 ^ (i % width)) % 2 ^ width
        else (w &&& notUInt32 (2 ^ (i % width))) % 2 ^ width)

/-- Modelled from the spec: the sentinel of `FindBit1`, "−1 or not found", as a value of the
declared return type `unsigned long long`. -/
def not_found : Nat := 2 ^ 64 - 1

/-- Modelled from the spec: the forward scan of `FindBit1`, at index `i` with `todo` indices left
below `num_bits`. -/
def specFindBit1.scan (width : Nat) (bit_fields : List Nat) : Nat → Nat → Option Nat
  | 0, _ => some not_found
  | todo + 1, i =>
    match specBit width bit_fields i with
    | none => none
    | some true => some i
    | some false => specFindBit1.scan width bit_fields todo (i + 1)

/-- Modelled from the spec: the body of `FindBit1(num_bits, start_pos)`, which "returns the index
of the first bit set to 1 at position ≥ `start_pos`, scanning forward; returns a defined
sentinel when none exists in range". -/
def specFindBit1 (width : Nat) (bit_fields : List Nat) (num_bits start_pos : Nat) : Option Nat :=
  specFindBit1.scan width bit_fields (num_bits - start_pos) start_pos

/-- Modelled from the spec: word `k` of a store of `num_bits` bits with the positions at or beyond
`num_bits` masked off, so that a count runs "over `[0, bit_count)`". -/
def specValidWord (width num_bits k w : Nat) : Nat := w % 2 ^ min width (num_bits - width * k)

/-- Modelled from the spec: the sparse count of one word, "repeatedly clearing the lowest set bit
with a word-level trick" (`w &= w - 1`) and counting the rounds. -/
def clearLowestCount : Nat → Nat → Nat
  | 0, _ => 0
  | fuel + 1, w => if w = 0 then 0 else clearLowestCount fuel (w &&& (w - 1)) + 1

/-- Modelled from the spec: the dense count of one word, "a word-level population-count" of its
low `width` bits. -/
def popCount : Nat → Nat → Nat
  | 0, _ => 0
  | width + 1, w => w % 2 + popCount width (w / 2)

/-- Modelled from the spec: a count that "iterates all words", adding up `wordCount` of each
covering word. -/
def specCountWith (wordCount : Nat → Nat) (width : Nat) (bit_fields : List Nat)
    (num_bits : Nat) : Option Nat :=
  if specNumWords width num_bits ≤ bit_fields.length then
    some ((List.range (specNumWords width num_bits)).map fun k =>
      wordCount (specValidWord width num_bits k (bit_fields.getD k 0))).sum
  else none

/-- Modelled from the spec: the body of `CountBits(num_bits)`, the "sparse-optimized" count. -/
def specCountBits (width : Nat) (bit_fields : List Nat) (num_bits : Nat) : Option Nat :=
  specCountWith (clearLowestCount width) width bit_fields num_bits

/-- Modelled from the spec: the body of `CountBits2(num_bits)`, the "dense-optimized" count. -/
def specCountBits2 (width : Nat) (bit_fields : List Nat) (num_bits : Nat) : Option Nat :=
  specCountWith (popCount width) width bit_fields num_bits

/-- Modelled from the spec: the word with bit `p` set exactly when `f p`, for `p` below the given
number of positions; the modelled shift builds its result words with it. -/
def packWord (f : Nat → Bool) : Nat → Nat
  | 0 => 0
  | p + 1 => packWord f p + (if f p then 2 ^ p else 0)

/-- Modelled from the spec: bit `j` of a store shifted by the signed amount `shift`, "positive =
logical left shift (bit `i` moves to `i + shift_amount`), negative = logical right shift":
"vacated bit positions are filled with 0", no bit at or beyond `num_bits` is populated, and no
bit at or beyond `num_bits` is read. -/
def specShiftedBit (width : Nat) (bit_fields : List Nat) (num_bits : Nat) (shift : Int)
    (j : Nat) : Bool :=
  if 0 ≤ shift then
    decide (j < num_bits) && decide (shift.natAbs ≤ j) &&
      (bit_fields.getD ((j - shift.natAbs) / width) 0).testBit ((j - shift.natAbs) % width)
  else
    decide (j + shift.natAbs < num_bits) &&
      (bit_fields.getD ((j + shift.natAbs) / width) 0).testBit ((j + shift.natAbs) % width)

/-- Modelled from the spec: the covering words of `shift(bit_count, shift_amount)`.  The header
declares the amount as `unsigned long long` and says of it "positive numbers for left and
negative for right (0 does nothing)", so its 64 bits are read as a signed number: "positive =
logical left shift", "negative = logical right shift", "`shift_amount == 0` is a no-op copy"
and a "magnitude ≥ `bit_count` yields an all-zero result". -/
def specShift (width : Nat) (bit_fields : List Nat) (num_bits shift_size : Nat) :
    Option (List Nat) :=
  if specNumWords width num_bits ≤ bit_fields.length then
    if shift_size = 0 then some (bit_fields.take (specNumWords width num_bits))
    else
      some ((List.range (specNumWords width num_bits)).map fun k =>
        packWord
          (fun p => specShiftedBit width bit_fields num_bits (toInt64 shift_size) (width * k + p))
          width)
  else none

/-- Modelled from the spec: the carry of `increment` at bit `i`, with `todo` bits left below
`num_bits`: a clear bit is set and the carry ends; a set bit is cleared and the carry moves on;
a carry out of the top bit "wraps silently". -/
def specIncrement.carry (width : Nat) : Nat → Nat → List Nat → Option (List Nat)
  | 0, _, bit_fields => some bit_fields
  | todo + 1, i, bit_fields =>
    match specBit width bit_fields i with
    | none => none
    | some false => specSetBit width bit_fields i true
    | some true =>
      match specSetBit width bit_fields i false with
      | none => none
      | some next => specIncrement.carry width todo (i + 1) next

/-- Modelled from the spec: the body of `INCREMENT(num_bits)`, which "treats the bit array as an
unsigned binary integer with bit 0 as least-significant, adds 1, and propagates carry across
word and bit boundaries up to `bit_count` bits". -/
def specIncrement (width : Nat) (bit_fields : List Nat) (num_bits : Nat) : Option (List Nat) :=
  specIncrement.carry width num_bits 0 bit_fields

/-- Modelled from the spec: `cRawBitArrayBytes::FindBit1`, declared in the header without a body. -/
def cRawBitArrayBytes.FindBit1 (self : cRawBitArrayBytes) (num_bits start_pos : Nat) : Option Nat :=
  specFindBit1 8 self.bit_fields num_bits start_pos

/-- Modelled from the spec: `cRawBitArrayBytes::CountBits`, declared in the header without a body. -/
def cRawBitArrayBytes.CountBits (self : cRawBitArrayBytes) (num_bits : Nat) : Option Nat :=
  specCountBits 8 self.bit_fields num_bits

/-- Modelled from the spec: `cRawBitArrayBytes::CountBits2`, declared in the header without a body. -/
def cRawBitArrayBytes.CountBits2 (self : cRawBitArrayBytes) (num_bits : Nat) : Option Nat :=
  specCountBits2 8 self.bit_fields num_bits

/-- Modelled from the spec: `cRawBitArrayBytes::SHIFT(array1, num_bits, shift_size)`, declared in the header
without a body: `self` becomes a block of the covering words of the shifted `array1`. -/
def cRawBitArrayBytes.SHIFT (_self array1 : cRawBitArrayBytes) (num_bits shift_size : Nat) : Option cRawBitArrayBytes :=
  (specShift 8 array1.bit_fields num_bits shift_size).map fun bf => ⟨bf⟩

/-- Modelled from the spec: `cRawBitArrayBytes::SHIFT(num_bits, shift_size)`, declared in the header without a
body: the covering words of `self` are shifted in place. -/
def cRawBitArrayBytes.SHIFT_in_place (self : cRawBitArrayBytes) (num_bits shift_size : Nat) : Option cRawBitArrayBytes :=
  (specShift 8 self.bit_fields num_bits shift_size).map fun bf =>
    ⟨bf ++ self.bit_fields.drop (specNumWords 8 num_bits)⟩

/-- Modelled from the spec: `cRawBitArrayBytes::INCREMENT(num_bits)`, declared in the header without a
body. -/
def cRawBitArrayBytes.INCREMENT (self : cRawBitArrayBytes) (num_bits : Nat) : Option cRawBitArrayBytes :=
  (specIncrement 8 self.bit_fields num_bits).map fun bf => ⟨bf⟩

/-- `cBitArrayBytes::CountBits`: `return bit_array.CountBits(array_size);`. -/
def cBitArrayBytes.CountBits (self : cBitArrayBytes) : Except Fault Nat :=
  liftEngine (self.bit_array.CountBits self.array_size)

/-- `cBitArrayBytes::CountBits2`: `return bit_array.CountBits2(array_size);`. -/
def cBitArrayBytes.CountBits2 (self : cBitArrayBytes) : Except Fault Nat :=
  liftEngine (self.bit_array.CountBits2 self.array_size)

/-- `cBitArrayBytes::FindBit1`: `return bit_array.FindBit1(array_size, start_bit);`. -/
def cBitArrayBytes.FindBit1 (self : cBitArrayBytes) (start_bit : Nat) : Except Fault Nat :=
  liftEngine (self.bit_array.FindBit1 self.array_size start_bit)

/-- `cBitArrayBytes::SHIFT(const int shift_size)`: the engine shifts the receiver into a
default-constructed `out_array`, which gets the size of the receiver.  The engine takes its
shift amount as an `unsigned long long`, so the `int` is converted at the call. -/
def cBitArrayBytes.SHIFT (self : cBitArrayBytes) (shift_size : Int) : Except Fault cBitArrayBytes :=
  let out_array : cBitArrayBytes := cBitArrayBytes.empty
  match out_array.bit_array.SHIFT self.bit_array self.array_size (toUInt64 shift_size) with
  | some ba => .ok { bit_array := ba, array_size := self.array_size }
  | none => .error .undefined_behaviour

/-- `cBitArrayBytes::SHIFTSELF(const int shift_size)`: `bit_array.SHIFT(array_size, shift_size)`, with the
same conversion of the `int`. -/
def cBitArrayBytes.SHIFTSELF (self : cBitArrayBytes) (shift_size : Int) : Except Fault Unit × cBitArrayBytes :=
  self.afterEngine (self.bit_array.SHIFT_in_place self.array_size (toUInt64 shift_size))

/-- `cBitArrayBytes::operator<<`: `return SHIFT(shift_size);`. -/
def cBitArrayBytes.operator_shl (self : cBitArrayBytes) (shift_size : Int) : Except Fault cBitArrayBytes :=
  self.SHIFT shift_size

/-- `cBitArrayBytes::operator>>`: `return SHIFT(-shift_size);`, the negation being that of an
`int`. -/
def cBitArrayBytes.operator_shr (self : cBitArrayBytes) (shift_size : Int) : Except Fault cBitArrayBytes :=
  self.SHIFT (negInt32 shift_size)

/-- `cBitArrayBytes::INCREMENTSELF`: `bit_array.INCREMENT(array_size)`. -/
def cBitArrayBytes.INCREMENTSELF (self : cBitArrayBytes) : Except Fault Unit × cBitArrayBytes :=
  self.afterEngine (self.bit_array.INCREMENT self.array_size)

/-- The prefix `cBitArrayBytes::operator++`: `return INCREMENTSELF();`. -/
def cBitArrayBytes.operator_inc (self : cBitArrayBytes) : Except Fault Unit × cBitArrayBytes :=
  self.INCREMENTSELF

/-- The array after `count` calls of the prefix `operator++`, up to the first one that fails. -/
def cBitArrayBytes.increments (self : cBitArrayBytes) : Nat → Except Fault Unit × cBitArrayBytes
  | 0 => (.ok (), self)
  | count + 1 =>
    match cBitArrayBytes.operator_inc self with
    | (.ok _, next) => cBitArrayBytes.increments next count
    | (.error e, next) => (.error e, next)

/-- Modelled from the spec: `cRawBitArray::FindBit1`, declared in the header without a body. -/
def cRawBitArray.FindBit1 (self : cRawBitArray) (num_bits start_pos : Nat) : Option Nat :=
  specFindBit1 32 self.bit_fields num_bits start_pos

/-- Modelled from the spec: `cRawBitArray::CountBits`, declared in the header without a body. -/
def cRawBitArray.CountBits (self : cRawBitArray) (num_bits : Nat) : Option Nat :=
  specCountBits 32 self.bit_fields num_bits

/-- Modelled from the spec: `cRawBitArray::CountBits2`, declared in the header without a body. -/
def cRawBitArray.CountBits2 (self : cRawBitArray) (num_bits : Nat) : Option Nat :=
  specCountBits2 32 self.bit_fields num_bits

/-- Modelled from the spec: `cRawBitArray::SHIFT(array1, num_bits, shift_size)`, declared in the header
without a body: `self` becomes a block of the covering words of the shifted `array1`. -/
def cRawBitArray.SHIFT (_self array1 : cRawBitArray) (num_bits shift_size : Nat) : Option cRawBitArray :=
  (specShift 32 array1.bit_fields num_bits shift_size).map fun bf => ⟨bf⟩

/-- Modelled from the spec: `cRawBitArray::SHIFT(num_bits, shift_size)`, declared in the header without a
body: the covering words of `self` are shifted in place. -/
def cRawBitArray.SHIFT_in_place (self : cRawBitArray) (num_bits shift_size : Nat) : Option cRawBitArray :=
  (specShift 32 self.bit_fields num_bits shift_size).map fun bf =>
    ⟨bf ++ self.bit_fields.drop (specNumWords 32 num_bits)⟩

/-- Modelled from the spec: `cRawBitArray::INCREMENT(num_bits)`, declared in the header without a
body. -/
def cRawBitArray.INCREMENT (self : cRawBitArray) (num_bits : Nat) : Option cRawBitArray :=
  (specIncrement 32 self.bit_fields num_bits).map fun bf => ⟨bf⟩

/-- `cBitArray::CountBits`: `return bit_array.CountBits(array_size);`. -/
def cBitArray.CountBits (self : cBitArray) : Except Fault Nat :=
  liftEngine (self.bit_array.CountBits self.array_size)

/-- `cBitArray::CountBits2`: `return bit_array.CountBits2(array_size);`. -/
def cBitArray.CountBits2 (self : cBitArray) : Except Fault Nat :=
  liftEngine (self.bit_array.CountBits2 self.array_size)

/-- `cBitArray::FindBit1`: `return bit_array.FindBit1(array_size, start_bit);`. -/
def cBitArray.FindBit1 (self : cBitArray) (start_bit : Nat) : Except Fault Nat :=
  liftEngine (self.bit_array.FindBit1 self.array_size start_bit)

/-- `cBitArray::SHIFT(const int shift_size)`: the engine shifts the receiver into a
default-constructed `out_array`, which gets the size of the receiver.  The engine takes its
shift amount as an `unsigned long long`, so the `int` is converted at the call. -/
def cBitArray.SHIFT (self : cBitArray) (shift_size : Int) : Except Fault cBitArray :=
  let out_array : cBitArray := cBitArray.empty
  match out_array.bit_array.SHIFT self.bit_array self.array_size (toUInt64 shift_size) with
  | some ba => .ok { bit_array := ba, array_size := self.array_size }
  | none => .error .undefined_behaviour

/-- `cBitArray::SHIFTSELF(const int shift_size)`: `bit_array.SHIFT(array_size, shift_size)`, with the
same conversion of the `int`. -/
def cBitArray.SHIFTSELF (self : cBitArray) (shift_size : Int) : Except Fault Unit × cBitArray :=
  self.afterEngine (self.bit_array.SHIFT_in_place self.array_size (toUInt64 shift_size))

/-- `cBitArray::operator<<`: `return SHIFT(shift_size);`. -/
def cBitArray.operator_shl (self : cBitArray) (shift_size : Int) : Except Fault cBitArray :=
  self.SHIFT shift_size

/-- `cBitArray::operator>>`: `return SHIFT(-shift_size);`, the negation being that of an
`int`. -/
def cBitArray.operator_shr (self : cBitArray) (shift_size : Int) : Except Fault cBitArray :=
  self.SHIFT (negInt32 shift_size)

/-- `cBitArray::INCREMENTSELF`: `bit_array.INCREMENT(array_size)`. -/
def cBitArray.INCREMENTSELF (self : cBitArray) : Except Fault Unit × cBitArray :=
  self.afterEngine (self.bit_array.INCREMENT self.array_size)

/-- The prefix `cBitArray::operator++`: `return INCREMENTSELF();`. -/
def cBitArray.operator_inc (self : cBitArray) : Except Fault Unit × cBitArray :=
  self.INCREMENTSELF

/-- The array after `count` calls of the prefix `operator++`, up to the first one that fails. -/
def cBitArray.increments (self : cBitArray) : Nat → Except Fault Unit × cBitArray
  | 0 => (.ok (), self)
  | count + 1 =>
    match cBitArray.operator_inc self with
    | (.ok _, next) => cBitArray.increments next count
    | (.error e, next) => (.error e, next)

/-! ## Negation, copies, resizing and equality

`cBitArray.h` declares `NOT`, `Copy`, `Resize`, `ResizeClear` and `IsEqual` of both engines and
defines them elsewhere.  The methods of the facades that call them are defined in the header;
they take the engine's methods as a parameter. -/

/-- The methods of an engine `Raw` behind negation, copying, resizing and comparison: `NOT` is
the overload `self.NOT(array1, num_bits)`, `NOT_in_place` is `self.NOT(num_bits)`, `Copy` is
`self.Copy(in_array, num_bits)`, `Resize` is `self.Resize(old_bits, new_bits)`, `ResizeClear` is
`self.ResizeClear(new_bits)` and `IsEqual` is `self.IsEqual(in_array, num_bits)`.  Each returns
the new `self` or the answer, or `none` when it touches a word outside an allocated block. -/
structure Storage (Raw : Type) where
  NOT : Raw → Raw → Nat → Option Raw
  NOT_in_place : Raw → Nat → Option Raw
  Copy : Raw → Raw → Nat → Option Raw
  Resize : Raw → Nat → Nat → Option Raw
  ResizeClear : Raw → Nat → Option Raw
  IsEqual : Raw → Raw → Nat → Option Bool

/-- `cBitArrayBytes::NOT`: the engine negates the receiver into a default-constructed `out_array`, which
gets the size of the receiver. -/
def cBitArrayBytes.NOT (ops : Storage cRawBitArrayBytes) (self : cBitArrayBytes) : Except Fault cBitArrayBytes :=
  let out_array : cBitArrayBytes := cBitArrayBytes.empty
  match ops.NOT out_array.bit_array self.bit_array self.array_size with
  | some ba => .ok { bit_array := ba, array_size := self.array_size }
  | none => .error .undefined_behaviour

/-- `cBitArrayBytes::NOTSELF`: `bit_array.NOT(array_size)`. -/
def cBitArrayBytes.NOTSELF (ops : Storage cRawBitArrayBytes) (self : cBitArrayBytes) : Except Fault Unit × cBitArrayBytes :=
  self.afterEngine (ops.NOT_in_place self.bit_array self.array_size)

/-- `cBitArrayBytes::Resize`: `bit_array.Resize(array_size, new_size); array_size = new_size;`. -/
def cBitArrayBytes.Resize (ops : Storage cRawBitArrayBytes) (self : cBitArrayBytes) (new_size : Nat) : Except Fault Unit × cBitArrayBytes :=
  match ops.Resize self.bit_array self.array_size new_size with
  | some ba => (.ok (), { bit_array := ba, array_size := new_size })
  | none => (.error .undefined_behaviour, self)

/-- `cBitArrayBytes::ResizeClear`: `bit_array.ResizeClear(new_size); array_size = new_size;`. -/
def cBitArrayBytes.ResizeClear (ops : Storage cRawBitArrayBytes) (self : cBitArrayBytes) (new_size : Nat) :
    Except Fault Unit × cBitArrayBytes :=
  match ops.ResizeClear self.bit_array new_size with
  | some ba => (.ok (), { bit_array := ba, array_size := new_size })
  | none => (.error .undefined_behaviour, self)

/-- `cBitArrayBytes::operator=`: `bit_array.Copy(in_array.bit_array, in_array.array_size);
array_size = in_array.array_size;`. -/
def cBitArrayBytes.operator_assign (ops : Storage cRawBitArrayBytes) (self in_array : cBitArrayBytes) : Except Fault Unit × cBitArrayBytes :=
  match ops.Copy self.bit_array in_array.bit_array in_array.array_size with
  | some ba => (.ok (), { bit_array := ba, array_size := in_array.array_size })
  | none => (.error .undefined_behaviour, self)

/-- The copy constructor `cBitArrayBytes(const cBitArrayBytes & in_array)`:
`bit_array(in_array.bit_array, in_array.array_size), array_size(in_array.array_size)`, where the
copy constructor of the engine starts from `bit_fields(NULL)` and calls
`Copy(in_array, num_bits)`. -/
def cBitArrayBytes.copy (ops : Storage cRawBitArrayBytes) (in_array : cBitArrayBytes) : Except Fault cBitArrayBytes :=
  match ops.Copy cRawBitArrayBytes.empty in_array.bit_array in_array.array_size with
  | some ba => .ok { bit_array := ba, array_size := in_array.array_size }
  | none => .error .undefined_behaviour

/-- `cBitArrayBytes::operator==`: `if (array_size != in_array.array_size) return false;
return bit_array.IsEqual(in_array.bit_array, array_size);`. -/
def cBitArrayBytes.operator_eq (ops : Storage cRawBitArrayBytes) (self in_array : cBitArrayBytes) : Except Fault Bool :=
  if self.array_size ≠ in_array.array_size then .ok false
  else liftEngine (ops.IsEqual self.bit_array in_array.bit_array self.array_size)

/-- `cBitArray::NOT`: the engine negates the receiver into a default-constructed `out_array`, which
gets the size of the receiver. -/
def cBitArray.NOT (ops : Storage cRawBitArray) (self : cBitArray) : Except Fault cBitArray :=
  let out_array : cBitArray := cBitArray.empty
  match ops.NOT out_array.bit_array self.bit_array self.array_size with
  | some ba => .ok { bit_array := ba, array_size := self.array_size }
  | none => .error .undefined_behaviour

/-- `cBitArray::NOTSELF`: `bit_array.NOT(array_size)`. -/
def cBitArray.NOTSELF (ops : Storage cRawBitArray) (self : cBitArray) : Except Fault Unit × cBitArray :=
  self.afterEngine (ops.NOT_in_place self.bit_array self.array_size)

/-- `cBitArray::Resize`: `bit_array.Resize(array_size, new_size); array_size = new_size;`. -/
def cBitArray.Resize (ops : Storage cRawBitArray) (self : cBitArray) (new_size : Nat) : Except Fault Unit × cBitArray :=
  match ops.Resize self.bit_array self.array_size new_size with
  | some ba => (.ok (), { bit_array := ba, array_size := new_size })
  | none => (.error .undefined_behaviour, self)

/-- `cBitArray::ResizeClear`: `bit_array.ResizeClear(new_size); array_size = new_size;`. -/
def cBitArray.ResizeClear (ops : Storage cRawBitArray) (self : cBitArray) (new_size : Nat) :
    Except Fault Unit × cBitArray :=
  match ops.ResizeClear self.bit_array new_size with
  | some ba => (.ok (), { bit_array := ba, array_size := new_size })
  | none => (.error .undefined_behaviour, self)

/-- `cBitArray::operator=`: `bit_array.Copy(in_array.bit_array, in_array.array_size);
array_size = in_array.array_size;`. -/
def cBitArray.operator_assign (ops : Storage cRawBitArray) (self in_array : cBitArray) : Except Fault Unit × cBitArray :=
  match ops.Copy self.bit_array in_array.bit_array in_array.array_size with
  | some ba => (.ok (), { bit_array := ba, array_size := in_array.array_size })
  | none => (.error .undefined_behaviour, self)

/-- The copy constructor `cBitArray(const cBitArray & in_array)`:
`bit_array(in_array.bit_array, in_array.array_size), array_size(in_array.array_size)`, where the
copy constructor of the engine starts from `bit_fields(NULL)` and calls
`Copy(in_array, num_bits)`. -/
def cBitArray.copy (ops : Storage cRawBitArray) (in_array : cBitArray) : Except Fault cBitArray :=
  match ops.Copy cRawBitArray.empty in_array.bit_array in_array.array_size with
  | some ba => .ok { bit_array := ba, array_size := in_array.array_size }
  | none => .error .undefined_behaviour

/-- `cBitArray::operator==`: `if (array_size != in_array.array_size) return false;
return bit_array.IsEqual(in_array.bit_array, array_size);`. -/
def cBitArray.operator_eq (ops : Storage cRawBitArray) (self in_array : cBitArray) : Except Fault Bool :=
  if self.array_size ≠ in_array.array_size then .ok false
  else liftEngine (ops.IsEqual self.bit_array in_array.bit_array self.array_size)

/-! ## Properties named by the statements -/

/-- The table `position_masks` holds `1 << k` at each position `k` of a `width`-bit word. -/
def MasksArePowers (width : Nat) (position_masks : Nat → Nat) : Prop :=
  ∀ k, k < width → position_masks k = 2 ^ k

/-- A facade operation `f` on two arrays that returns a new array checks the sizes first: whatever
the engine does, the call fails its assertion exactly when the sizes differ. -/
def AssertsEqualSizes {A Ops : Type} (size : A → Nat)
    (f : Ops → A → A → Except Fault A) : Prop :=
  ∀ ops a b, (f ops a b = .error .assert_failed ↔ size a ≠ size b)

/-- A facade operation `f` on two arrays that changes its receiver checks the sizes first: whatever
the engine does, the call fails its assertion exactly when the sizes differ, and then the
receiver is as it was. -/
def AssertsEqualSizesInPlace {A Ops : Type} (size : A → Nat)
    (f : Ops → A → A → Except Fault Unit × A) : Prop :=
  ∀ ops a b, ((f ops a b).1 = .error .assert_failed ↔ size a ≠ size b) ∧
    (size a ≠ size b → (f ops a b).2 = a)

/-- The two arrays hold `n` bits each, in blocks with the covering words, and have the same bit at
every index below `n`. -/
def SameBits (pm8 pm32 : Nat → Nat) (n : Nat) (x : cBitArrayBytes) (y : cBitArray) : Prop :=
  x.array_size = n ∧ y.array_size = n ∧
  (n + 7) / 8 ≤ x.bit_array.bit_fields.length ∧ (n + 31) / 32 ≤ y.bit_array.bit_fields.length ∧
  ∀ i, i < n → ∃ bit, x.bit_array.GetBit pm8 i = some bit ∧ y.bit_array.GetBit pm32 i = some bit

/-- Every `Set` of the list has its index below `n`. -/
def IndicesBelow (n : Nat) (cs : List Call) : Prop :=
  ∀ index value, Call.Set index value ∈ cs → index < n

/-- A read that returned `true`. -/
def readsTrue : Except Fault Bool → Bool
  | .ok true => true
  | _ => false

/-- The number of indices below `n` at which the read `get` returns `true`. -/
def countOnes (get : Nat → Except Fault Bool) (n : Nat) : Nat :=
  ((List.range n).filter fun i => readsTrue (get i)).length

/-- The unsigned integer that the first `n` reads of `get` spell out, bit 0 the least
significant: the sum over `i < n` of `get(i) * 2^i`. -/
def valueOf (get : Nat → Except Fault Bool) : Nat → Nat
  | 0 => 0
  | n + 1 => valueOf get n + (if readsTrue (get n) then 2 ^ n else 0)

/-- Bit `i` of a block of `width`-bit words: position `i % width` of word `i / width`, and `false`
outside the block. -/
def storedBit (width : Nat) (bit_fields : List Nat) (i : Nat) : Bool :=
  (bit_fields.getD (i / width) 0).testBit (i % width)

/-- A facade operation `f` on two arrays that returns a new array: whenever it returns, the array
has the size of the receiver; and it returns when the sizes are equal and the engine's `engine`
completes. -/
def ReturnsSizeOfReceiver {A Raw Ops : Type} (size : A → Nat)
    (engine : Ops → Raw → Raw → Raw → Nat → Option Raw)
    (f : Ops → A → A → Except Fault A) : Prop :=
  ∀ ops a b, (∀ out, f ops a b = .ok out → size out = size a) ∧
    (size a = size b → (∀ s x y n, ∃ r, engine ops s x y n = some r) → ∃ out, f ops a b = .ok out)

/-- A facade operation `f` on two arrays that changes its receiver: the receiver keeps its size;
and the call completes when the sizes are equal and the engine's `engine` completes. -/
def KeepsSizeInPlace {A Raw Ops : Type} (size : A → Nat)
    (engine : Ops → Raw → Raw → Nat → Option Raw)
    (f : Ops → A → A → Except Fault Unit × A) : Prop :=
  ∀ ops a b, size (f ops a b).2 = size a ∧
    (size a = size b → (∀ s x n, ∃ r, engine ops s x n = some r) → (f ops a b).1 = .ok ())

/-- The tail of the last covering word is zero: when `num_bits` is not a multiple of `width`, the
word `(num_bits - 1) / width` is in the block and each of its positions from
`num_bits % width` up to `width` holds 0. -/
def TailZero (width num_bits : Nat) (bit_fields : List Nat) : Prop :=
  num_bits % width ≠ 0 →
    ∃ w, readWord bit_fields ((num_bits - 1) / width) = some w ∧
      ∀ p, num_bits % width ≤ p → p < width → w.testBit p = false

/-- The stream writes a `bool` as the one character `1` or `0` after the text it holds, as a
stream with the default format flags and no error does. -/
def WritesBoolAsDigit (os : OStream (List Char)) : Prop :=
  ∀ out b, os.insert_bool out b = out ++ [if b then '1' else '0']

/-- The stream writes an index as its decimal digits and a string as it is, after the text it
holds, as a stream with the default format flags and no error does. -/
def WritesIndexInDecimal (os : OStream (List Char)) : Prop :=
  (∀ out i, os.insert_index out i = out ++ Nat.toDigits 10 i) ∧
  ∀ out t, os.insert_text out t = out ++ t

/-- The reads `result` are those of the logical shift by `k` of the `n` bits read by `source`:
for `k > 0` bit `i + k` of the result is bit `i` of the source whenever `i + k < n` and the low
`k` bits are 0; for `k < 0` bit `i` of the result is bit `i + |k|` of the source whenever
`i + |k| < n` and the top `|k|` bits are 0; for `k = 0` the bits are those of the source; for
`|k| ≥ n` every bit is 0. -/
def IsLogicalShift (n : Nat) (k : Int) (source result : Nat → Except Fault Bool) : Prop :=
  (0 < k → (∀ i, i + k.natAbs < n → result (i + k.natAbs) = source i) ∧
    ∀ j, j < k.natAbs → j < n → result j = .ok false) ∧
  (k < 0 → (∀ i, i + k.natAbs < n → result i = source (i + k.natAbs)) ∧
    ∀ j, j < n → n ≤ j + k.natAbs → result j = .ok false) ∧
  (k = 0 → ∀ j, j < n → result j = source j) ∧
  (n ≤ k.natAbs → ∀ j, j < n → result j = .ok false)

/-! ## Words and memory -/

theorem readWord_lt {bf : List Nat} {k : Nat} (h : k < bf.length) :
    readWord bf k = some (bf.get ⟨k, h⟩) := by
  simp [readWord, List.getElem?_eq_getElem h]

theorem readWord_isSome {bf : List Nat} {k : Nat} (h : k < bf.length) :
    ∃ w, readWord bf k = some w := ⟨_, readWord_lt h⟩

theorem readWord_eq_none {bf : List Nat} {k : Nat} (h : bf.length ≤ k) :
    readWord bf k = none := by
  simp [readWord, h]

theorem writeWord_lt {bf : List Nat} {k : Nat} (w : Nat) (h : k < bf.length) :
    writeWord bf k w = some (bf.set k w) := by
  simp [writeWord, h]

theorem readWord_set_self {bf : List Nat} {k : Nat} (w : Nat) (h : k < bf.length) :
    readWord (bf.set k w) k = some w := by
  simp [readWord, h]

theorem readWord_set_of_ne (bf : List Nat) {k j : Nat} (w : Nat) (h : k ≠ j) :
    readWord (bf.set k w) j = readWord bf j := by
  simp [readWord, List.getElem?_set_ne h]

theorem mask_test (w k : Nat) : ((w &&& 2 ^ k) != 0) = w.testBit k := by
  cases hb : w.testBit k
  · have : w &&& 2 ^ k = 0 := by
      apply Nat.eq_of_testBit_eq
      intro i
      by_cases hik : k = i
      · subst hik; simp [hb]
      · simp [Nat.testBit_two_pow, hik]
    simp [this]
  · have : (w &&& 2 ^ k).testBit k = true := by simp [hb, Nat.testBit_two_pow]
    have hne : w &&& 2 ^ k ≠ 0 := by
      intro h0
      rw [h0] at this
      simp at this
    simp [hne]

theorem testBit_or_mask (w k p width : Nat) (hp : p < width) :
    ((w ||| 2 ^ k) % 2 ^ width).testBit p = (w.testBit p || decide (k = p)) := by
  simp [Nat.testBit_mod_two_pow, hp, Nat.testBit_two_pow]

theorem notUInt32_two_pow {k : Nat} (hk : k < 32) : notUInt32 (2 ^ k) = 2 ^ 32 - 1 - 2 ^ k := by
  have : 2 ^ k < 2 ^ 32 := Nat.pow_lt_pow_right (by decide) hk
  unfold notUInt32
  rw [Nat.mod_eq_of_lt this]

theorem testBit_notUInt32 {k : Nat} (hk : k < 32) (p : Nat) :
    (notUInt32 (2 ^ k)).testBit p = (decide (p < 32) && !decide (k = p)) := by
  rw [notUInt32_two_pow hk]
  have h2 : 2 ^ k < 2 ^ 32 := Nat.pow_lt_pow_right (by decide) hk
  rw [Nat.sub_sub, Nat.add_comm 1 (2 ^ k), Nat.testBit_two_pow_sub_succ h2]
  simp [Nat.testBit_two_pow]

theorem testBit_and_not_mask (w k p width : Nat) (hk : k < 32) (hw : width ≤ 32)
    (hp : p < width) :
    ((w &&& notUInt32 (2 ^ k)) % 2 ^ width).testBit p = (w.testBit p && !decide (k = p)) := by
  have hp32 : p < 32 := Nat.lt_of_lt_of_le hp hw
  simp [Nat.testBit_mod_two_pow, hp, testBit_notUInt32 hk, hp32]

/-- The word stored by `SetBit`, bit by bit. -/
theorem testBit_updated_word (w k p width : Nat) (v : Bool) (hk : k < 32) (hw : width ≤ 32)
    (hp : p < width) :
    (if v then (w ||| 2 ^ k) % 2 ^ width else (w &&& notUInt32 (2 ^ k)) % 2 ^ width).testBit p
      = if k = p then v else w.testBit p := by
  cases v
  · simp only [Bool.false_eq_true, if_false]
    rw [testBit_and_not_mask w k p width hk hw hp]
    by_cases h : k = p <;> simp [h]
  · simp only [if_true]
    rw [testBit_or_mask w k p width hp]
    by_cases h : k = p <;> simp [h]

theorem updated_word_lt (w m width : Nat) (v : Bool) :
    (if v then (w ||| m) % 2 ^ width else (w &&& notUInt32 m) % 2 ^ width) < 2 ^ width := by
  split <;> exact Nat.mod_lt _ (Nat.two_pow_pos width)

/-! ## Addressing -/

theorem GetField_eq8 (i : Nat) : cRawBitArrayBytes.GetField i = i / 8 := by
  simp [cRawBitArrayBytes.GetField, Nat.shiftRight_eq_div_pow]

theorem GetFieldPos_eq8 (i : Nat) : cRawBitArrayBytes.GetFieldPos i = i % 8 := by
  have h := Nat.and_pow_two_sub_one_eq_mod i 3
  simpa [cRawBitArrayBytes.GetFieldPos] using h

theorem GetFieldPos_lt8 (i : Nat) : cRawBitArrayBytes.GetFieldPos i < 8 := by
  rw [GetFieldPos_eq8]; omega

theorem GetBit_eq8 (pm : Nat → Nat) (hpm : MasksArePowers 8 pm) (s : cRawBitArrayBytes)
    (i : Nat) :
    s.GetBit pm i = (readWord s.bit_fields (i / 8)).map fun w => w.testBit (i % 8) := by
  have hm : pm (i % 8) = 2 ^ (i % 8) := hpm _ (Nat.mod_lt _ (by decide))
  simp only [cRawBitArrayBytes.GetBit, GetField_eq8, GetFieldPos_eq8, hm, mask_test]

theorem SetBit_eq8 (pm : Nat → Nat) (hpm : MasksArePowers 8 pm) (s : cRawBitArrayBytes) (i : Nat)
    (v : Bool) (w : Nat) (hw : readWord s.bit_fields (i / 8) = some w) :
    s.SetBit pm i v = some ⟨s.bit_fields.set (i / 8)
      (if v then (w ||| 2 ^ (i % 8)) % 2 ^ 8 else (w &&& notUInt32 (2 ^ (i % 8))) % 2 ^ 8)⟩ := by
  have hlen : i / 8 < s.bit_fields.length := by
    by_contra hc
    rw [readWord_eq_none (Nat.le_of_not_lt hc)] at hw
    exact Option.noConfusion hw
  have hm : pm (i % 8) = 2 ^ (i % 8) := hpm _ (Nat.mod_lt _ (by decide))
  simp only [cRawBitArrayBytes.SetBit, GetField_eq8, GetFieldPos_eq8, hm, hw,
    writeWord_lt _ hlen, Option.map_some']

theorem GetField_eq32 (i : Nat) : cRawBitArray.GetField i = i / 32 := by
  simp [cRawBitArray.GetField, Nat.shiftRight_eq_div_pow]

theorem GetFieldPos_eq32 (i : Nat) : cRawBitArray.GetFieldPos i = i % 32 := by
  have h := Nat.and_pow_two_sub_one_eq_mod i 5
  simpa [cRawBitArray.GetFieldPos] using h

theorem GetFieldPos_lt32 (i : Nat) : cRawBitArray.GetFieldPos i < 32 := by
  rw [GetFieldPos_eq32]; omega

theorem GetBit_eq32 (pm : Nat → Nat) (hpm : MasksArePowers 32 pm) (s : cRawBitArray) (i : Nat) :
    s.GetBit pm i = (readWord s.bit_fields (i / 32)).map fun w => w.testBit (i % 32) := by
  have hm : pm (i % 32) = 2 ^ (i % 32) := hpm _ (Nat.mod_lt _ (by decide))
  simp only [cRawBitArray.GetBit, GetField_eq32, GetFieldPos_eq32, hm, mask_test]

theorem SetBit_eq32 (pm : Nat → Nat) (hpm : MasksArePowers 32 pm) (s : cRawBitArray) (i : Nat)
    (v : Bool) (w : Nat) (hw : readWord s.bit_fields (i / 32) = some w) :
    s.SetBit pm i v = some ⟨s.bit_fields.set (i / 32)
      (if v then (w ||| 2 ^ (i % 32)) % 2 ^ 32
        else (w &&& notUInt32 (2 ^ (i % 32))) % 2 ^ 32)⟩ := by
  have hlen : i / 32 < s.bit_fields.length := by
    by_contra hc
    rw [readWord_eq_none (Nat.le_of_not_lt hc)] at hw
    exact Option.noConfusion hw
  have hm : pm (i % 32) = 2 ^ (i % 32) := hpm _ (Nat.mod_lt _ (by decide))
  simp only [cRawBitArray.SetBit, GetField_eq32, GetFieldPos_eq32, hm, hw,
    writeWord_lt _ hlen, Option.map_some']

/-- Claim C7. In both engines `GetField` is the quotient and `GetFieldPos` the remainder of the
index by the word width (8, resp. 32): the position is below the width, the index is recovered
from the pair, and two indices share the pair only when they are equal. -/
theorem C7_addressing (i j : Nat) :
    (cRawBitArrayBytes.GetField i = i / 8 ∧ cRawBitArrayBytes.GetFieldPos i = i % 8 ∧
      cRawBitArrayBytes.GetFieldPos i < 8 ∧
      i = 8 * cRawBitArrayBytes.GetField i + cRawBitArrayBytes.GetFieldPos i ∧
      ((cRawBitArrayBytes.GetField i = cRawBitArrayBytes.GetField j ∧
        cRawBitArrayBytes.GetFieldPos i = cRawBitArrayBytes.GetFieldPos j) ↔ i = j)) ∧
    (cRawBitArray.GetField i = i / 32 ∧ cRawBitArray.GetFieldPos i = i % 32 ∧
      cRawBitArray.GetFieldPos i < 32 ∧
      i = 32 * cRawBitArray.GetField i + cRawBitArray.GetFieldPos i ∧
      ((cRawBitArray.GetField i = cRawBitArray.GetField j ∧
        cRawBitArray.GetFieldPos i = cRawBitArray.GetFieldPos j) ↔ i = j)) := by
  simp only [GetField_eq8, GetFieldPos_eq8,
    GetField_eq32, GetFieldPos_eq32]
  refine ⟨⟨trivial, trivial, by omega, by omega, ?_⟩,
    ⟨trivial, trivial, by omega, by omega, ?_⟩⟩
  · constructor
    · rintro ⟨h1, h2⟩; omega
    · rintro rfl; exact ⟨rfl, rfl⟩
  · constructor
    · rintro ⟨h1, h2⟩; omega
    · rintro rfl; exact ⟨rfl, rfl⟩

/-! ## `SetBit` and `GetBit` -/

theorem SetBit_spec8 (pm : Nat → Nat) (hpm : MasksArePowers 8 pm) (s : cRawBitArrayBytes)
    (i : Nat) (v : Bool) (hi : i / 8 < s.bit_fields.length) :
    ∃ w w', readWord s.bit_fields (i / 8) = some w ∧
      s.SetBit pm i v = some ⟨s.bit_fields.set (i / 8) w'⟩ ∧
      w' < 2 ^ 8 ∧ ∀ p, p < 8 → w'.testBit p = if i % 8 = p then v else w.testBit p := by
  obtain ⟨w, hw⟩ := readWord_isSome hi
  exact ⟨w, _, hw, SetBit_eq8 pm hpm s i v w hw, updated_word_lt _ _ _ _,
    fun p hp => testBit_updated_word w (i % 8) p 8 v (by omega) (by decide) hp⟩

theorem SetBit_spec32 (pm : Nat → Nat) (hpm : MasksArePowers 32 pm) (s : cRawBitArray)
    (i : Nat) (v : Bool) (hi : i / 32 < s.bit_fields.length) :
    ∃ w w', readWord s.bit_fields (i / 32) = some w ∧
      s.SetBit pm i v = some ⟨s.bit_fields.set (i / 32) w'⟩ ∧
      w' < 2 ^ 32 ∧ ∀ p, p < 32 → w'.testBit p = if i % 32 = p then v else w.testBit p := by
  obtain ⟨w, hw⟩ := readWord_isSome hi
  exact ⟨w, _, hw, SetBit_eq32 pm hpm s i v w hw, updated_word_lt _ _ _ _,
    fun p hp => testBit_updated_word w (i % 32) p 32 v (by omega) (by decide) hp⟩

/-- Claim C1. With `position_masks[k] = 2^k`, in both engines and for every index whose word is
allocated, `SetBit(i, v)` succeeds and `GetBit(i)` on the resulting store returns `v`. -/
theorem C1_get_after_set (pm8 pm32 : Nat → Nat) (h8 : MasksArePowers 8 pm8)
    (h32 : MasksArePowers 32 pm32) (b : cRawBitArrayBytes) (a : cRawBitArray) (i j : Nat)
    (v : Bool) (hi : cRawBitArrayBytes.GetField i < b.bit_fields.length)
    (hj : cRawBitArray.GetField j < a.bit_fields.length) :
    (∃ b', b.SetBit pm8 i v = some b' ∧ b'.GetBit pm8 i = some v) ∧
    (∃ a', a.SetBit pm32 j v = some a' ∧ a'.GetBit pm32 j = some v) := by
  rw [GetField_eq8] at hi
  rw [GetField_eq32] at hj
  constructor
  · obtain ⟨w, w', _, hset, _, hbits⟩ := SetBit_spec8 pm8 h8 b i v hi
    refine ⟨_, hset, ?_⟩
    rw [GetBit_eq8 pm8 h8, readWord_set_self _ hi]
    simp [hbits (i % 8) (Nat.mod_lt _ (by decide))]
  · obtain ⟨w, w', _, hset, _, hbits⟩ := SetBit_spec32 pm32 h32 a j v hj
    refine ⟨_, hset, ?_⟩
    rw [GetBit_eq32 pm32 h32, readWord_set_self _ hj]
    simp [hbits (j % 32) (Nat.mod_lt _ (by decide))]

/-- Claim C1 at concrete stores: clearing bit 11 of two bytes `0xFF` and bit 40 of two words
`0xFFFFFFFF`. -/
theorem C1_get_after_set_witness :
    (∃ b', (⟨[255, 255]⟩ : cRawBitArrayBytes).SetBit (fun k => 2 ^ k) 11 false = some b' ∧
      b'.GetBit (fun k => 2 ^ k) 11 = some false) ∧
    (∃ a', (⟨[4294967295, 4294967295]⟩ : cRawBitArray).SetBit (fun k => 2 ^ k) 40 false
        = some a' ∧
      a'.GetBit (fun k => 2 ^ k) 40 = some false) :=
  C1_get_after_set (fun k => 2 ^ k) (fun k => 2 ^ k) (fun _ _ => rfl) (fun _ _ => rfl)
    ⟨[255, 255]⟩ ⟨[4294967295, 4294967295]⟩ 11 40 false (by decide) (by decide)

/-- Claim C2. With `position_masks[k] = 2^k`, in both engines `SetBit(i, v)` on an allocated word
succeeds and changes nothing but bit `i`: `GetBit(j)` is the same before and after for every
`j ≠ i`, the block keeps its length, every word other than word `GetField i` is the same, and
inside that word every position of the word other than `GetFieldPos i` keeps its bit. -/
theorem C2_set_frame (pm8 pm32 : Nat → Nat) (h8 : MasksArePowers 8 pm8)
    (h32 : MasksArePowers 32 pm32) (b : cRawBitArrayBytes) (a : cRawBitArray) (i j : Nat)
    (v : Bool) (hi : cRawBitArrayBytes.GetField i < b.bit_fields.length)
    (hj : cRawBitArray.GetField j < a.bit_fields.length) :
    (∃ b', b.SetBit pm8 i v = some b' ∧
      (∀ k, k ≠ i → b'.GetBit pm8 k = b.GetBit pm8 k) ∧
      b'.bit_fields.length = b.bit_fields.length ∧
      (∀ f, f ≠ cRawBitArrayBytes.GetField i →
        readWord b'.bit_fields f = readWord b.bit_fields f) ∧
      (∃ w w', readWord b.bit_fields (cRawBitArrayBytes.GetField i) = some w ∧
        readWord b'.bit_fields (cRawBitArrayBytes.GetField i) = some w' ∧
        ∀ p, p < 8 → p ≠ cRawBitArrayBytes.GetFieldPos i → w'.testBit p = w.testBit p)) ∧
    (∃ a', a.SetBit pm32 j v = some a' ∧
      (∀ k, k ≠ j → a'.GetBit pm32 k = a.GetBit pm32 k) ∧
      a'.bit_fields.length = a.bit_fields.length ∧
      (∀ f, f ≠ cRawBitArray.GetField j →
        readWord a'.bit_fields f = readWord a.bit_fields f) ∧
      (∃ w w', readWord a.bit_fields (cRawBitArray.GetField j) = some w ∧
        readWord a'.bit_fields (cRawBitArray.GetField j) = some w' ∧
        ∀ p, p < 32 → p ≠ cRawBitArray.GetFieldPos j → w'.testBit p = w.testBit p)) := by
  simp only [GetField_eq8, GetField_eq32,
    GetFieldPos_eq8, GetFieldPos_eq32] at hi hj ⊢
  constructor
  · obtain ⟨w, w', hw, hset, _, hbits⟩ := SetBit_spec8 pm8 h8 b i v hi
    refine ⟨_, hset, ?_, by simp, fun f hf => readWord_set_of_ne _ _ (Ne.symm hf),
      ⟨w, w', hw, readWord_set_self _ hi, fun p hp hne => ?_⟩⟩
    · intro k hk
      rw [GetBit_eq8 pm8 h8, GetBit_eq8 pm8 h8]
      by_cases hf : i / 8 = k / 8
      · rw [← hf, readWord_set_self _ hi, hw]
        have hpos : i % 8 ≠ k % 8 := by omega
        simp [hbits (k % 8) (Nat.mod_lt _ (by decide)), hpos]
      · rw [readWord_set_of_ne _ _ hf]
    · rw [hbits p hp, if_neg (Ne.symm hne)]
  · obtain ⟨w, w', hw, hset, _, hbits⟩ := SetBit_spec32 pm32 h32 a j v hj
    refine ⟨_, hset, ?_, by simp, fun f hf => readWord_set_of_ne _ _ (Ne.symm hf),
      ⟨w, w', hw, readWord_set_self _ hj, fun p hp hne => ?_⟩⟩
    · intro k hk
      rw [GetBit_eq32 pm32 h32, GetBit_eq32 pm32 h32]
      by_cases hf : j / 32 = k / 32
      · rw [← hf, readWord_set_self _ hj, hw]
        have hpos : j % 32 ≠ k % 32 := by omega
        simp [hbits (k % 32) (Nat.mod_lt _ (by decide)), hpos]
      · rw [readWord_set_of_ne _ _ hf]
    · rw [hbits p hp, if_neg (Ne.symm hne)]

/-- Claim C2 at concrete stores: clearing bit 11 of two bytes `0xFF` and bit 40 of two words
`0xFFFFFFFF` leaves every other bit readable as before. -/
theorem C2_set_frame_witness :
    (∃ b', (⟨[255, 255]⟩ : cRawBitArrayBytes).SetBit (fun k => 2 ^ k) 11 false = some b' ∧
      ∀ k, k ≠ 11 → b'.GetBit (fun k => 2 ^ k) k
        = (⟨[255, 255]⟩ : cRawBitArrayBytes).GetBit (fun k => 2 ^ k) k) ∧
    (∃ a', (⟨[4294967295, 4294967295]⟩ : cRawBitArray).SetBit (fun k => 2 ^ k) 40 false
        = some a' ∧
      ∀ k, k ≠ 40 → a'.GetBit (fun k => 2 ^ k) k
        = (⟨[4294967295, 4294967295]⟩ : cRawBitArray).GetBit (fun k => 2 ^ k) k) :=
  have h := C2_set_frame (fun k => 2 ^ k) (fun k => 2 ^ k) (fun _ _ => rfl) (fun _ _ => rfl)
    ⟨[255, 255]⟩ ⟨[4294967295, 4294967295]⟩ 11 40 false (by decide) (by decide)
  ⟨h.1.imp fun _ hb => ⟨hb.1, hb.2.1⟩, h.2.imp fun _ ha => ⟨ha.1, ha.2.1⟩⟩

/-! ## The fill loop, `Zero` and `Ones` -/

theorem fillLoop_done (w n i : Nat) (bf : List Nat) (h : n ≤ i) :
    fillLoop w n i bf = some bf := by
  rw [fillLoop, if_neg (Nat.not_lt.mpr h)]

theorem fillLoop_spec (w n : Nat) :
    ∀ (d i : Nat) (bf : List Nat), n - i = d → n ≤ bf.length →
    ∃ bf', fillLoop w n i bf = some bf' ∧ bf'.length = bf.length ∧
      ∀ k, readWord bf' k = if i ≤ k ∧ k < n then some w else readWord bf k := by
  intro d
  induction d with
  | zero =>
    intro i bf hd _
    refine ⟨bf, fillLoop_done w n i bf (by omega), rfl, fun k => ?_⟩
    rw [if_neg (by omega)]
  | succ d ih =>
    intro i bf hd hlen
    have hin : i < n := by omega
    have hib : i < bf.length := by omega
    obtain ⟨bf', h1, h2, h3⟩ := ih (i + 1) (bf.set i w) (by omega) (by simpa using hlen)
    refine ⟨bf', ?_, by simpa using h2, fun k => ?_⟩
    · rw [fillLoop, if_pos hin, writeWord_lt w hib]
      exact h1
    · rw [h3 k]
      by_cases hk : i = k
      · subst hk
        rw [if_neg (by omega), if_pos ⟨Nat.le_refl _, hin⟩, readWord_set_self w hib]
      · rw [readWord_set_of_ne bf w hk]
        by_cases hr : i + 1 ≤ k ∧ k < n
        · rw [if_pos hr, if_pos ⟨by omega, hr.2⟩]
        · rw [if_neg hr, if_neg (by omega)]

theorem fillLoop_all (w n : Nat) (bf : List Nat) (hlen : n ≤ bf.length) :
    ∃ bf', fillLoop w n 0 bf = some bf' ∧ bf'.length = bf.length ∧
      ∀ k, readWord bf' k = if k < n then some w else readWord bf k := by
  obtain ⟨bf', h1, h2, h3⟩ := fillLoop_spec w n (n - 0) 0 bf rfl hlen
  exact ⟨bf', h1, h2, fun k => by simpa using h3 k⟩

theorem decUInt64_pos {x : Nat} (h1 : 1 ≤ x) (h2 : x < 2 ^ 64) : decUInt64 x = x - 1 := by
  unfold decUInt64
  rw [Nat.mod_eq_of_lt h2, if_neg (by omega)]

theorem GetNumFields_pos8 {n : Nat} (h1 : 1 ≤ n) (h2 : n < 2 ^ 64) :
    cRawBitArrayBytes.GetNumFields n = (n - 1) / 8 + 1 := by
  unfold cRawBitArrayBytes.GetNumFields
  rw [decUInt64_pos h1 h2, Nat.shiftRight_eq_div_pow]
  omega

theorem GetNumFields_pos32 {n : Nat} (h1 : 1 ≤ n) (h2 : n < 2 ^ 64) :
    cRawBitArray.GetNumFields n = (n - 1) / 32 + 1 := by
  unfold cRawBitArray.GetNumFields
  rw [decUInt64_pos h1 h2, Nat.shiftRight_eq_div_pow]
  omega

theorem lowMask_eq {m : Nat} (h : m < 32) : lowMask m = 2 ^ m - 1 := by
  interval_cases m <;> rfl

theorem masked_last_word8 {m : Nat} (h : m < 8) : (255 &&& lowMask m) % 2 ^ 8 = 2 ^ m - 1 := by
  interval_cases m <;> rfl

theorem Ones_spec8 (s : cRawBitArrayBytes) {n : Nat} (h1 : 1 ≤ n) (h2 : n < 2 ^ 64)
    (hlen : cRawBitArrayBytes.GetNumFields n ≤ s.bit_fields.length) :
    ∃ s', s.Ones n = some s' ∧ s'.bit_fields.length = s.bit_fields.length ∧
      ∀ k, readWord s'.bit_fields k =
        if k < (n - 1) / 8 then some 255
        else if k = (n - 1) / 8 then some (if n % 8 = 0 then 255 else 2 ^ (n % 8) - 1)
        else readWord s.bit_fields k := by
  have hnf := GetNumFields_pos8 h1 h2
  rw [hnf] at hlen
  obtain ⟨bf1, hfill, hlen1, hw1⟩ := fillLoop_all 255 ((n - 1) / 8 + 1) s.bit_fields hlen
  have hdec : decUInt64 ((n - 1) / 8 + 1) = (n - 1) / 8 := by
    rw [decUInt64_pos (by omega) (by omega)]; omega
  have hlast : readWord bf1 ((n - 1) / 8) = some 255 := by
    rw [hw1, if_pos (by omega)]
  have hin : (n - 1) / 8 < bf1.length := by omega
  unfold cRawBitArrayBytes.Ones
  dsimp only
  rw [hnf, hfill, GetFieldPos_eq8, hdec]
  dsimp only
  by_cases hz : n % 8 = 0
  · rw [if_neg (by omega)]
    refine ⟨_, rfl, hlen1, fun k => ?_⟩
    rw [hw1 k]
    by_cases hk1 : k < (n - 1) / 8
    · rw [if_pos hk1, if_pos (by omega)]
    · by_cases hk2 : k = (n - 1) / 8
      · rw [if_neg hk1, if_pos hk2, if_pos hz, if_pos (by omega)]
      · rw [if_neg hk1, if_neg hk2, if_neg (by omega)]
  · rw [if_pos (by omega), hlast]
    dsimp only
    rw [writeWord_lt _ hin, Option.map_some']
    refine ⟨_, rfl, by simp [hlen1], fun k => ?_⟩
    by_cases hk2 : k = (n - 1) / 8
    · subst hk2
      rw [if_neg (by omega), if_pos rfl, if_neg hz, readWord_set_self _ hin,
        masked_last_word8 (Nat.mod_lt _ (by decide))]
    · rw [readWord_set_of_ne _ _ (Ne.symm hk2), hw1 k, if_neg hk2]
      by_cases hk1 : k < (n - 1) / 8
      · rw [if_pos hk1, if_pos (by omega)]
      · rw [if_neg hk1, if_neg (by omega)]

theorem masked_last_word32 {m : Nat} (h : m < 32) :
    (4294967295 &&& lowMask m) % 2 ^ 32 = 2 ^ m - 1 := by
  interval_cases m <;> rfl

theorem Ones_spec32 (s : cRawBitArray) {n : Nat} (h1 : 1 ≤ n) (h2 : n < 2 ^ 64)
    (hlen : cRawBitArray.GetNumFields n ≤ s.bit_fields.length) :
    ∃ s', s.Ones n = some s' ∧ s'.bit_fields.length = s.bit_fields.length ∧
      ∀ k, readWord s'.bit_fields k =
        if k < (n - 1) / 32 then some 4294967295
        else if k = (n - 1) / 32 then some (if n % 32 = 0 then 4294967295 else 2 ^ (n % 32) - 1)
        else readWord s.bit_fields k := by
  have hnf := GetNumFields_pos32 h1 h2
  rw [hnf] at hlen
  obtain ⟨bf1, hfill, hlen1, hw1⟩ :=
    fillLoop_all 4294967295 ((n - 1) / 32 + 1) s.bit_fields hlen
  have hdec : decUInt64 ((n - 1) / 32 + 1) = (n - 1) / 32 := by
    rw [decUInt64_pos (by omega) (by omega)]; omega
  have hlast : readWord bf1 ((n - 1) / 32) = some 4294967295 := by
    rw [hw1, if_pos (by omega)]
  have hin : (n - 1) / 32 < bf1.length := by omega
  unfold cRawBitArray.Ones
  dsimp only
  rw [hnf, show (2 ^ 32 - 1 : Nat) = 4294967295 from rfl, hfill, GetFieldPos_eq32, hdec]
  dsimp only
  by_cases hz : n % 32 = 0
  · rw [if_neg (by omega)]
    refine ⟨_, rfl, hlen1, fun k => ?_⟩
    rw [hw1 k]
    by_cases hk1 : k < (n - 1) / 32
    · rw [if_pos hk1, if_pos (by omega)]
    · by_cases hk2 : k = (n - 1) / 32
      · rw [if_neg hk1, if_pos hk2, if_pos hz, if_pos (by omega)]
      · rw [if_neg hk1, if_neg hk2, if_neg (by omega)]
  · rw [if_pos (by omega), hlast]
    dsimp only
    rw [writeWord_lt _ hin, Option.map_some']
    refine ⟨_, rfl, by simp [hlen1], fun k => ?_⟩
    by_cases hk2 : k = (n - 1) / 32
    · subst hk2
      rw [if_neg (by omega), if_pos rfl, if_neg hz, readWord_set_self _ hin,
        masked_last_word32 (Nat.mod_lt _ (by decide))]
    · rw [readWord_set_of_ne _ _ (Ne.symm hk2), hw1 k, if_neg hk2]
      by_cases hk1 : k < (n - 1) / 32
      · rw [if_pos hk1, if_pos (by omega)]
      · rw [if_neg hk1, if_neg (by omega)]

theorem allOnes_testBit8 {p : Nat} (hp : p < 8) : (255 : Nat).testBit p = true := by
  have h := Nat.testBit_two_pow_sub_one 8 p
  simpa [hp] using h

theorem GetBit_after_Ones8 (pm : Nat → Nat) (hpm : MasksArePowers 8 pm)
    (s' : cRawBitArrayBytes) {n : Nat} (rest : Nat → Option Nat)
    (hw : ∀ k, readWord s'.bit_fields k =
        if k < (n - 1) / 8 then some 255
        else if k = (n - 1) / 8 then some (if n % 8 = 0 then 255 else 2 ^ (n % 8) - 1)
        else rest k)
    {i : Nat} (hi : i < n) : s'.GetBit pm i = some true := by
  rw [GetBit_eq8 pm hpm, hw]
  have hpos : i % 8 < 8 := Nat.mod_lt _ (by decide)
  by_cases h1 : i / 8 < (n - 1) / 8
  · rw [if_pos h1, Option.map_some', allOnes_testBit8 hpos]
  · rw [if_neg h1, if_pos (by omega), Option.map_some']
    by_cases hz : n % 8 = 0
    · rw [if_pos hz, allOnes_testBit8 hpos]
    · rw [if_neg hz, Nat.testBit_two_pow_sub_one]
      have : i % 8 < n % 8 := by omega
      simp [this]

theorem allOnes_testBit32 {p : Nat} (hp : p < 32) : (4294967295 : Nat).testBit p = true := by
  have h := Nat.testBit_two_pow_sub_one 32 p
  simpa [hp] using h

theorem GetBit_after_Ones32 (pm : Nat → Nat) (hpm : MasksArePowers 32 pm)
    (s' : cRawBitArray) {n : Nat} (rest : Nat → Option Nat)
    (hw : ∀ k, readWord s'.bit_fields k =
        if k < (n - 1) / 32 then some 4294967295
        else if k = (n - 1) / 32 then some (if n % 32 = 0 then 4294967295 else 2 ^ (n % 32) - 1)
        else rest k)
    {i : Nat} (hi : i < n) : s'.GetBit pm i = some true := by
  rw [GetBit_eq32 pm hpm, hw]
  have hpos : i % 32 < 32 := Nat.mod_lt _ (by decide)
  by_cases h1 : i / 32 < (n - 1) / 32
  · rw [if_pos h1, Option.map_some', allOnes_testBit32 hpos]
  · rw [if_neg h1, if_pos (by omega), Option.map_some']
    by_cases hz : n % 32 = 0
    · rw [if_pos hz, allOnes_testBit32 hpos]
    · rw [if_neg hz, Nat.testBit_two_pow_sub_one]
      have : i % 32 < n % 32 := by omega
      simp [this]

/-- Claim C4. In both engines, for a bit count `1 ≤ n < 2^64` and a block that holds the
`GetNumFields n` covering words, `Ones(n)` succeeds and afterwards `GetBit(i)` is true for every
`i < n`: every covering word but the last is the all-ones word and the last one has exactly its
low `n mod W` bits set (all `W` of them when `n mod W = 0`).  At the facade, `SetAll()` on an
array of size `n` succeeds and `Get(i)` is true for every `i < GetSize()`. -/
theorem C4_ones_sets_every_bit (pm8 pm32 : Nat → Nat) (h8 : MasksArePowers 8 pm8)
    (h32 : MasksArePowers 32 pm32) (b : cRawBitArrayBytes) (a : cRawBitArray) (n : Nat)
    (h1 : 1 ≤ n) (h2 : n < 2 ^ 64)
    (hb : cRawBitArrayBytes.GetNumFields n ≤ b.bit_fields.length)
    (ha : cRawBitArray.GetNumFields n ≤ a.bit_fields.length) :
    (∃ b', b.Ones n = some b' ∧
      (∀ i, i < n → b'.GetBit pm8 i = some true) ∧
      (∀ k, k + 1 < cRawBitArrayBytes.GetNumFields n → readWord b'.bit_fields k = some 255) ∧
      readWord b'.bit_fields (cRawBitArrayBytes.GetNumFields n - 1)
        = some (2 ^ (if n % 8 = 0 then 8 else n % 8) - 1) ∧
      cBitArrayBytes.SetAll ⟨b, n⟩ = (.ok (), ⟨b', n⟩) ∧
      ∀ i, i < cBitArrayBytes.GetSize ⟨b', n⟩ →
        cBitArrayBytes.Get pm8 ⟨b', n⟩ i = .ok true) ∧
    (∃ a', a.Ones n = some a' ∧
      (∀ i, i < n → a'.GetBit pm32 i = some true) ∧
      (∀ k, k + 1 < cRawBitArray.GetNumFields n →
        readWord a'.bit_fields k = some 4294967295) ∧
      readWord a'.bit_fields (cRawBitArray.GetNumFields n - 1)
        = some (2 ^ (if n % 32 = 0 then 32 else n % 32) - 1) ∧
      cBitArray.SetAll ⟨a, n⟩ = (.ok (), ⟨a', n⟩) ∧
      ∀ i, i < cBitArray.GetSize ⟨a', n⟩ →
        cBitArray.Get pm32 ⟨a', n⟩ i = .ok true) := by
  constructor
  · obtain ⟨b', hones, _, hw⟩ := Ones_spec8 b h1 h2 hb
    have hbits : ∀ i, i < n → b'.GetBit pm8 i = some true :=
      fun i hi => GetBit_after_Ones8 pm8 h8 b' _ hw hi
    rw [GetNumFields_pos8 h1 h2]
    refine ⟨b', hones, hbits, fun k hk => ?_, ?_, ?_, fun i hi => ?_⟩
    · rw [hw, if_pos (by omega)]
    · rw [hw, if_neg (by omega), if_pos (by omega)]
      by_cases hz : n % 8 = 0
      · rw [if_pos hz, if_pos hz]; rfl
      · rw [if_neg hz, if_neg hz]
    · simp only [cBitArrayBytes.SetAll, hones, cBitArrayBytes.afterEngine]
    · have hi' : i < n := hi
      simp only [cBitArrayBytes.Get, if_pos hi', hbits i hi', liftEngine]
  · obtain ⟨a', hones, _, hw⟩ := Ones_spec32 a h1 h2 ha
    have hbits : ∀ i, i < n → a'.GetBit pm32 i = some true :=
      fun i hi => GetBit_after_Ones32 pm32 h32 a' _ hw hi
    rw [GetNumFields_pos32 h1 h2]
    refine ⟨a', hones, hbits, fun k hk => ?_, ?_, ?_, fun i hi => ?_⟩
    · rw [hw, if_pos (by omega)]
    · rw [hw, if_neg (by omega), if_pos (by omega)]
      by_cases hz : n % 32 = 0
      · rw [if_pos hz, if_pos hz]; rfl
      · rw [if_neg hz, if_neg hz]
    · simp only [cBitArray.SetAll, hones, cBitArray.afterEngine]
    · have hi' : i < n := hi
      simp only [cBitArray.Get, if_pos hi', hbits i hi', liftEngine]

/-- Claim C4 at concrete stores: `Ones(11)` on two bytes and `Ones(63)` on two words. -/
theorem C4_ones_sets_every_bit_witness :
    (∃ b', (⟨[0, 0]⟩ : cRawBitArrayBytes).Ones 11 = some b' ∧
      ∀ i, i < 11 → b'.GetBit (fun k => 2 ^ k) i = some true) ∧
    (∃ a', (⟨[0, 0]⟩ : cRawBitArray).Ones 63 = some a' ∧
      ∀ i, i < 63 → a'.GetBit (fun k => 2 ^ k) i = some true) :=
  ⟨(C4_ones_sets_every_bit (fun k => 2 ^ k) (fun k => 2 ^ k) (fun _ _ => rfl) (fun _ _ => rfl)
      ⟨[0, 0]⟩ ⟨[0]⟩ 11 (by decide) (by decide) (by decide) (by decide)).1.imp
      fun _ h => ⟨h.1, h.2.1⟩,
   (C4_ones_sets_every_bit (fun k => 2 ^ k) (fun k => 2 ^ k) (fun _ _ => rfl) (fun _ _ => rfl)
      ⟨[0, 0, 0, 0, 0, 0, 0, 0]⟩ ⟨[0, 0]⟩ 63 (by decide) (by decide) (by decide)
      (by decide)).2.imp
      fun _ h => ⟨h.1, h.2.1⟩⟩

/-- Claim C5. In both engines, for a bit count `1 ≤ n < 2^64` and a block that holds the covering
words, `Ones(n)` succeeds and, when `n mod W` is not zero, the last covering word has no bit set
at a position `≥ n mod W`.  This includes `n mod 32 = 31`, where the mask `(1 << 31) - 1` wraps
around in `int`. -/
theorem C5_ones_zero_tail (b : cRawBitArrayBytes) (a : cRawBitArray) (n : Nat)
    (h1 : 1 ≤ n) (h2 : n < 2 ^ 64)
    (hb : cRawBitArrayBytes.GetNumFields n ≤ b.bit_fields.length)
    (ha : cRawBitArray.GetNumFields n ≤ a.bit_fields.length) :
    (∃ b', b.Ones n = some b' ∧
      (n % 8 ≠ 0 →
        ∃ w, readWord b'.bit_fields (cRawBitArrayBytes.GetNumFields n - 1) = some w ∧
        ∀ p, cRawBitArrayBytes.GetFieldPos n ≤ p → w.testBit p = false)) ∧
    (∃ a', a.Ones n = some a' ∧
      (n % 32 ≠ 0 → ∃ w, readWord a'.bit_fields (cRawBitArray.GetNumFields n - 1) = some w ∧
        ∀ p, cRawBitArray.GetFieldPos n ≤ p → w.testBit p = false)) := by
  constructor
  · obtain ⟨b', hones, _, hw⟩ := Ones_spec8 b h1 h2 hb
    rw [GetNumFields_pos8 h1 h2, GetFieldPos_eq8]
    refine ⟨b', hones, fun hz => ⟨2 ^ (n % 8) - 1, ?_, fun p hp => ?_⟩⟩
    · rw [hw, if_neg (by omega), if_pos (by omega), if_neg hz]
    · rw [Nat.testBit_two_pow_sub_one]
      simp only [decide_eq_false_iff_not, Nat.not_lt]
      exact hp
  · obtain ⟨a', hones, _, hw⟩ := Ones_spec32 a h1 h2 ha
    rw [GetNumFields_pos32 h1 h2, GetFieldPos_eq32]
    refine ⟨a', hones, fun hz => ⟨2 ^ (n % 32) - 1, ?_, fun p hp => ?_⟩⟩
    · rw [hw, if_neg (by omega), if_pos (by omega), if_neg hz]
    · rw [Nat.testBit_two_pow_sub_one]
      simp only [decide_eq_false_iff_not, Nat.not_lt]
      exact hp

/-- Claim C5 at concrete stores: `Ones(31)` on four bytes and on one word, the case of the mask
`(1 << 31) - 1`. -/
theorem C5_ones_zero_tail_witness :
    (∃ b', (⟨[0, 0, 0, 0]⟩ : cRawBitArrayBytes).Ones 31 = some b' ∧
      (31 % 8 ≠ 0 →
        ∃ w, readWord b'.bit_fields (cRawBitArrayBytes.GetNumFields 31 - 1) = some w ∧
        ∀ p, cRawBitArrayBytes.GetFieldPos 31 ≤ p → w.testBit p = false)) ∧
    (∃ a', (⟨[0]⟩ : cRawBitArray).Ones 31 = some a' ∧
      (31 % 32 ≠ 0 →
        ∃ w, readWord a'.bit_fields (cRawBitArray.GetNumFields 31 - 1) = some w ∧
        ∀ p, cRawBitArray.GetFieldPos 31 ≤ p → w.testBit p = false)) :=
  C5_ones_zero_tail ⟨[0, 0, 0, 0]⟩ ⟨[0]⟩ 31 (by decide) (by decide) (by decide) (by decide)

/-! ## `Zero` with a narrowed word count, and the word count of zero bits -/

theorem Zero_unchanged8 (s : cRawBitArrayBytes) (n : Nat)
    (h : toUInt64 (toInt32 (cRawBitArrayBytes.GetNumFields n)) = 0) : s.Zero n = some s := by
  unfold cRawBitArrayBytes.Zero
  simp only [h, fillLoop_done 0 0 0 s.bit_fields (Nat.le_refl 0), Option.map_some']

theorem Zero_unchanged32 (s : cRawBitArray) (n : Nat)
    (h : toUInt64 (toInt32 (cRawBitArray.GetNumFields n)) = 0) : s.Zero n = some s := by
  unfold cRawBitArray.Zero
  simp only [h, fillLoop_done 0 0 0 s.bit_fields (Nat.le_refl 0), Option.map_some']

theorem readWord_replicate_zero (len w : Nat) (h : 0 < len) :
    readWord (List.replicate len w) 0 = some w := by
  unfold readWord
  rw [List.getElem?_replicate, if_pos h]

/-- Claim C3, at the inputs where it fails.  For `2^35` bits the 8-bit engine needs `2^32` words;
`Zero` narrows that count to `int`, which gives 0, so its loop body never runs: on a block of
`2^32` bytes `0xFF`, `Zero(2^35)` returns with the block as it was and `GetBit(0)` is still
true.  At the facade, `Clear()` on such an array of size `2^35` succeeds and `Get(0)` is still
true.  The 32-bit engine does the same for `2^37` bits. -/
theorem C3_zero_narrows_word_count :
    (cRawBitArrayBytes.GetNumFields (2 ^ 35) = 2 ^ 32 ∧
      toUInt64 (toInt32 (cRawBitArrayBytes.GetNumFields (2 ^ 35))) = 0 ∧
      (⟨List.replicate (2 ^ 32) 255⟩ : cRawBitArrayBytes).Zero (2 ^ 35)
        = some ⟨List.replicate (2 ^ 32) 255⟩ ∧
      (⟨List.replicate (2 ^ 32) 255⟩ : cRawBitArrayBytes).GetBit (fun k => 2 ^ k) 0
        = some true ∧
      cBitArrayBytes.Clear ⟨⟨List.replicate (2 ^ 32) 255⟩, 2 ^ 35⟩
        = (.ok (), ⟨⟨List.replicate (2 ^ 32) 255⟩, 2 ^ 35⟩) ∧
      cBitArrayBytes.Get (fun k => 2 ^ k) ⟨⟨List.replicate (2 ^ 32) 255⟩, 2 ^ 35⟩ 0
        = .ok true) ∧
    (cRawBitArray.GetNumFields (2 ^ 37) = 2 ^ 32 ∧
      toUInt64 (toInt32 (cRawBitArray.GetNumFields (2 ^ 37))) = 0 ∧
      (⟨List.replicate (2 ^ 32) 4294967295⟩ : cRawBitArray).Zero (2 ^ 37)
        = some ⟨List.replicate (2 ^ 32) 4294967295⟩ ∧
      (⟨List.replicate (2 ^ 32) 4294967295⟩ : cRawBitArray).GetBit (fun k => 2 ^ k) 0
        = some true ∧
      cBitArray.Clear ⟨⟨List.replicate (2 ^ 32) 4294967295⟩, 2 ^ 37⟩
        = (.ok (), ⟨⟨List.replicate (2 ^ 32) 4294967295⟩, 2 ^ 37⟩) ∧
      cBitArray.Get (fun k => 2 ^ k) ⟨⟨List.replicate (2 ^ 32) 4294967295⟩, 2 ^ 37⟩ 0
        = .ok true) := by
  have n8 : toUInt64 (toInt32 (cRawBitArrayBytes.GetNumFields (2 ^ 35))) = 0 := by decide
  have n32 : toUInt64 (toInt32 (cRawBitArray.GetNumFields (2 ^ 37))) = 0 := by decide
  have g8 : (⟨List.replicate (2 ^ 32) 255⟩ : cRawBitArrayBytes).GetBit (fun k => 2 ^ k) 0
      = some true := by
    rw [GetBit_eq8 _ (fun _ _ => rfl)]
    exact congrArg _ (readWord_replicate_zero _ _ (by decide))
  have g32 : (⟨List.replicate (2 ^ 32) 4294967295⟩ : cRawBitArray).GetBit (fun k => 2 ^ k) 0
      = some true := by
    rw [GetBit_eq32 _ (fun _ _ => rfl)]
    exact congrArg _ (readWord_replicate_zero _ _ (by decide))
  refine ⟨⟨by decide, n8, Zero_unchanged8 _ _ n8, g8, ?_, ?_⟩,
    ⟨by decide, n32, Zero_unchanged32 _ _ n32, g32, ?_, ?_⟩⟩
  · simp only [cBitArrayBytes.Clear, Zero_unchanged8 _ _ n8, cBitArrayBytes.afterEngine]
  · unfold cBitArrayBytes.Get
    rw [if_pos (show (0 : Nat) < 2 ^ 35 by decide), g8]
    rfl
  · simp only [cBitArray.Clear, Zero_unchanged32 _ _ n32, cBitArray.afterEngine]
  · unfold cBitArray.Get
    rw [if_pos (show (0 : Nat) < 2 ^ 37 by decide), g32]
    rfl

/-- Claim C6, at the input where it fails.  For zero bits `GetNumFields` computes
`1 + ((0 - 1) >> 3)` in `unsigned long long`, where `0 - 1` wraps to `2^64 - 1`: the result is
`2^61` words in the 8-bit engine and `2^59` in the 32-bit engine, not the `ceil(0 / W) = 0`
words of an empty store. -/
theorem C6_word_count_of_zero_bits :
    cRawBitArrayBytes.GetNumFields 0 = 2 ^ 61 ∧
    cRawBitArrayBytes.GetNumFields 0 ≠ (0 + 7) / 8 ∧
    cRawBitArray.GetNumFields 0 = 2 ^ 59 ∧
    cRawBitArray.GetNumFields 0 ≠ (0 + 31) / 32 := by
  decide

/-! ## The checks of the facades -/

theorem SetBit_isSome8 (pm : Nat → Nat) (s : cRawBitArrayBytes) (i : Nat) (v : Bool)
    (h : cRawBitArrayBytes.GetField i < s.bit_fields.length) :
    ∃ s', s.SetBit pm i v = some s' := by
  unfold cRawBitArrayBytes.SetBit
  simp only [readWord_lt h, writeWord_lt _ h, Option.map_some']
  exact ⟨_, rfl⟩

theorem GetBit_isSome8 (pm : Nat → Nat) (s : cRawBitArrayBytes) (i : Nat)
    (h : cRawBitArrayBytes.GetField i < s.bit_fields.length) :
    ∃ bit, s.GetBit pm i = some bit := by
  unfold cRawBitArrayBytes.GetBit
  simp only [readWord_lt h, Option.map_some']
  exact ⟨_, rfl⟩

theorem SetBit_isSome32 (pm : Nat → Nat) (s : cRawBitArray) (i : Nat) (v : Bool)
    (h : cRawBitArray.GetField i < s.bit_fields.length) : ∃ s', s.SetBit pm i v = some s' := by
  unfold cRawBitArray.SetBit
  simp only [readWord_lt h, writeWord_lt _ h, Option.map_some']
  exact ⟨_, rfl⟩

theorem GetBit_isSome32 (pm : Nat → Nat) (s : cRawBitArray) (i : Nat)
    (h : cRawBitArray.GetField i < s.bit_fields.length) : ∃ bit, s.GetBit pm i = some bit := by
  unfold cRawBitArray.GetBit
  simp only [readWord_lt h, Option.map_some']
  exact ⟨_, rfl⟩

/-- Claim C8. With assertions enabled, in both facades `Set(index, value)` and `Get(index)` fail
their assertion exactly when `index ≥ GetSize()`; a failed `Set` leaves the array as it was;
when `index < GetSize()` both are exactly the engine's `SetBit` and `GetBit`.  When moreover
the array holds the words covering its size, `Set` and `Get` succeed exactly when
`index < GetSize()`. -/
theorem C8_set_get_check_bounds (pm8 pm32 : Nat → Nat) (x : cBitArrayBytes) (y : cBitArray)
    (index : Nat) (value : Bool) :
    (((x.Set pm8 index value).1 = .error .assert_failed ↔ x.GetSize ≤ index) ∧
      (x.Get pm8 index = .error .assert_failed ↔ x.GetSize ≤ index) ∧
      (x.GetSize ≤ index → x.Set pm8 index value = (.error .assert_failed, x)) ∧
      (index < x.GetSize →
        x.Set pm8 index value = x.afterEngine (x.bit_array.SetBit pm8 index value) ∧
        x.Get pm8 index = liftEngine (x.bit_array.GetBit pm8 index)) ∧
      (x.array_size < 2 ^ 64 →
        cRawBitArrayBytes.GetNumFields x.array_size ≤ x.bit_array.bit_fields.length →
        ((x.Set pm8 index value).1 = .ok () ↔ index < x.GetSize) ∧
        ((∃ bit, x.Get pm8 index = .ok bit) ↔ index < x.GetSize))) ∧
    (((y.Set pm32 index value).1 = .error .assert_failed ↔ y.GetSize ≤ index) ∧
      (y.Get pm32 index = .error .assert_failed ↔ y.GetSize ≤ index) ∧
      (y.GetSize ≤ index → y.Set pm32 index value = (.error .assert_failed, y)) ∧
      (index < y.GetSize →
        y.Set pm32 index value = y.afterEngine (y.bit_array.SetBit pm32 index value) ∧
        y.Get pm32 index = liftEngine (y.bit_array.GetBit pm32 index)) ∧
      (y.array_size < 2 ^ 64 →
        cRawBitArray.GetNumFields y.array_size ≤ y.bit_array.bit_fields.length →
        ((y.Set pm32 index value).1 = .ok () ↔ index < y.GetSize) ∧
        ((∃ bit, y.Get pm32 index = .ok bit) ↔ index < y.GetSize))) := by
  constructor
  · refine ⟨?_, ?_, ?_, ?_, ?_⟩
    · unfold cBitArrayBytes.Set cBitArrayBytes.GetSize
      by_cases h : index < x.array_size
      · rw [if_pos h]
        constructor
        · intro hf
          exfalso
          unfold cBitArrayBytes.afterEngine at hf
          split at hf <;> simp at hf
        · intro hle; omega
      · rw [if_neg h]
        exact ⟨fun _ => Nat.le_of_not_lt h, fun _ => rfl⟩
    · unfold cBitArrayBytes.Get cBitArrayBytes.GetSize
      by_cases h : index < x.array_size
      · rw [if_pos h]
        constructor
        · intro hf
          exfalso
          unfold liftEngine at hf
          split at hf <;> simp at hf
        · intro hle; omega
      · rw [if_neg h]
        exact ⟨fun _ => Nat.le_of_not_lt h, fun _ => rfl⟩
    · intro hle
      unfold cBitArrayBytes.GetSize at hle
      unfold cBitArrayBytes.Set
      rw [if_neg (Nat.not_lt.mpr hle)]
    · intro hlt
      unfold cBitArrayBytes.GetSize at hlt
      unfold cBitArrayBytes.Set cBitArrayBytes.Get
      rw [if_pos hlt, if_pos hlt]
      exact ⟨rfl, rfl⟩
    · intro hsz hlen
      unfold cBitArrayBytes.Set cBitArrayBytes.Get cBitArrayBytes.GetSize
      by_cases h : index < x.array_size
      · have hword : cRawBitArrayBytes.GetField index < x.bit_array.bit_fields.length := by
          rw [GetNumFields_pos8 (by omega) hsz] at hlen
          rw [GetField_eq8]
          omega
        rw [if_pos h, if_pos h]
        obtain ⟨s', hs'⟩ := SetBit_isSome8 pm8 x.bit_array index value hword
        obtain ⟨bit, hbit⟩ := GetBit_isSome8 pm8 x.bit_array index hword
        rw [hs', hbit]
        exact ⟨⟨fun _ => h, fun _ => rfl⟩, ⟨fun _ => h, fun _ => ⟨bit, rfl⟩⟩⟩
      · rw [if_neg h, if_neg h]
        refine ⟨⟨fun hf => ?_, fun hlt => absurd hlt h⟩,
          ⟨fun hf => ?_, fun hlt => absurd hlt h⟩⟩
        · simp at hf
        · obtain ⟨bit, hbit⟩ := hf
          simp at hbit
  · refine ⟨?_, ?_, ?_, ?_, ?_⟩
    · unfold cBitArray.Set cBitArray.GetSize
      by_cases h : index < y.array_size
      · rw [if_pos h]
        constructor
        · intro hf
          exfalso
          unfold cBitArray.afterEngine at hf
          split at hf <;> simp at hf
        · intro hle; omega
      · rw [if_neg h]
        exact ⟨fun _ => Nat.le_of_not_lt h, fun _ => rfl⟩
    · unfold cBitArray.Get cBitArray.GetSize
      by_cases h : index < y.array_size
      · rw [if_pos h]
        constructor
        · intro hf
          exfalso
          unfold liftEngine at hf
          split at hf <;> simp at hf
        · intro hle; omega
      · rw [if_neg h]
        exact ⟨fun _ => Nat.le_of_not_lt h, fun _ => rfl⟩
    · intro hle
      unfold cBitArray.GetSize at hle
      unfold cBitArray.Set
      rw [if_neg (Nat.not_lt.mpr hle)]
    · intro hlt
      unfold cBitArray.GetSize at hlt
      unfold cBitArray.Set cBitArray.Get
      rw [if_pos hlt, if_pos hlt]
      exact ⟨rfl, rfl⟩
    · intro hsz hlen
      unfold cBitArray.Set cBitArray.Get cBitArray.GetSize
      by_cases h : index < y.array_size
      · have hword : cRawBitArray.GetField index < y.bit_array.bit_fields.length := by
          rw [GetNumFields_pos32 (by omega) hsz] at hlen
          rw [GetField_eq32]
          omega
        rw [if_pos h, if_pos h]
        obtain ⟨s', hs'⟩ := SetBit_isSome32 pm32 y.bit_array index value hword
        obtain ⟨bit, hbit⟩ := GetBit_isSome32 pm32 y.bit_array index hword
        rw [hs', hbit]
        exact ⟨⟨fun _ => h, fun _ => rfl⟩, ⟨fun _ => h, fun _ => ⟨bit, rfl⟩⟩⟩
      · rw [if_neg h, if_neg h]
        refine ⟨⟨fun hf => ?_, fun hlt => absurd hlt h⟩,
          ⟨fun hf => ?_, fun hlt => absurd hlt h⟩⟩
        · simp at hf
        · obtain ⟨bit, hbit⟩ := hf
          simp at hbit

/-- Claim C9. With assertions enabled, in both facades each of `AND`, `OR`, `NAND`, `NOR`, `XOR`,
`EQU`, the operators `&`, `|`, `^`, each of `ANDSELF`, `ORSELF`, `NANDSELF`, `NORSELF`,
`XORSELF`, `EQUSELF` and the operators `&=`, `|=`, `^=` fails its assertion exactly when the two
sizes differ, whatever the engine's combinators do, and a failed in-place operation leaves its
receiver as it was. -/
theorem C9_binary_operations_check_sizes :
    AssertsEqualSizes cBitArrayBytes.GetSize cBitArrayBytes.AND ∧
    AssertsEqualSizes cBitArrayBytes.GetSize cBitArrayBytes.OR ∧
    AssertsEqualSizes cBitArrayBytes.GetSize cBitArrayBytes.NAND ∧
    AssertsEqualSizes cBitArrayBytes.GetSize cBitArrayBytes.NOR ∧
    AssertsEqualSizes cBitArrayBytes.GetSize cBitArrayBytes.XOR ∧
    AssertsEqualSizes cBitArrayBytes.GetSize cBitArrayBytes.EQU ∧
    AssertsEqualSizes cBitArrayBytes.GetSize cBitArrayBytes.operator_and ∧
    AssertsEqualSizes cBitArrayBytes.GetSize cBitArrayBytes.operator_or ∧
    AssertsEqualSizes cBitArrayBytes.GetSize cBitArrayBytes.operator_xor ∧
    AssertsEqualSizesInPlace cBitArrayBytes.GetSize cBitArrayBytes.ANDSELF ∧
    AssertsEqualSizesInPlace cBitArrayBytes.GetSize cBitArrayBytes.ORSELF ∧
    AssertsEqualSizesInPlace cBitArrayBytes.GetSize cBitArrayBytes.NANDSELF ∧
    AssertsEqualSizesInPlace cBitArrayBytes.GetSize cBitArrayBytes.NORSELF ∧
    AssertsEqualSizesInPlace cBitArrayBytes.GetSize cBitArrayBytes.XORSELF ∧
    AssertsEqualSizesInPlace cBitArrayBytes.GetSize cBitArrayBytes.EQUSELF ∧
    AssertsEqualSizesInPlace cBitArrayBytes.GetSize cBitArrayBytes.operator_and_assign ∧
    AssertsEqualSizesInPlace cBitArrayBytes.GetSize cBitArrayBytes.operator_or_assign ∧
    AssertsEqualSizesInPlace cBitArrayBytes.GetSize cBitArrayBytes.operator_xor_assign ∧
    AssertsEqualSizes cBitArray.GetSize cBitArray.AND ∧
    AssertsEqualSizes cBitArray.GetSize cBitArray.OR ∧
    AssertsEqualSizes cBitArray.GetSize cBitArray.NAND ∧
    AssertsEqualSizes cBitArray.GetSize cBitArray.NOR ∧
    AssertsEqualSizes cBitArray.GetSize cBitArray.XOR ∧
    AssertsEqualSizes cBitArray.GetSize cBitArray.EQU ∧
    AssertsEqualSizes cBitArray.GetSize cBitArray.operator_and ∧
    AssertsEqualSizes cBitArray.GetSize cBitArray.operator_or ∧
    AssertsEqualSizes cBitArray.GetSize cBitArray.operator_xor ∧
    AssertsEqualSizesInPlace cBitArray.GetSize cBitArray.ANDSELF ∧
    AssertsEqualSizesInPlace cBitArray.GetSize cBitArray.ORSELF ∧
    AssertsEqualSizesInPlace cBitArray.GetSize cBitArray.NANDSELF ∧
    AssertsEqualSizesInPlace cBitArray.GetSize cBitArray.NORSELF ∧
    AssertsEqualSizesInPlace cBitArray.GetSize cBitArray.XORSELF ∧
    AssertsEqualSizesInPlace cBitArray.GetSize cBitArray.EQUSELF ∧
    AssertsEqualSizesInPlace cBitArray.GetSize cBitArray.operator_and_assign ∧
    AssertsEqualSizesInPlace cBitArray.GetSize cBitArray.operator_or_assign ∧
    AssertsEqualSizesInPlace cBitArray.GetSize cBitArray.operator_xor_assign := by
  refine ⟨?_, ?_, ?_, ?_, ?_, ?_, ?_, ?_, ?_, ?_, ?_, ?_, ?_, ?_, ?_, ?_, ?_, ?_,
    ?_, ?_, ?_, ?_, ?_, ?_, ?_, ?_, ?_, ?_, ?_, ?_, ?_, ?_, ?_, ?_, ?_, ?_⟩
  all_goals
    first
    | (unfold AssertsEqualSizes
       intro ops a b
       simp only [cBitArrayBytes.operator_and, cBitArrayBytes.operator_or,
        cBitArrayBytes.operator_xor, cBitArrayBytes.operator_and_assign,
        cBitArrayBytes.operator_or_assign, cBitArrayBytes.operator_xor_assign,
        cBitArray.operator_and, cBitArray.operator_or, cBitArray.operator_xor,
        cBitArray.operator_and_assign, cBitArray.operator_or_assign,
        cBitArray.operator_xor_assign, cBitArrayBytes.AND, cBitArrayBytes.OR,
        cBitArrayBytes.NAND, cBitArrayBytes.NOR,
        cBitArrayBytes.XOR, cBitArrayBytes.EQU, cBitArray.AND, cBitArray.OR, cBitArray.NAND,
        cBitArray.NOR, cBitArray.XOR, cBitArray.EQU, cBitArrayBytes.GetSize, cBitArray.GetSize]
       by_cases h : a.array_size = b.array_size
       · rw [if_pos h]
         constructor
         · intro hf
           exfalso
           split at hf <;> simp at hf
         · intro hne; exact absurd h hne
       · rw [if_neg h]
         exact ⟨fun _ => h, fun _ => rfl⟩)
    | (unfold AssertsEqualSizesInPlace
       intro ops a b
       simp only [cBitArrayBytes.operator_and, cBitArrayBytes.operator_or,
        cBitArrayBytes.operator_xor, cBitArrayBytes.operator_and_assign,
        cBitArrayBytes.operator_or_assign, cBitArrayBytes.operator_xor_assign,
        cBitArray.operator_and, cBitArray.operator_or, cBitArray.operator_xor,
        cBitArray.operator_and_assign, cBitArray.operator_or_assign,
        cBitArray.operator_xor_assign, cBitArrayBytes.ANDSELF, cBitArrayBytes.ORSELF,
        cBitArrayBytes.NANDSELF,
        cBitArrayBytes.NORSELF, cBitArrayBytes.XORSELF, cBitArrayBytes.EQUSELF, cBitArray.ANDSELF,
        cBitArray.ORSELF, cBitArray.NANDSELF, cBitArray.NORSELF, cBitArray.XORSELF,
        cBitArray.EQUSELF, cBitArrayBytes.GetSize, cBitArray.GetSize]
       by_cases h : a.array_size = b.array_size
       · rw [if_pos h]
         refine ⟨⟨fun hf => ?_, fun hne => absurd h hne⟩, fun hne => absurd h hne⟩
         exfalso
         first
         | (unfold cBitArrayBytes.afterEngine at hf
            split at hf <;> simp at hf)
         | (unfold cBitArray.afterEngine at hf
            split at hf <;> simp at hf)
       · rw [if_neg h]
         exact ⟨⟨fun _ => h, fun _ => rfl⟩, fun _ => rfl⟩)

/-! ## Printing from the high bit down -/

theorem PrintRightToLeft_loop_runs_on8 {σ : Type} (os : OStream σ) (pm : Nat → Nat)
    (s : cRawBitArrayBytes) :
    ∀ (steps i : Nat) (out : σ),
      (cRawBitArrayBytes.PrintRightToLeft.loop os pm s steps i out).2 ≠ LoopStatus.returned := by
  intro steps
  induction steps with
  | zero =>
    intro i out h
    simp [cRawBitArrayBytes.PrintRightToLeft.loop] at h
  | succ k ih =>
    intro i out
    unfold cRawBitArrayBytes.PrintRightToLeft.loop
    rw [if_pos (Nat.zero_le i)]
    cases hg : s.GetBit pm i with
    | none =>
      intro h
      simp at h
    | some bit => exact ih _ _

theorem PrintRightToLeft_loop_runs_on32 {σ : Type} (os : OStream σ) (pm : Nat → Nat)
    (s : cRawBitArray) :
    ∀ (steps i : Nat) (out : σ),
      (cRawBitArray.PrintRightToLeft.loop os pm s steps i out).2 ≠ LoopStatus.returned := by
  intro steps
  induction steps with
  | zero =>
    intro i out h
    simp [cRawBitArray.PrintRightToLeft.loop] at h
  | succ k ih =>
    intro i out
    unfold cRawBitArray.PrintRightToLeft.loop
    rw [if_pos (Nat.zero_le i)]
    cases hg : s.GetBit pm i with
    | none =>
      intro h
      simp at h
    | some bit => exact ih _ _

/-- Claim C10, at the input where it fails.  On a store of one word with bit 0 set and
`num_bits = 1`, `PrintRightToLeft` inserts bit 0 into the stream (on a stream with the default
flags: the character `1`) and stays in its loop, for the condition `i >= 0` holds of every
`unsigned long long`: `i--` wraps to `2^64 - 1` and the next call `GetBit(2^64 - 1)` reads
outside the block.  In both engines, on every stream and however many steps are followed, the
call never returns. -/
theorem C10_print_right_to_left_never_returns :
    (cRawBitArrayBytes.PrintRightToLeft plainStream (fun k => 2 ^ k) ⟨[1]⟩ 1 1 []
        = (['1'], LoopStatus.running (2 ^ 64 - 1)) ∧
      cRawBitArrayBytes.PrintRightToLeft plainStream (fun k => 2 ^ k) ⟨[1]⟩ 1 2 []
        = (['1'], LoopStatus.undefined_behaviour (2 ^ 64 - 1)) ∧
      ∀ (σ : Type) (os : OStream σ) (out : σ) (steps : Nat),
        (cRawBitArrayBytes.PrintRightToLeft os (fun k => 2 ^ k) ⟨[1]⟩ 1 steps out).2
          ≠ LoopStatus.returned) ∧
    (cRawBitArray.PrintRightToLeft plainStream (fun k => 2 ^ k) ⟨[1]⟩ 1 1 []
        = (['1'], LoopStatus.running (2 ^ 64 - 1)) ∧
      cRawBitArray.PrintRightToLeft plainStream (fun k => 2 ^ k) ⟨[1]⟩ 1 2 []
        = (['1'], LoopStatus.undefined_behaviour (2 ^ 64 - 1)) ∧
      ∀ (σ : Type) (os : OStream σ) (out : σ) (steps : Nat),
        (cRawBitArray.PrintRightToLeft os (fun k => 2 ^ k) ⟨[1]⟩ 1 steps out).2
          ≠ LoopStatus.returned) :=
  ⟨⟨by decide, by decide,
      fun _ os out steps => PrintRightToLeft_loop_runs_on8 os _ _ steps _ out⟩,
   ⟨by decide, by decide,
      fun _ os out steps => PrintRightToLeft_loop_runs_on32 os _ _ steps _ out⟩⟩

/-! ## The empty store, the word count and `Zero` below `2^31` words -/

theorem fillLoop_none_of_short (w n : Nat) (bf : List Nat) (h : bf.length < n) :
    ∀ (d i : Nat) (cur : List Nat), bf.length - i = d → i ≤ bf.length →
      cur.length = bf.length → fillLoop w n i cur = none := by
  intro d
  induction d with
  | zero =>
    intro i cur hd hi hcur
    have hieq : i = bf.length := by omega
    rw [fillLoop, if_pos (by omega)]
    unfold writeWord
    rw [if_neg (by omega)]
  | succ d ih =>
    intro i cur hd hi hcur
    rw [fillLoop, if_pos (by omega), writeWord_lt w (by omega)]
    exact ih (i + 1) (cur.set i w) (by omega) (by omega) (by simpa using hcur)

theorem Ones_none8 (s : cRawBitArrayBytes) (n : Nat)
    (h : s.bit_fields.length < cRawBitArrayBytes.GetNumFields n) : s.Ones n = none := by
  unfold cRawBitArrayBytes.Ones
  dsimp only
  rw [fillLoop_none_of_short 255 _ s.bit_fields h _ 0 s.bit_fields rfl (Nat.zero_le _) rfl]

theorem Ones_none32 (s : cRawBitArray) (n : Nat)
    (h : s.bit_fields.length < cRawBitArray.GetNumFields n) : s.Ones n = none := by
  unfold cRawBitArray.Ones
  dsimp only
  rw [fillLoop_none_of_short (2 ^ 32 - 1) _ s.bit_fields h _ 0 s.bit_fields rfl (Nat.zero_le _) rfl]

/-- Claim C11, at the input where it fails.  On the empty store of the default constructor
`Zero(0)` returns without touching a word (its word count `2^61`, resp. `2^59`, narrows to the
`int` 0) and `Clear()` leaves the empty array of size 0.  `Ones(0)` keeps the word count in
`unsigned long long`: its loop runs, and the first write `bit_fields[0] = ~0` goes through the
null pointer, so `SetAll()` on a default-constructed array does not complete. -/
theorem C11_ones_on_the_empty_store :
    (cRawBitArrayBytes.empty.Zero 0 = some cRawBitArrayBytes.empty ∧
      cBitArrayBytes.Clear cBitArrayBytes.empty = (.ok (), cBitArrayBytes.empty) ∧
      cRawBitArrayBytes.GetNumFields 0 = 2 ^ 61 ∧
      writeWord cRawBitArrayBytes.empty.bit_fields 0 255 = none ∧
      cRawBitArrayBytes.empty.Ones 0 = none ∧
      cBitArrayBytes.SetAll cBitArrayBytes.empty
        = (.error .undefined_behaviour, cBitArrayBytes.empty)) ∧
    (cRawBitArray.empty.Zero 0 = some cRawBitArray.empty ∧
      cBitArray.Clear cBitArray.empty = (.ok (), cBitArray.empty) ∧
      cRawBitArray.GetNumFields 0 = 2 ^ 59 ∧
      writeWord cRawBitArray.empty.bit_fields 0 (2 ^ 32 - 1) = none ∧
      cRawBitArray.empty.Ones 0 = none ∧
      cBitArray.SetAll cBitArray.empty = (.error .undefined_behaviour, cBitArray.empty)) := by
  have z8 := Zero_unchanged8 cRawBitArrayBytes.empty 0 (by decide)
  have z32 := Zero_unchanged32 cRawBitArray.empty 0 (by decide)
  have o8 := Ones_none8 cRawBitArrayBytes.empty 0 (by decide)
  have o32 := Ones_none32 cRawBitArray.empty 0 (by decide)
  refine ⟨⟨z8, ?_, by decide, by decide, o8, ?_⟩, ⟨z32, ?_, by decide, by decide, o32, ?_⟩⟩
  · show cBitArrayBytes.afterEngine _ (cRawBitArrayBytes.empty.Zero 0) = _
    rw [z8]; rfl
  · show cBitArrayBytes.afterEngine _ (cRawBitArrayBytes.empty.Ones 0) = _
    rw [o8]; rfl
  · show cBitArray.afterEngine _ (cRawBitArray.empty.Zero 0) = _
    rw [z32]; rfl
  · show cBitArray.afterEngine _ (cRawBitArray.empty.Ones 0) = _
    rw [o32]; rfl

/-- Claim C19. In both engines, for `1 ≤ n < 2^64`, `GetNumFields(n)` is
`1 + ((n - 1) >> log2 W)` without wrap-around, which is `ceil(n / W)`: the words cover the `n`
bits, one word fewer would not, and every index below `n` lies in one of them. -/
theorem C19_word_count_covers (n : Nat) (h1 : 1 ≤ n) (h2 : n < 2 ^ 64) :
    (cRawBitArrayBytes.GetNumFields n = 1 + ((n - 1) >>> 3) ∧
      cRawBitArrayBytes.GetNumFields n = (n + 7) / 8 ∧
      n ≤ 8 * cRawBitArrayBytes.GetNumFields n ∧
      8 * (cRawBitArrayBytes.GetNumFields n - 1) < n ∧
      ∀ i, i < n → cRawBitArrayBytes.GetField i < cRawBitArrayBytes.GetNumFields n) ∧
    (cRawBitArray.GetNumFields n = 1 + ((n - 1) >>> 5) ∧
      cRawBitArray.GetNumFields n = (n + 31) / 32 ∧
      n ≤ 32 * cRawBitArray.GetNumFields n ∧
      32 * (cRawBitArray.GetNumFields n - 1) < n ∧
      ∀ i, i < n → cRawBitArray.GetField i < cRawBitArray.GetNumFields n) := by
  rw [GetNumFields_pos8 h1 h2, GetNumFields_pos32 h1 h2]
  simp only [Nat.shiftRight_eq_div_pow, GetField_eq8, GetField_eq32]
  refine ⟨⟨by omega, by omega, by omega, by omega, fun i hi => by omega⟩,
    ⟨by omega, by omega, by omega, by omega, fun i hi => by omega⟩⟩

/-- Claim C19 at `n = 9`: two bytes, one 32-bit word. -/
theorem C19_word_count_covers_witness :
    cRawBitArrayBytes.GetNumFields 9 = (9 + 7) / 8 ∧
    cRawBitArray.GetNumFields 9 = (9 + 31) / 32 :=
  have h := C19_word_count_covers 9 (by decide) (by decide)
  ⟨h.1.2.1, h.2.2.1⟩

theorem narrowed_count_eq {x : Nat} (h : x < 2 ^ 31) : toUInt64 (toInt32 x) = x := by
  unfold toInt32 toUInt64
  have hx : x % 2 ^ 32 = x := Nat.mod_eq_of_lt (by omega)
  rw [hx, if_pos h]
  omega

theorem Zero_spec8 (s : cRawBitArrayBytes) (n : Nat)
    (hc : cRawBitArrayBytes.GetNumFields n < 2 ^ 31)
    (hlen : cRawBitArrayBytes.GetNumFields n ≤ s.bit_fields.length) :
    ∃ s', s.Zero n = some s' ∧ s'.bit_fields.length = s.bit_fields.length ∧
      ∀ k, readWord s'.bit_fields k =
        if k < cRawBitArrayBytes.GetNumFields n then some 0 else readWord s.bit_fields k := by
  obtain ⟨bf, h1, h2, h3⟩ := fillLoop_all 0 _ s.bit_fields hlen
  refine ⟨⟨bf⟩, ?_, h2, h3⟩
  unfold cRawBitArrayBytes.Zero
  dsimp only
  rw [narrowed_count_eq hc, h1]
  rfl

theorem Zero_spec32 (s : cRawBitArray) (n : Nat)
    (hc : cRawBitArray.GetNumFields n < 2 ^ 31)
    (hlen : cRawBitArray.GetNumFields n ≤ s.bit_fields.length) :
    ∃ s', s.Zero n = some s' ∧ s'.bit_fields.length = s.bit_fields.length ∧
      ∀ k, readWord s'.bit_fields k =
        if k < cRawBitArray.GetNumFields n then some 0 else readWord s.bit_fields k := by
  obtain ⟨bf, h1, h2, h3⟩ := fillLoop_all 0 _ s.bit_fields hlen
  refine ⟨⟨bf⟩, ?_, h2, h3⟩
  unfold cRawBitArray.Zero
  dsimp only
  rw [narrowed_count_eq hc, h1]
  rfl

/-- Claim C20. In each engine, for `n ≥ 1` whose word count `ceil(n / W)` in that engine is below
`2^31` and a block that holds that many words, `Zero(n)` succeeds, sets every word with index
below `ceil(n / W)` to 0 and leaves every word from `ceil(n / W)` on, and the length of the
block, as they were.  The bound on the word count is that of the engine at hand: the 32-bit
engine needs only `ceil(n / 32) < 2^31`. -/
theorem C20_zero_frame (b : cRawBitArrayBytes) (a : cRawBitArray) (n : Nat)
    (h1 : 1 ≤ n) (h2 : n < 2 ^ 64)
    (hb : (n + 7) / 8 ≤ b.bit_fields.length) (ha : (n + 31) / 32 ≤ a.bit_fields.length) :
    ((n + 7) / 8 < 2 ^ 31 →
      ∃ b', b.Zero n = some b' ∧ b'.bit_fields.length = b.bit_fields.length ∧
        (∀ k, k < (n + 7) / 8 → readWord b'.bit_fields k = some 0) ∧
        (∀ k, (n + 7) / 8 ≤ k → readWord b'.bit_fields k = readWord b.bit_fields k)) ∧
    ((n + 31) / 32 < 2 ^ 31 →
      ∃ a', a.Zero n = some a' ∧ a'.bit_fields.length = a.bit_fields.length ∧
        (∀ k, k < (n + 31) / 32 → readWord a'.bit_fields k = some 0) ∧
        (∀ k, (n + 31) / 32 ≤ k → readWord a'.bit_fields k = readWord a.bit_fields k)) := by
  have e8 : cRawBitArrayBytes.GetNumFields n = (n + 7) / 8 := by
    rw [GetNumFields_pos8 h1 h2]; omega
  have e32 : cRawBitArray.GetNumFields n = (n + 31) / 32 := by
    rw [GetNumFields_pos32 h1 h2]; omega
  constructor
  · intro hb31
    obtain ⟨b', hz, hl, hw⟩ := Zero_spec8 b n (by rw [e8]; exact hb31) (by rw [e8]; exact hb)
    rw [e8] at hw
    exact ⟨b', hz, hl, fun k hk => by rw [hw, if_pos hk],
      fun k hk => by rw [hw, if_neg (Nat.not_lt.mpr hk)]⟩
  · intro ha31
    obtain ⟨a', hz, hl, hw⟩ := Zero_spec32 a n (by rw [e32]; exact ha31) (by rw [e32]; exact ha)
    rw [e32] at hw
    exact ⟨a', hz, hl, fun k hk => by rw [hw, if_pos hk],
      fun k hk => by rw [hw, if_neg (Nat.not_lt.mpr hk)]⟩

/-- Claim C20 at concrete stores: `Zero(40)` on six bytes and on three words clears the covering
words and keeps the words after them. -/
theorem C20_zero_frame_witness :
    (∃ b', (⟨[7, 9, 3, 1, 2, 6]⟩ : cRawBitArrayBytes).Zero 40 = some b' ∧
      readWord b'.bit_fields 4 = some 0 ∧
      readWord b'.bit_fields 5 = readWord [7, 9, 3, 1, 2, 6] 5) ∧
    (∃ a', (⟨[7, 9, 3]⟩ : cRawBitArray).Zero 40 = some a' ∧
      readWord a'.bit_fields 1 = some 0 ∧
      readWord a'.bit_fields 2 = readWord [7, 9, 3] 2) :=
  have h := C20_zero_frame ⟨[7, 9, 3, 1, 2, 6]⟩ ⟨[7, 9, 3]⟩ 40 (by decide) (by decide)
    (by decide) (by decide)
  ⟨(h.1 (by decide)).imp fun _ h => ⟨h.1, h.2.2.1 4 (by decide), h.2.2.2 5 (by decide)⟩,
   (h.2 (by decide)).imp fun _ h => ⟨h.1, h.2.2.1 1 (by decide), h.2.2.2 2 (by decide)⟩⟩

/-! ## Printing in ascending order -/

theorem foldl_append_singleton (c : Nat → Char) (l : List Nat) (text : List Char) :
    l.foldl (fun o j => o ++ [c j]) text = text ++ l.map c := by
  induction l generalizing text with
  | nil => simp
  | cons x rest ih => rw [List.foldl_cons, ih, List.map_cons, List.append_assoc]; rfl

theorem foldl_append_spaced (d : Nat → List Char) (l : List Nat) (text : List Char) :
    l.foldl (fun o j => (o ++ d j) ++ [' ']) text = text ++ l.flatMap (fun j => d j ++ [' ']) := by
  induction l generalizing text with
  | nil => simp
  | cons x rest ih =>
    rw [List.foldl_cons, ih, List.flatMap_cons]
    simp only [List.append_assoc]

theorem decide_some_true (bit : Bool) : decide (some bit = some true) = bit := by
  cases bit <;> rfl

theorem covered_GetBit8 (pm : Nat → Nat) (s : cRawBitArrayBytes) {n : Nat}
    (h : n ≤ 8 * s.bit_fields.length) {j : Nat} (hj : j < n) :
    ∃ bit, s.GetBit pm j = some bit :=
  GetBit_isSome8 pm s j (by rw [GetField_eq8]; omega)

theorem Print_loop_spec8 {σ : Type} (os : OStream σ) (pm : Nat → Nat) (s : cRawBitArrayBytes) (n : Nat)
    (hdef : ∀ j, j < n → ∃ bit, s.GetBit pm j = some bit) :
    ∀ (d i : Nat) (out : σ), n - i = d → i ≤ n →
      cRawBitArrayBytes.Print.loop os pm s n i out
        = ((List.range' i (n - i)).foldl
            (fun o j => os.insert_bool o (decide (s.GetBit pm j = some true))) out,
          .returned) := by
  intro d
  induction d with
  | zero =>
    intro i out hd hi
    rw [cRawBitArrayBytes.Print.loop, if_neg (by omega), hd]
    rfl
  | succ d ih =>
    intro i out hd hi
    have hin : i < n := by omega
    obtain ⟨bit, hbit⟩ := hdef i hin
    rw [cRawBitArrayBytes.Print.loop, if_pos hin, hbit]
    dsimp only
    rw [ih (i + 1) _ (by omega) (by omega)]
    have hlen : n - i = (n - (i + 1)) + 1 := by omega
    rw [hlen, List.range'_succ, List.foldl_cons, hbit, decide_some_true]

theorem PrintOneIDs_loop_spec8 {σ : Type} (os : OStream σ) (pm : Nat → Nat) (s : cRawBitArrayBytes)
    (n : Nat) (hdef : ∀ j, j < n → ∃ bit, s.GetBit pm j = some bit) :
    ∀ (d i : Nat) (out : σ), n - i = d → i ≤ n →
      cRawBitArrayBytes.PrintOneIDs.loop os pm s n i out
        = (((List.range' i (n - i)).filter
              (fun j => decide (s.GetBit pm j = some true))).foldl
            (fun o j => os.insert_text (os.insert_index o j) [' ']) out, .returned) := by
  intro d
  induction d with
  | zero =>
    intro i out hd hi
    rw [cRawBitArrayBytes.PrintOneIDs.loop, if_neg (by omega), hd]
    rfl
  | succ d ih =>
    intro i out hd hi
    have hin : i < n := by omega
    obtain ⟨bit, hbit⟩ := hdef i hin
    have hlen : n - i = (n - (i + 1)) + 1 := by omega
    rw [cRawBitArrayBytes.PrintOneIDs.loop, if_pos hin, hbit]
    dsimp only
    rw [hlen, List.range'_succ, List.filter_cons, hbit]
    cases bit
    · rw [if_neg (by decide), if_neg (by decide), ih (i + 1) _ (by omega) (by omega)]
    · rw [if_pos (by decide), if_pos (by decide), ih (i + 1) _ (by omega) (by omega),
        List.foldl_cons]

theorem Print_spec8 {σ : Type} (os : OStream σ) (pm : Nat → Nat) (s : cRawBitArrayBytes) (n : Nat)
    (out : σ) (h : n ≤ 8 * s.bit_fields.length) :
    s.Print os pm n out
      = ((List.range n).foldl
          (fun o j => os.insert_bool o (decide (s.GetBit pm j = some true))) out,
        .returned) := by
  unfold cRawBitArrayBytes.Print
  rw [Print_loop_spec8 os pm s n (fun j hj => covered_GetBit8 pm s h hj) n 0 out rfl
    (Nat.zero_le n), List.range_eq_range']
  rfl

theorem Print_digits8 (cs : OStream (List Char)) (hcs : WritesBoolAsDigit cs)
    (pm : Nat → Nat) (s : cRawBitArrayBytes) (n : Nat) (text : List Char)
    (h : n ≤ 8 * s.bit_fields.length) :
    ∃ written, s.Print cs pm n text = (text ++ written, .returned) ∧ written.length = n ∧
      ∀ j, j < n → ∃ bit, s.GetBit pm j = some bit ∧
        written[j]? = some (if bit then '1' else '0') := by
  refine ⟨(List.range n).map (fun j => if s.GetBit pm j = some true then '1' else '0'),
    ?_, by simp, fun j hj => ?_⟩
  · rw [Print_spec8 cs pm s n text h]
    have hf : (fun (o : List Char) (j : Nat) =>
          cs.insert_bool o (decide (s.GetBit pm j = some true)))
        = fun o j => o ++ [(fun j => if s.GetBit pm j = some true then '1' else '0') j] := by
      funext o j
      rw [hcs]
      simp
    rw [hf, foldl_append_singleton]
  · obtain ⟨bit, hbit⟩ := covered_GetBit8 pm s h hj
    refine ⟨bit, hbit, ?_⟩
    rw [List.getElem?_map, List.getElem?_range hj, Option.map_some', hbit]
    cases bit <;> simp

theorem PrintOneIDs_spec8 {σ : Type} (os : OStream σ) (pm : Nat → Nat) (s : cRawBitArrayBytes) (n : Nat)
    (out : σ) (h : n ≤ 8 * s.bit_fields.length) :
    s.PrintOneIDs os pm n out
      = (((List.range n).filter (fun j => decide (s.GetBit pm j = some true))).foldl
          (fun o j => os.insert_text (os.insert_index o j) [' ']) out, .returned) := by
  unfold cRawBitArrayBytes.PrintOneIDs
  rw [PrintOneIDs_loop_spec8 os pm s n (fun j hj => covered_GetBit8 pm s h hj) n 0 out rfl
    (Nat.zero_le n), List.range_eq_range']
  rfl

theorem PrintOneIDs_decimal8 (cs : OStream (List Char)) (hcs : WritesIndexInDecimal cs)
    (pm : Nat → Nat) (s : cRawBitArrayBytes) (n : Nat) (text : List Char)
    (h : n ≤ 8 * s.bit_fields.length) :
    s.PrintOneIDs cs pm n text
      = (text ++ ((List.range n).filter (fun j => decide (s.GetBit pm j = some true))).flatMap
          (fun i => Nat.toDigits 10 i ++ [' ']), .returned) := by
  rw [PrintOneIDs_spec8 cs pm s n text h]
  have hf : (fun (o : List Char) (j : Nat) => cs.insert_text (cs.insert_index o j) [' '])
      = fun o j => (o ++ Nat.toDigits 10 j) ++ [' '] := by
    funext o j
    rw [hcs.1, hcs.2]
  rw [hf, foldl_append_spaced]

theorem PrintOneIDs_all_zero8 {σ : Type} (os : OStream σ) (pm : Nat → Nat) (s : cRawBitArrayBytes)
    (n : Nat) (out : σ) (h : n ≤ 8 * s.bit_fields.length)
    (hzero : ∀ i, i < n → s.GetBit pm i = some false) :
    s.PrintOneIDs os pm n out = (out, .returned) := by
  rw [PrintOneIDs_spec8 os pm s n out h]
  have hnil : (List.range n).filter (fun j => decide (s.GetBit pm j = some true)) = [] := by
    rw [List.filter_eq_nil_iff]
    intro i hi
    rw [hzero i (List.mem_range.mp hi)]
    decide
  rw [hnil]
  rfl

theorem covered_GetBit32 (pm : Nat → Nat) (s : cRawBitArray) {n : Nat}
    (h : n ≤ 32 * s.bit_fields.length) {j : Nat} (hj : j < n) :
    ∃ bit, s.GetBit pm j = some bit :=
  GetBit_isSome32 pm s j (by rw [GetField_eq32]; omega)

theorem Print_loop_spec32 {σ : Type} (os : OStream σ) (pm : Nat → Nat) (s : cRawBitArray) (n : Nat)
    (hdef : ∀ j, j < n → ∃ bit, s.GetBit pm j = some bit) :
    ∀ (d i : Nat) (out : σ), n - i = d → i ≤ n →
      cRawBitArray.Print.loop os pm s n i out
        = ((List.range' i (n - i)).foldl
            (fun o j => os.insert_bool o (decide (s.GetBit pm j = some true))) out,
          .returned) := by
  intro d
  induction d with
  | zero =>
    intro i out hd hi
    rw [cRawBitArray.Print.loop, if_neg (by omega), hd]
    rfl
  | succ d ih =>
    intro i out hd hi
    have hin : i < n := by omega
    obtain ⟨bit, hbit⟩ := hdef i hin
    rw [cRawBitArray.Print.loop, if_pos hin, hbit]
    dsimp only
    rw [ih (i + 1) _ (by omega) (by omega)]
    have hlen : n - i = (n - (i + 1)) + 1 := by omega
    rw [hlen, List.range'_succ, List.foldl_cons, hbit, decide_some_true]

theorem PrintOneIDs_loop_spec32 {σ : Type} (os : OStream σ) (pm : Nat → Nat) (s : cRawBitArray)
    (n : Nat) (hdef : ∀ j, j < n → ∃ bit, s.GetBit pm j = some bit) :
    ∀ (d i : Nat) (out : σ), n - i = d → i ≤ n →
      cRawBitArray.PrintOneIDs.loop os pm s n i out
        = (((List.range' i (n - i)).filter
              (fun j => decide (s.GetBit pm j = some true))).foldl
            (fun o j => os.insert_text (os.insert_index o j) [' ']) out, .returned) := by
  intro d
  induction d with
  | zero =>
    intro i out hd hi
    rw [cRawBitArray.PrintOneIDs.loop, if_neg (by omega), hd]
    rfl
  | succ d ih =>
    intro i out hd hi
    have hin : i < n := by omega
    obtain ⟨bit, hbit⟩ := hdef i hin
    have hlen : n - i = (n - (i + 1)) + 1 := by omega
    rw [cRawBitArray.PrintOneIDs.loop, if_pos hin, hbit]
    dsimp only
    rw [hlen, List.range'_succ, List.filter_cons, hbit]
    cases bit
    · rw [if_neg (by decide), if_neg (by decide), ih (i + 1) _ (by omega) (by omega)]
    · rw [if_pos (by decide), if_pos (by decide), ih (i + 1) _ (by omega) (by omega),
        List.foldl_cons]

theorem Print_spec32 {σ : Type} (os : OStream σ) (pm : Nat → Nat) (s : cRawBitArray) (n : Nat)
    (out : σ) (h : n ≤ 32 * s.bit_fields.length) :
    s.Print os pm n out
      = ((List.range n).foldl
          (fun o j => os.insert_bool o (decide (s.GetBit pm j = some true))) out,
        .returned) := by
  unfold cRawBitArray.Print
  rw [Print_loop_spec32 os pm s n (fun j hj => covered_GetBit32 pm s h hj) n 0 out rfl
    (Nat.zero_le n), List.range_eq_range']
  rfl

theorem Print_digits32 (cs : OStream (List Char)) (hcs : WritesBoolAsDigit cs)
    (pm : Nat → Nat) (s : cRawBitArray) (n : Nat) (text : List Char)
    (h : n ≤ 32 * s.bit_fields.length) :
    ∃ written, s.Print cs pm n text = (text ++ written, .returned) ∧ written.length = n ∧
      ∀ j, j < n → ∃ bit, s.GetBit pm j = some bit ∧
        written[j]? = some (if bit then '1' else '0') := by
  refine ⟨(List.range n).map (fun j => if s.GetBit pm j = some true then '1' else '0'),
    ?_, by simp, fun j hj => ?_⟩
  · rw [Print_spec32 cs pm s n text h]
    have hf : (fun (o : List Char) (j : Nat) =>
          cs.insert_bool o (decide (s.GetBit pm j = some true)))
        = fun o j => o ++ [(fun j => if s.GetBit pm j = some true then '1' else '0') j] := by
      funext o j
      rw [hcs]
      simp
    rw [hf, foldl_append_singleton]
  · obtain ⟨bit, hbit⟩ := covered_GetBit32 pm s h hj
    refine ⟨bit, hbit, ?_⟩
    rw [List.getElem?_map, List.getElem?_range hj, Option.map_some', hbit]
    cases bit <;> simp

theorem PrintOneIDs_spec32 {σ : Type} (os : OStream σ) (pm : Nat → Nat) (s : cRawBitArray) (n : Nat)
    (out : σ) (h : n ≤ 32 * s.bit_fields.length) :
    s.PrintOneIDs os pm n out
      = (((List.range n).filter (fun j => decide (s.GetBit pm j = some true))).foldl
          (fun o j => os.insert_text (os.insert_index o j) [' ']) out, .returned) := by
  unfold cRawBitArray.PrintOneIDs
  rw [PrintOneIDs_loop_spec32 os pm s n (fun j hj => covered_GetBit32 pm s h hj) n 0 out rfl
    (Nat.zero_le n), List.range_eq_range']
  rfl

theorem PrintOneIDs_decimal32 (cs : OStream (List Char)) (hcs : WritesIndexInDecimal cs)
    (pm : Nat → Nat) (s : cRawBitArray) (n : Nat) (text : List Char)
    (h : n ≤ 32 * s.bit_fields.length) :
    s.PrintOneIDs cs pm n text
      = (text ++ ((List.range n).filter (fun j => decide (s.GetBit pm j = some true))).flatMap
          (fun i => Nat.toDigits 10 i ++ [' ']), .returned) := by
  rw [PrintOneIDs_spec32 cs pm s n text h]
  have hf : (fun (o : List Char) (j : Nat) => cs.insert_text (cs.insert_index o j) [' '])
      = fun o j => (o ++ Nat.toDigits 10 j) ++ [' '] := by
    funext o j
    rw [hcs.1, hcs.2]
  rw [hf, foldl_append_spaced]

theorem PrintOneIDs_all_zero32 {σ : Type} (os : OStream σ) (pm : Nat → Nat) (s : cRawBitArray)
    (n : Nat) (out : σ) (h : n ≤ 32 * s.bit_fields.length)
    (hzero : ∀ i, i < n → s.GetBit pm i = some false) :
    s.PrintOneIDs os pm n out = (out, .returned) := by
  rw [PrintOneIDs_spec32 os pm s n out h]
  have hnil : (List.range n).filter (fun j => decide (s.GetBit pm j = some true)) = [] := by
    rw [List.filter_eq_nil_iff]
    intro i hi
    rw [hzero i (List.mem_range.mp hi)]
    decide
  rw [hnil]
  rfl

/-- Claim C16, as amended.  In both engines, for every bit count `n` (zero included), a block
that holds the `n` bits and every stream, `Print(n)` returns after exactly the `n` insertions
`out << GetBit(j)` for `j = 0, 1, ..., n - 1`, in that order.  On a stream that writes a
`bool` as the one character `1` or `0` (the default format flags, no error), that is exactly
`n` characters, the `j`-th of which is `1` when `GetBit(j)` is true and `0` when it is
false. -/
theorem C16_print_ascending {σ : Type} (os : OStream σ) (pm8 pm32 : Nat → Nat)
    (b : cRawBitArrayBytes) (a : cRawBitArray) (n : Nat) (out : σ)
    (hb : n ≤ 8 * b.bit_fields.length) (ha : n ≤ 32 * a.bit_fields.length) :
    (b.Print os pm8 n out
        = ((List.range n).foldl
            (fun o j => os.insert_bool o (decide (b.GetBit pm8 j = some true))) out,
          .returned) ∧
      (∀ j, j < n → ∃ bit, b.GetBit pm8 j = some bit) ∧
      ∀ cs : OStream (List Char), WritesBoolAsDigit cs → ∀ text : List Char,
        ∃ written, b.Print cs pm8 n text = (text ++ written, .returned) ∧
          written.length = n ∧
          ∀ j, j < n → ∃ bit, b.GetBit pm8 j = some bit ∧
            written[j]? = some (if bit then '1' else '0')) ∧
    (a.Print os pm32 n out
        = ((List.range n).foldl
            (fun o j => os.insert_bool o (decide (a.GetBit pm32 j = some true))) out,
          .returned) ∧
      (∀ j, j < n → ∃ bit, a.GetBit pm32 j = some bit) ∧
      ∀ cs : OStream (List Char), WritesBoolAsDigit cs → ∀ text : List Char,
        ∃ written, a.Print cs pm32 n text = (text ++ written, .returned) ∧
          written.length = n ∧
          ∀ j, j < n → ∃ bit, a.GetBit pm32 j = some bit ∧
            written[j]? = some (if bit then '1' else '0')) :=
  ⟨⟨Print_spec8 os pm8 b n out hb, fun _ hj => covered_GetBit8 pm8 b hb hj,
      fun cs hcs text => Print_digits8 cs hcs pm8 b n text hb⟩,
    ⟨Print_spec32 os pm32 a n out ha, fun _ hj => covered_GetBit32 pm32 a ha hj,
      fun cs hcs text => Print_digits32 cs hcs pm32 a n text ha⟩⟩

/-- Claim C16 at concrete stores: on a stream with the default flags the ten bits with 2, 5 and
9 set print as `0010010001`. -/
theorem C16_print_ascending_witness :
    (⟨[36, 2]⟩ : cRawBitArrayBytes).Print plainStream (fun k => 2 ^ k) 10 []
        = (['0', '0', '1', '0', '0', '1', '0', '0', '0', '1'], .returned) ∧
    (⟨[548]⟩ : cRawBitArray).Print plainStream (fun k => 2 ^ k) 10 []
        = (['0', '0', '1', '0', '0', '1', '0', '0', '0', '1'], .returned) :=
  have h := C16_print_ascending plainStream (fun k => 2 ^ k) (fun k => 2 ^ k) ⟨[36, 2]⟩ ⟨[548]⟩
    10 [] (by decide) (by decide)
  ⟨h.1.1, h.2.1⟩

/-- Claim C16 as it is stated fails on a stream with `boolalpha` set: the ten bits with 2, 5 and
9 set print as the 47 characters of `falsefalsetruefalsefalsetruefalsefalsefalsetrue`, not as
ten characters `0` and `1`. -/
theorem C16_print_ascending_counterexample :
    ((∃ written, (⟨[36, 2]⟩ : cRawBitArrayBytes).Print boolalphaStream (fun k => 2 ^ k) 10 []
          = (written, .returned) ∧ written.length = 47 ∧
          written.take 10 = ['f', 'a', 'l', 's', 'e', 'f', 'a', 'l', 's', 'e']) ∧
      ¬ ∃ written, (⟨[36, 2]⟩ : cRawBitArrayBytes).Print boolalphaStream (fun k => 2 ^ k) 10 []
          = ([] ++ written, .returned) ∧ written.length = 10) ∧
    ((∃ written, (⟨[548]⟩ : cRawBitArray).Print boolalphaStream (fun k => 2 ^ k) 10 []
          = (written, .returned) ∧ written.length = 47 ∧
          written.take 10 = ['f', 'a', 'l', 's', 'e', 'f', 'a', 'l', 's', 'e']) ∧
      ¬ ∃ written, (⟨[548]⟩ : cRawBitArray).Print boolalphaStream (fun k => 2 ^ k) 10 []
          = ([] ++ written, .returned) ∧ written.length = 10) := by
  have e8 := Print_spec8 boolalphaStream (fun k => 2 ^ k) ⟨[36, 2]⟩ 10 [] (by decide)
  have e32 := Print_spec32 boolalphaStream (fun k => 2 ^ k) ⟨[548]⟩ 10 [] (by decide)
  refine ⟨⟨⟨_, e8, rfl, rfl⟩, ?_⟩, ⟨⟨_, e32, rfl, rfl⟩, ?_⟩⟩
  · rintro ⟨written, hw, hlen⟩
    rw [e8] at hw
    have hw1 := congrArg (fun r => r.1.length) hw
    have hw2 : (47 : Nat) = written.length := hw1
    omega
  · rintro ⟨written, hw, hlen⟩
    rw [e32] at hw
    have hw1 := congrArg (fun r => r.1.length) hw
    have hw2 : (47 : Nat) = written.length := hw1
    omega

/-- Claim C17, as amended.  In both engines, for every bit count `n` (zero included), a block
that holds the `n` bits and every stream, `PrintOneIDs(n)` returns after exactly the insertions
`out << i << " "` for the indices `i < n` with `GetBit(i)` true and no others, each once and in
strictly ascending order; for a store with no bit set below `n` it inserts nothing.  On a
stream that writes an index in decimal and a string as it is (the default format flags, no
error), the text written is the decimal digits of each such index followed by one space. -/
theorem C17_print_one_ids {σ : Type} (os : OStream σ) (pm8 pm32 : Nat → Nat)
    (b : cRawBitArrayBytes) (a : cRawBitArray) (n : Nat) (out : σ)
    (hb : n ≤ 8 * b.bit_fields.length) (ha : n ≤ 32 * a.bit_fields.length) :
    (∃ ids : List Nat,
      b.PrintOneIDs os pm8 n out
        = (ids.foldl (fun o i => os.insert_text (os.insert_index o i) [' ']) out, .returned) ∧
      ids.Pairwise (fun i j => i < j) ∧
      (∀ i, i ∈ ids ↔ i < n ∧ b.GetBit pm8 i = some true) ∧
      ((∀ i, i < n → b.GetBit pm8 i = some false) →
        b.PrintOneIDs os pm8 n out = (out, .returned)) ∧
      ∀ cs : OStream (List Char), WritesIndexInDecimal cs → ∀ text : List Char,
        b.PrintOneIDs cs pm8 n text
          = (text ++ ids.flatMap (fun i => Nat.toDigits 10 i ++ [' ']), .returned)) ∧
    (∃ ids : List Nat,
      a.PrintOneIDs os pm32 n out
        = (ids.foldl (fun o i => os.insert_text (os.insert_index o i) [' ']) out, .returned) ∧
      ids.Pairwise (fun i j => i < j) ∧
      (∀ i, i ∈ ids ↔ i < n ∧ a.GetBit pm32 i = some true) ∧
      ((∀ i, i < n → a.GetBit pm32 i = some false) →
        a.PrintOneIDs os pm32 n out = (out, .returned)) ∧
      ∀ cs : OStream (List Char), WritesIndexInDecimal cs → ∀ text : List Char,
        a.PrintOneIDs cs pm32 n text
          = (text ++ ids.flatMap (fun i => Nat.toDigits 10 i ++ [' ']), .returned)) :=
  ⟨⟨_, PrintOneIDs_spec8 os pm8 b n out hb, (List.pairwise_lt_range n).filter _,
      fun i => by simp, PrintOneIDs_all_zero8 os pm8 b n out hb,
      fun cs hcs text => PrintOneIDs_decimal8 cs hcs pm8 b n text hb⟩,
    ⟨_, PrintOneIDs_spec32 os pm32 a n out ha, (List.pairwise_lt_range n).filter _,
      fun i => by simp, PrintOneIDs_all_zero32 os pm32 a n out ha,
      fun cs hcs text => PrintOneIDs_decimal32 cs hcs pm32 a n text ha⟩⟩

/-- Claim C17 at concrete stores: ten bits with 2, 5 and 9 set, on a stream with the default
flags. -/
theorem C17_print_one_ids_witness :
    (∃ ids : List Nat,
      (⟨[36, 2]⟩ : cRawBitArrayBytes).PrintOneIDs plainStream (fun k => 2 ^ k) 10 []
        = ([] ++ ids.flatMap (fun i => Nat.toDigits 10 i ++ [' ']), .returned) ∧
      ∀ i, i ∈ ids ↔ i < 10 ∧ (⟨[36, 2]⟩ : cRawBitArrayBytes).GetBit (fun k => 2 ^ k) i
        = some true) ∧
    (∃ ids : List Nat,
      (⟨[548]⟩ : cRawBitArray).PrintOneIDs plainStream (fun k => 2 ^ k) 10 []
        = ([] ++ ids.flatMap (fun i => Nat.toDigits 10 i ++ [' ']), .returned) ∧
      ∀ i, i ∈ ids ↔ i < 10 ∧ (⟨[548]⟩ : cRawBitArray).GetBit (fun k => 2 ^ k) i
        = some true) :=
  have h := C17_print_one_ids plainStream (fun k => 2 ^ k) (fun k => 2 ^ k) ⟨[36, 2]⟩ ⟨[548]⟩
    10 [] (by decide) (by decide)
  ⟨h.1.imp fun _ h => ⟨h.2.2.2.2 plainStream ⟨fun _ _ => rfl, fun _ _ => rfl⟩ [], h.2.2.1⟩,
   h.2.imp fun _ h => ⟨h.2.2.2.2 plainStream ⟨fun _ _ => rfl, fun _ _ => rfl⟩ [], h.2.2.1⟩⟩

/-- Claim C17 as it is stated fails on streams that are not in the default state.  On a stream
with `hex` set, bit 10 of sixteen is written as `a` and a space, not as `10` and a space.  On
a stream with `failbit` set, the ten bits with 2, 5 and 9 set are written as nothing at all,
though bit 2 is set: no list of the set indices, each followed by a space, is what was
written. -/
theorem C17_print_one_ids_counterexample :
    ((⟨[0, 4]⟩ : cRawBitArrayBytes).PrintOneIDs hexStream (fun k => 2 ^ k) 16 []
        = (['a', ' '], .returned) ∧
      (⟨[0, 4]⟩ : cRawBitArrayBytes).GetBit (fun k => 2 ^ k) 10 = some true ∧
      (⟨[36, 2]⟩ : cRawBitArrayBytes).PrintOneIDs failedStream (fun k => 2 ^ k) 10 []
        = ([], .returned) ∧
      ¬ ∃ ids : List Nat,
        (⟨[36, 2]⟩ : cRawBitArrayBytes).PrintOneIDs failedStream (fun k => 2 ^ k) 10 []
          = ([] ++ ids.flatMap (fun i => Nat.toDigits 10 i ++ [' ']), .returned) ∧
        ∀ i, i ∈ ids ↔ i < 10 ∧ (⟨[36, 2]⟩ : cRawBitArrayBytes).GetBit (fun k => 2 ^ k) i
          = some true) ∧
    ((⟨[1024]⟩ : cRawBitArray).PrintOneIDs hexStream (fun k => 2 ^ k) 16 []
        = (['a', ' '], .returned) ∧
      (⟨[1024]⟩ : cRawBitArray).GetBit (fun k => 2 ^ k) 10 = some true ∧
      (⟨[548]⟩ : cRawBitArray).PrintOneIDs failedStream (fun k => 2 ^ k) 10 []
        = ([], .returned) ∧
      ¬ ∃ ids : List Nat,
        (⟨[548]⟩ : cRawBitArray).PrintOneIDs failedStream (fun k => 2 ^ k) 10 []
          = ([] ++ ids.flatMap (fun i => Nat.toDigits 10 i ++ [' ']), .returned) ∧
        ∀ i, i ∈ ids ↔ i < 10 ∧ (⟨[548]⟩ : cRawBitArray).GetBit (fun k => 2 ^ k) i
          = some true) := by
  have x8 := PrintOneIDs_spec8 hexStream (fun k => 2 ^ k) ⟨[0, 4]⟩ 16 [] (by decide)
  have f8 := PrintOneIDs_spec8 failedStream (fun k => 2 ^ k) ⟨[36, 2]⟩ 10 [] (by decide)
  have x32 := PrintOneIDs_spec32 hexStream (fun k => 2 ^ k) ⟨[1024]⟩ 16 [] (by decide)
  have f32 := PrintOneIDs_spec32 failedStream (fun k => 2 ^ k) ⟨[548]⟩ 10 [] (by decide)
  refine ⟨⟨x8, rfl, f8, ?_⟩, ⟨x32, rfl, f32, ?_⟩⟩
  · rintro ⟨ids, hw, hmem⟩
    rw [f8] at hw
    have h2 : 2 ∈ ids := (hmem 2).mpr ⟨by decide, rfl⟩
    have hnil : ids.flatMap (fun i => Nat.toDigits 10 i ++ [' ']) = [] :=
      (congrArg (fun r => r.1) hw).symm
    rw [List.flatMap_eq_nil_iff] at hnil
    have := hnil 2 h2
    simp at this
  · rintro ⟨ids, hw, hmem⟩
    rw [f32] at hw
    have h2 : 2 ∈ ids := (hmem 2).mpr ⟨by decide, rfl⟩
    have hnil : ids.flatMap (fun i => Nat.toDigits 10 i ++ [' ']) = [] :=
      (congrArg (fun r => r.1) hw).symm
    rw [List.flatMap_eq_nil_iff] at hnil
    have := hnil 2 h2
    simp at this

/-! ## The two engines hold the same bits -/

theorem SetBit_GetBit8 (pm : Nat → Nat) (hpm : MasksArePowers 8 pm) (s : cRawBitArrayBytes) (i : Nat)
    (v : Bool) (hi : i / 8 < s.bit_fields.length) :
    ∃ s', s.SetBit pm i v = some s' ∧ s'.bit_fields.length = s.bit_fields.length ∧
      ∀ j, s'.GetBit pm j = if j = i then some v else s.GetBit pm j := by
  obtain ⟨w, w', hw, hset, _, hbits⟩ := SetBit_spec8 pm hpm s i v hi
  refine ⟨_, hset, by simp, fun j => ?_⟩
  rw [GetBit_eq8 pm hpm, GetBit_eq8 pm hpm]
  by_cases hf : i / 8 = j / 8
  · rw [← hf, readWord_set_self _ hi, hw, Option.map_some', Option.map_some',
      hbits (j % 8) (Nat.mod_lt _ (by decide))]
    by_cases hji : j = i
    · subst hji
      rw [if_pos rfl, if_pos rfl]
    · have hpos : i % 8 ≠ j % 8 := by omega
      rw [if_neg hpos, if_neg hji]
  · rw [readWord_set_of_ne _ _ hf, if_neg (by rintro rfl; exact hf rfl)]

theorem GetBit_after_Zero8 (pm : Nat → Nat) (hpm : MasksArePowers 8 pm) (s' : cRawBitArrayBytes)
    (count : Nat) (rest : Nat → Option Nat)
    (hw : ∀ k, readWord s'.bit_fields k = if k < count then some 0 else rest k)
    {i : Nat} (hi : i / 8 < count) : s'.GetBit pm i = some false := by
  rw [GetBit_eq8 pm hpm, hw, if_pos hi, Option.map_some', Nat.zero_testBit]

theorem sized_spec8 (pm : Nat → Nat) (hpm : MasksArePowers 8 pm) (fresh : Nat → Nat) {n : Nat}
    (h1 : 1 ≤ n) (h2 : n < 2 ^ 64) (h31 : (n + (8 - 1)) / 8 < 2 ^ 31) :
    ∃ x, cBitArrayBytes.sized fresh n = .ok x ∧ x.array_size = n ∧
      x.bit_array.bit_fields.length = (n + (8 - 1)) / 8 ∧
      ∀ i, i < n → x.bit_array.GetBit pm i = some false := by
  have e : cRawBitArrayBytes.GetNumFields n = (n + (8 - 1)) / 8 := by
    rw [GetNumFields_pos8 h1 h2]; omega
  obtain ⟨s', hz, hl, hw⟩ := Zero_spec8
    ⟨(List.range (cRawBitArrayBytes.GetNumFields n)).map fun k => fresh k % 2 ^ 8⟩ n
    (by rw [e]; exact h31) (by simp)
  refine ⟨⟨s', n⟩, ?_, rfl, ?_, fun i hi => ?_⟩
  · unfold cBitArrayBytes.sized cRawBitArrayBytes.sized
    dsimp only
    rw [hz]
  · rw [hl, List.length_map, List.length_range, e]
  · exact GetBit_after_Zero8 pm hpm s' _ _ hw (by rw [e]; omega)

theorem SetBit_GetBit32 (pm : Nat → Nat) (hpm : MasksArePowers 32 pm) (s : cRawBitArray) (i : Nat)
    (v : Bool) (hi : i / 32 < s.bit_fields.length) :
    ∃ s', s.SetBit pm i v = some s' ∧ s'.bit_fields.length = s.bit_fields.length ∧
      ∀ j, s'.GetBit pm j = if j = i then some v else s.GetBit pm j := by
  obtain ⟨w, w', hw, hset, _, hbits⟩ := SetBit_spec32 pm hpm s i v hi
  refine ⟨_, hset, by simp, fun j => ?_⟩
  rw [GetBit_eq32 pm hpm, GetBit_eq32 pm hpm]
  by_cases hf : i / 32 = j / 32
  · rw [← hf, readWord_set_self _ hi, hw, Option.map_some', Option.map_some',
      hbits (j % 32) (Nat.mod_lt _ (by decide))]
    by_cases hji : j = i
    · subst hji
      rw [if_pos rfl, if_pos rfl]
    · have hpos : i % 32 ≠ j % 32 := by omega
      rw [if_neg hpos, if_neg hji]
  · rw [readWord_set_of_ne _ _ hf, if_neg (by rintro rfl; exact hf rfl)]

theorem GetBit_after_Zero32 (pm : Nat → Nat) (hpm : MasksArePowers 32 pm) (s' : cRawBitArray)
    (count : Nat) (rest : Nat → Option Nat)
    (hw : ∀ k, readWord s'.bit_fields k = if k < count then some 0 else rest k)
    {i : Nat} (hi : i / 32 < count) : s'.GetBit pm i = some false := by
  rw [GetBit_eq32 pm hpm, hw, if_pos hi, Option.map_some', Nat.zero_testBit]

theorem sized_spec32 (pm : Nat → Nat) (hpm : MasksArePowers 32 pm) (fresh : Nat → Nat) {n : Nat}
    (h1 : 1 ≤ n) (h2 : n < 2 ^ 64) (h31 : (n + (32 - 1)) / 32 < 2 ^ 31) :
    ∃ x, cBitArray.sized fresh n = .ok x ∧ x.array_size = n ∧
      x.bit_array.bit_fields.length = (n + (32 - 1)) / 32 ∧
      ∀ i, i < n → x.bit_array.GetBit pm i = some false := by
  have e : cRawBitArray.GetNumFields n = (n + (32 - 1)) / 32 := by
    rw [GetNumFields_pos32 h1 h2]; omega
  obtain ⟨s', hz, hl, hw⟩ := Zero_spec32
    ⟨(List.range (cRawBitArray.GetNumFields n)).map fun k => fresh k % 2 ^ 32⟩ n
    (by rw [e]; exact h31) (by simp)
  refine ⟨⟨s', n⟩, ?_, rfl, ?_, fun i hi => ?_⟩
  · unfold cBitArray.sized cRawBitArray.sized
    dsimp only
    rw [hz]
  · rw [hl, List.length_map, List.length_range, e]
  · exact GetBit_after_Zero32 pm hpm s' _ _ hw (by rw [e]; omega)

theorem call_keeps_SameBits (pm8 pm32 : Nat → Nat) (h8 : MasksArePowers 8 pm8)
    (h32 : MasksArePowers 32 pm32) {n : Nat} (h1 : 1 ≤ n) (h2 : n < 2 ^ 64)
    (h31 : (n + 7) / 8 < 2 ^ 31) (x : cBitArrayBytes) (y : cBitArray)
    (hxy : SameBits pm8 pm32 n x y) (c : Call)
    (hc : ∀ index value, c = Call.Set index value → index < n) :
    ∃ x' y', x.call pm8 c = (.ok (), x') ∧ y.call pm32 c = (.ok (), y') ∧
      SameBits pm8 pm32 n x' y' := by
  obtain ⟨bx, nx⟩ := x
  obtain ⟨by', ny⟩ := y
  obtain ⟨hx, hy, hlx, hly, hbits⟩ := hxy
  dsimp only at hx hy hlx hly hbits
  subst hx
  subst hy
  have e8 : cRawBitArrayBytes.GetNumFields ny = (ny + 7) / 8 := by
    rw [GetNumFields_pos8 h1 h2]; omega
  have e32 : cRawBitArray.GetNumFields ny = (ny + 31) / 32 := by
    rw [GetNumFields_pos32 h1 h2]; omega
  cases c with
  | Clear =>
    obtain ⟨b', hzb, hlb, hwb⟩ := Zero_spec8 bx ny (by rw [e8]; exact h31) (by rw [e8]; exact hlx)
    obtain ⟨a', hza, hla, hwa⟩ := Zero_spec32 by' ny (by rw [e32]; omega) (by rw [e32]; exact hly)
    refine ⟨⟨b', ny⟩, ⟨a', ny⟩, ?_, ?_, rfl, rfl, by rw [hlb]; exact hlx, by rw [hla]; exact hly,
      fun i hi => ⟨false, ?_, ?_⟩⟩
    · show cBitArrayBytes.afterEngine _ (cRawBitArrayBytes.Zero bx ny) = _
      rw [hzb]; rfl
    · show cBitArray.afterEngine _ (cRawBitArray.Zero by' ny) = _
      rw [hza]; rfl
    · exact GetBit_after_Zero8 pm8 h8 b' _ _ hwb (by rw [e8]; omega)
    · exact GetBit_after_Zero32 pm32 h32 a' _ _ hwa (by rw [e32]; omega)
  | SetAll =>
    obtain ⟨b', hob, hlb, hwb⟩ := Ones_spec8 bx h1 h2 (by rw [e8]; exact hlx)
    obtain ⟨a', hoa, hla, hwa⟩ := Ones_spec32 by' h1 h2 (by rw [e32]; exact hly)
    refine ⟨⟨b', ny⟩, ⟨a', ny⟩, ?_, ?_, rfl, rfl, by rw [hlb]; exact hlx, by rw [hla]; exact hly,
      fun i hi => ⟨true, ?_, ?_⟩⟩
    · show cBitArrayBytes.afterEngine _ (cRawBitArrayBytes.Ones bx ny) = _
      rw [hob]; rfl
    · show cBitArray.afterEngine _ (cRawBitArray.Ones by' ny) = _
      rw [hoa]; rfl
    · exact GetBit_after_Ones8 pm8 h8 b' _ hwb hi
    · exact GetBit_after_Ones32 pm32 h32 a' _ hwa hi
  | Set index value =>
    have hin : index < ny := hc index value rfl
    obtain ⟨b', hsb, hlb, hgb⟩ := SetBit_GetBit8 pm8 h8 bx index value (by omega)
    obtain ⟨a', hsa, hla, hga⟩ := SetBit_GetBit32 pm32 h32 by' index value (by omega)
    refine ⟨⟨b', ny⟩, ⟨a', ny⟩, ?_, ?_, rfl, rfl, by rw [hlb]; exact hlx, by rw [hla]; exact hly,
      fun i hi => ?_⟩
    · show cBitArrayBytes.Set pm8 ⟨bx, ny⟩ index value = _
      unfold cBitArrayBytes.Set
      rw [if_pos hin, hsb]; rfl
    · show cBitArray.Set pm32 ⟨by', ny⟩ index value = _
      unfold cBitArray.Set
      rw [if_pos hin, hsa]; rfl
    · dsimp only
      rw [hgb, hga]
      by_cases hii : i = index
      · rw [if_pos hii, if_pos hii]
        exact ⟨value, rfl, rfl⟩
      · rw [if_neg hii, if_neg hii]
        exact hbits i hi

theorem calls_keep_SameBits (pm8 pm32 : Nat → Nat) (h8 : MasksArePowers 8 pm8)
    (h32 : MasksArePowers 32 pm32) {n : Nat} (h1 : 1 ≤ n) (h2 : n < 2 ^ 64)
    (h31 : (n + 7) / 8 < 2 ^ 31) (cs : List Call) :
    ∀ (x : cBitArrayBytes) (y : cBitArray), SameBits pm8 pm32 n x y → IndicesBelow n cs →
      ∃ x' y', x.calls pm8 cs = (.ok (), x') ∧ y.calls pm32 cs = (.ok (), y') ∧
        SameBits pm8 pm32 n x' y' := by
  induction cs with
  | nil =>
    intro x y hxy _
    exact ⟨x, y, rfl, rfl, hxy⟩
  | cons c rest ih =>
    intro x y hxy hcs
    obtain ⟨x1, y1, hx1, hy1, h1'⟩ := call_keeps_SameBits pm8 pm32 h8 h32 h1 h2 h31 x y hxy c
      (fun index value hcv => hcs index value (by rw [hcv]; exact List.mem_cons_self _ _))
    obtain ⟨x', y', hx', hy', h'⟩ := ih x1 y1 h1'
      (fun index value hm => hcs index value (List.mem_cons_of_mem _ hm))
    refine ⟨x', y', ?_, ?_, h'⟩
    · show (match cBitArrayBytes.call pm8 x c with
        | (.ok _, next) => cBitArrayBytes.calls pm8 next rest
        | (.error e, next) => (.error e, next)) = _
      rw [hx1]
      exact hx'
    · show (match cBitArray.call pm32 y c with
        | (.ok _, next) => cBitArray.calls pm32 next rest
        | (.error e, next) => (.error e, next)) = _
      rw [hy1]
      exact hy'

theorem SameBits_Get (pm8 pm32 : Nat → Nat) {n : Nat} (x : cBitArrayBytes) (y : cBitArray)
    (hxy : SameBits pm8 pm32 n x y) {i : Nat} (hi : i < n) :
    ∃ bit, x.Get pm8 i = .ok bit ∧ y.Get pm32 i = .ok bit := by
  obtain ⟨hx, hy, _, _, hbits⟩ := hxy
  obtain ⟨bit, hb, ha⟩ := hbits i hi
  refine ⟨bit, ?_, ?_⟩
  · unfold cBitArrayBytes.Get
    rw [if_pos (by omega), hb]; rfl
  · unfold cBitArray.Get
    rw [if_pos (by omega), ha]; rfl

/-- Claim C18. Let `n ≥ 1` with `ceil(n / 8) < 2^31`, and let both mask tables hold
`position_masks[k] = 2^k`.  A `cBitArrayBytes(n)` and a `cBitArray(n)` built by the sized
constructors, whatever the uninitialised memory held, and more generally any two arrays of size
`n` that hold the same bits below `n`, stay in step: every sequence of `Clear()`, `SetAll()`
and `Set(i, v)` with `i < n` runs to its end on both, and afterwards `Get(i)` returns the same
value on both for every `i < n`. -/
theorem C18_engines_agree (pm8 pm32 : Nat → Nat) (h8 : MasksArePowers 8 pm8)
    (h32 : MasksArePowers 32 pm32) (n : Nat) (h1 : 1 ≤ n) (h2 : n < 2 ^ 64)
    (h31 : (n + 7) / 8 < 2 ^ 31) (cs : List Call) (hcs : IndicesBelow n cs)
    (fresh8 fresh32 : Nat → Nat) :
    (∃ x y, cBitArrayBytes.sized fresh8 n = .ok x ∧ cBitArray.sized fresh32 n = .ok y ∧
      ∃ x' y', x.calls pm8 cs = (.ok (), x') ∧ y.calls pm32 cs = (.ok (), y') ∧
        x'.GetSize = n ∧ y'.GetSize = n ∧
        ∀ i, i < n → ∃ bit, x'.Get pm8 i = .ok bit ∧ y'.Get pm32 i = .ok bit) ∧
    (∀ (x : cBitArrayBytes) (y : cBitArray), SameBits pm8 pm32 n x y →
      ∃ x' y', x.calls pm8 cs = (.ok (), x') ∧ y.calls pm32 cs = (.ok (), y') ∧
        x'.GetSize = n ∧ y'.GetSize = n ∧
        ∀ i, i < n → ∃ bit, x'.Get pm8 i = .ok bit ∧ y'.Get pm32 i = .ok bit) := by
  have general : ∀ (x : cBitArrayBytes) (y : cBitArray), SameBits pm8 pm32 n x y →
      ∃ x' y', x.calls pm8 cs = (.ok (), x') ∧ y.calls pm32 cs = (.ok (), y') ∧
        x'.GetSize = n ∧ y'.GetSize = n ∧
        ∀ i, i < n → ∃ bit, x'.Get pm8 i = .ok bit ∧ y'.Get pm32 i = .ok bit := by
    intro x y hxy
    obtain ⟨x', y', hx', hy', h'⟩ := calls_keep_SameBits pm8 pm32 h8 h32 h1 h2 h31 cs x y hxy hcs
    exact ⟨x', y', hx', hy', h'.1, h'.2.1, fun i hi => SameBits_Get pm8 pm32 x' y' h' hi⟩
  refine ⟨?_, general⟩
  obtain ⟨x, hx, hxs, hxl, hxb⟩ := sized_spec8 pm8 h8 fresh8 h1 h2 h31
  obtain ⟨y, hy, hys, hyl, hyb⟩ := sized_spec32 pm32 h32 fresh32 h1 h2 (by omega)
  exact ⟨x, y, hx, hy, general x y
    ⟨hxs, hys, by rw [hxl], by rw [hyl], fun i hi => ⟨false, hxb i hi, hyb i hi⟩⟩⟩

/-- Claim C18 for ten bits: after `SetAll()`, `Set(3, false)`, `Clear()`, `Set(9, true)` the two
arrays built by the sized constructors answer every `Get(i)`, `i < 10`, alike. -/
theorem C18_engines_agree_witness :
    ∃ x y, cBitArrayBytes.sized (fun _ => 255) 10 = .ok x ∧
      cBitArray.sized (fun k => k + 7) 10 = .ok y ∧
      ∃ x' y',
        x.calls (fun k => 2 ^ k) [Call.SetAll, Call.Set 3 false, Call.Clear, Call.Set 9 true]
          = (.ok (), x') ∧
        y.calls (fun k => 2 ^ k) [Call.SetAll, Call.Set 3 false, Call.Clear, Call.Set 9 true]
          = (.ok (), y') ∧
        x'.GetSize = 10 ∧ y'.GetSize = 10 ∧
        ∀ i, i < 10 → ∃ bit, x'.Get (fun k => 2 ^ k) i = .ok bit ∧
          y'.Get (fun k => 2 ^ k) i = .ok bit :=
  (C18_engines_agree (fun k => 2 ^ k) (fun k => 2 ^ k) (fun _ _ => rfl) (fun _ _ => rfl) 10
    (by decide) (by decide) (by decide)
    [Call.SetAll, Call.Set 3 false, Call.Clear, Call.Set 9 true]
    (by
      intro index value hm
      simp only [List.mem_cons, List.mem_singleton, Call.Set.injEq, List.not_mem_nil,
        or_false, false_or, reduceCtorEq] at hm
      omega)
    (fun _ => 255) (fun k => k + 7)).1

/-! ## The modelled search for the first set bit -/

theorem scan_finds (width : Nat) (bf : List Nat) :
    ∀ (todo i k : Nat), i ≤ k → k < i + todo → specBit width bf k = some true →
      (∀ j, i ≤ j → j < k → specBit width bf j = some false) →
      specFindBit1.scan width bf todo i = some k := by
  intro todo
  induction todo with
  | zero => intro i k h1 h2; omega
  | succ t ih =>
    intro i k h1 h2 hk hbelow
    unfold specFindBit1.scan
    by_cases hik : i = k
    · subst hik
      rw [hk]
    · rw [hbelow i (Nat.le_refl i) (by omega)]
      exact ih (i + 1) k (by omega) (by omega) hk (fun j hj1 hj2 => hbelow j (by omega) hj2)

theorem scan_finds_none (width : Nat) (bf : List Nat) :
    ∀ (todo i : Nat), (∀ j, i ≤ j → j < i + todo → specBit width bf j = some false) →
      specFindBit1.scan width bf todo i = some not_found := by
  intro todo
  induction todo with
  | zero => intro i _; rfl
  | succ t ih =>
    intro i hall
    unfold specFindBit1.scan
    rw [hall i (Nat.le_refl i) (by omega)]
    exact ih (i + 1) (fun j hj1 hj2 => hall j (by omega) (by omega))

theorem specFindBit1_finds (width : Nat) (bf : List Nat) (n s k : Nat) (h1 : s ≤ k) (h2 : k < n)
    (hk : specBit width bf k = some true)
    (hbelow : ∀ j, s ≤ j → j < k → specBit width bf j = some false) :
    specFindBit1 width bf n s = some k :=
  scan_finds width bf (n - s) s k h1 (by omega) hk hbelow

theorem specFindBit1_none (width : Nat) (bf : List Nat) (n s : Nat)
    (hall : ∀ j, s ≤ j → j < n → specBit width bf j = some false) :
    specFindBit1 width bf n s = some not_found :=
  scan_finds_none width bf (n - s) s (fun j hj1 hj2 => hall j hj1 (by omega))

theorem specBit_eq_GetBit8 (pm : Nat → Nat) (hpm : MasksArePowers 8 pm) (s : cRawBitArrayBytes)
    (i : Nat) : specBit 8 s.bit_fields i = s.GetBit pm i :=
  (GetBit_eq8 pm hpm s i).symm

theorem specBit_eq_GetBit32 (pm : Nat → Nat) (hpm : MasksArePowers 32 pm) (s : cRawBitArray)
    (i : Nat) : specBit 32 s.bit_fields i = s.GetBit pm i :=
  (GetBit_eq32 pm hpm s i).symm

theorem liftEngine_ok {α : Type} (o : Option α) (a : α) : liftEngine o = .ok a ↔ o = some a := by
  cases o <;> simp [liftEngine]

theorem Get_ok8 (pm : Nat → Nat) (x : cBitArrayBytes) (i : Nat) (bit : Bool) :
    x.Get pm i = .ok bit ↔ i < x.array_size ∧ x.bit_array.GetBit pm i = some bit := by
  unfold cBitArrayBytes.Get
  by_cases h : i < x.array_size
  · rw [if_pos h, liftEngine_ok]
    exact ⟨fun hg => ⟨h, hg⟩, fun hg => hg.2⟩
  · rw [if_neg h]
    constructor
    · intro hf; simp at hf
    · intro hf; exact absurd hf.1 h

theorem Get_ok32 (pm : Nat → Nat) (x : cBitArray) (i : Nat) (bit : Bool) :
    x.Get pm i = .ok bit ↔ i < x.array_size ∧ x.bit_array.GetBit pm i = some bit := by
  unfold cBitArray.Get
  by_cases h : i < x.array_size
  · rw [if_pos h, liftEngine_ok]
    exact ⟨fun hg => ⟨h, hg⟩, fun hg => hg.2⟩
  · rw [if_neg h]
    constructor
    · intro hf; simp at hf
    · intro hf; exact absurd hf.1 h

/-- Claim C14, for `FindBit1` of the engines modelled from the specification.  With
`position_masks[k] = 2^k`, in both facades and for every start position `s`: when bit `k` is
set, `s ≤ k < GetSize()` and no bit from `s` up to `k` is set, `FindBit1(s)` returns `k`; when
no bit from `s` up to `GetSize()` is set it returns the sentinel.  So it returns the sentinel
for every `s` on an all-zero array, and on an array with only bit `k` set it returns `k` for
`s ≤ k` and the sentinel for `s > k`. -/
theorem C14_find_first_set_bit (pm8 pm32 : Nat → Nat) (h8 : MasksArePowers 8 pm8)
    (h32 : MasksArePowers 32 pm32) (x : cBitArrayBytes) (y : cBitArray) (s : Nat) :
    ((∀ k, s ≤ k → k < x.GetSize → x.Get pm8 k = .ok true →
        (∀ j, s ≤ j → j < k → x.Get pm8 j = .ok false) → x.FindBit1 s = .ok k) ∧
      ((∀ j, s ≤ j → j < x.GetSize → x.Get pm8 j = .ok false) →
        x.FindBit1 s = .ok not_found) ∧
      ((∀ j, j < x.GetSize → x.Get pm8 j = .ok false) → x.FindBit1 s = .ok not_found) ∧
      (∀ k, k < x.GetSize → (∀ j, j < x.GetSize → x.Get pm8 j = .ok (decide (j = k))) →
        x.FindBit1 s = .ok (if s ≤ k then k else not_found))) ∧
    ((∀ k, s ≤ k → k < y.GetSize → y.Get pm32 k = .ok true →
        (∀ j, s ≤ j → j < k → y.Get pm32 j = .ok false) → y.FindBit1 s = .ok k) ∧
      ((∀ j, s ≤ j → j < y.GetSize → y.Get pm32 j = .ok false) →
        y.FindBit1 s = .ok not_found) ∧
      ((∀ j, j < y.GetSize → y.Get pm32 j = .ok false) → y.FindBit1 s = .ok not_found) ∧
      (∀ k, k < y.GetSize → (∀ j, j < y.GetSize → y.Get pm32 j = .ok (decide (j = k))) →
        y.FindBit1 s = .ok (if s ≤ k then k else not_found))) := by
  constructor
  · have found : ∀ k, s ≤ k → k < x.GetSize → x.Get pm8 k = .ok true →
        (∀ j, s ≤ j → j < k → x.Get pm8 j = .ok false) → x.FindBit1 s = .ok k := by
      intro k hsk hkn hk hbelow
      unfold cBitArrayBytes.FindBit1 cRawBitArrayBytes.FindBit1
      rw [liftEngine_ok]
      refine specFindBit1_finds 8 _ _ s k hsk hkn ?_ (fun j hj1 hj2 => ?_)
      · rw [specBit_eq_GetBit8 pm8 h8]
        exact ((Get_ok8 pm8 x k true).mp hk).2
      · rw [specBit_eq_GetBit8 pm8 h8]
        exact ((Get_ok8 pm8 x j false).mp (hbelow j hj1 hj2)).2
    have missing : (∀ j, s ≤ j → j < x.GetSize → x.Get pm8 j = .ok false) →
        x.FindBit1 s = .ok not_found := by
      intro hall
      unfold cBitArrayBytes.FindBit1 cRawBitArrayBytes.FindBit1
      rw [liftEngine_ok]
      refine specFindBit1_none 8 _ _ s (fun j hj1 hj2 => ?_)
      rw [specBit_eq_GetBit8 pm8 h8]
      exact ((Get_ok8 pm8 x j false).mp (hall j hj1 hj2)).2
    refine ⟨found, missing, fun hzero => missing (fun j _ hj => hzero j hj),
      fun k hk honly => ?_⟩
    by_cases hsk : s ≤ k
    · rw [if_pos hsk]
      refine found k hsk hk ?_ (fun j hj1 hj2 => ?_)
      · rw [honly k hk]; simp
      · rw [honly j (Nat.lt_trans hj2 hk)]
        have : j ≠ k := by omega
        simp [this]
    · rw [if_neg hsk]
      refine missing (fun j hj1 hj2 => ?_)
      rw [honly j hj2]
      have : j ≠ k := by omega
      simp [this]
  · have found : ∀ k, s ≤ k → k < y.GetSize → y.Get pm32 k = .ok true →
        (∀ j, s ≤ j → j < k → y.Get pm32 j = .ok false) → y.FindBit1 s = .ok k := by
      intro k hsk hkn hk hbelow
      unfold cBitArray.FindBit1 cRawBitArray.FindBit1
      rw [liftEngine_ok]
      refine specFindBit1_finds 32 _ _ s k hsk hkn ?_ (fun j hj1 hj2 => ?_)
      · rw [specBit_eq_GetBit32 pm32 h32]
        exact ((Get_ok32 pm32 y k true).mp hk).2
      · rw [specBit_eq_GetBit32 pm32 h32]
        exact ((Get_ok32 pm32 y j false).mp (hbelow j hj1 hj2)).2
    have missing : (∀ j, s ≤ j → j < y.GetSize → y.Get pm32 j = .ok false) →
        y.FindBit1 s = .ok not_found := by
      intro hall
      unfold cBitArray.FindBit1 cRawBitArray.FindBit1
      rw [liftEngine_ok]
      refine specFindBit1_none 32 _ _ s (fun j hj1 hj2 => ?_)
      rw [specBit_eq_GetBit32 pm32 h32]
      exact ((Get_ok32 pm32 y j false).mp (hall j hj1 hj2)).2
    refine ⟨found, missing, fun hzero => missing (fun j _ hj => hzero j hj),
      fun k hk honly => ?_⟩
    by_cases hsk : s ≤ k
    · rw [if_pos hsk]
      refine found k hsk hk ?_ (fun j hj1 hj2 => ?_)
      · rw [honly k hk]; simp
      · rw [honly j (Nat.lt_trans hj2 hk)]
        have : j ≠ k := by omega
        simp [this]
    · rw [if_neg hsk]
      refine missing (fun j hj1 hj2 => ?_)
      rw [honly j hj2]
      have : j ≠ k := by omega
      simp [this]

/-- Claim C14 on ten bits with 2, 5 and 9 set: `FindBit1(3)` is 5 in both facades. -/
theorem C14_find_first_set_bit_witness :
    cBitArrayBytes.FindBit1 ⟨⟨[36, 2]⟩, 10⟩ 3 = .ok 5 ∧ cBitArray.FindBit1 ⟨⟨[548]⟩, 10⟩ 3 = .ok 5 :=
  have h := C14_find_first_set_bit (fun k => 2 ^ k) (fun k => 2 ^ k) (fun _ _ => rfl)
    (fun _ _ => rfl) ⟨⟨[36, 2]⟩, 10⟩ ⟨⟨[548]⟩, 10⟩ 3
  ⟨h.1.1 5 (by decide) (by decide) rfl (fun j h1 h2 => by interval_cases j <;> rfl),
   h.2.1 5 (by decide) (by decide) rfl (fun j h1 h2 => by interval_cases j <;> rfl)⟩


/-! ## The modelled counts -/

theorem popCount_eq_filter (m w : Nat) :
    popCount m w = ((List.range m).filter fun p => w.testBit p).length := by
  induction m generalizing w with
  | zero => rfl
  | succ m ih =>
    rw [popCount, ih, List.range_succ_eq_map, List.filter_cons, List.filter_map, Nat.testBit_zero]
    have hc : ((fun p => w.testBit p) ∘ Nat.succ) = fun p => (w / 2).testBit p := by
      funext p
      simp only [Function.comp, Nat.testBit_succ]
    rw [hc]
    rcases Nat.mod_two_eq_zero_or_one w with h | h
    · simp [h]
    · simp [h, Nat.add_comm]

theorem popCount_le (m w : Nat) : popCount m w ≤ m := by
  induction m generalizing w with
  | zero => exact Nat.le_refl 0
  | succ m ih =>
    rw [popCount]
    have h1 := ih (w / 2)
    have h2 := Nat.mod_lt w (show 0 < 2 by decide)
    omega

theorem popCount_zero_word (m : Nat) : popCount m 0 = 0 := by
  induction m with
  | zero => rfl
  | succ m ih => rw [popCount, Nat.zero_div, ih]

theorem popCount_mod (W m w : Nat) (h : m ≤ W) : popCount W (w % 2 ^ m) = popCount m w := by
  induction W generalizing m w with
  | zero =>
    have : m = 0 := by omega
    subst this
    rfl
  | succ W ih =>
    cases m with
    | zero => rw [Nat.pow_zero, Nat.mod_one, popCount_zero_word]; rfl
    | succ m =>
      rw [popCount, popCount, Nat.pow_succ', Nat.mod_mul_right_div_self,
        Nat.mod_mul_right_mod, ih m (w / 2) (by omega)]

theorem and_mod_two_of_even (a b : Nat) (h : a % 2 = 0 ∨ b % 2 = 0) : (a &&& b) % 2 = 0 := by
  rcases Nat.mod_two_eq_zero_or_one (a &&& b) with h0 | h1
  · exact h0
  · have := Nat.and_mod_two_eq_one.mp h1
    omega

theorem popCount_clear_lowest (k w : Nat) (hw : w ≠ 0) (hlt : w < 2 ^ k) :
    popCount k (w &&& (w - 1)) + 1 = popCount k w := by
  induction k generalizing w with
  | zero =>
    rw [Nat.pow_zero] at hlt
    omega
  | succ k ih =>
    rw [popCount, popCount, Nat.and_div_two]
    rw [Nat.pow_succ] at hlt
    rcases Nat.mod_two_eq_zero_or_one w with h | h
    · have h2 : (w - 1) / 2 = w / 2 - 1 := by omega
      rw [and_mod_two_of_even w (w - 1) (Or.inl h), h2, h, Nat.zero_add, Nat.zero_add]
      exact ih (w / 2) (by omega) (by omega)
    · have h2 : (w - 1) / 2 = w / 2 := by omega
      rw [and_mod_two_of_even w (w - 1) (Or.inr (by omega)), h2, h, Nat.and_self]
      omega

theorem clearLowestCount_eq (fuel k w : Nat) (hlt : w < 2 ^ k) (hf : popCount k w ≤ fuel) :
    clearLowestCount fuel w = popCount k w := by
  induction fuel generalizing w with
  | zero =>
    rw [clearLowestCount]
    omega
  | succ fuel ih =>
    rw [clearLowestCount]
    by_cases hw : w = 0
    · rw [if_pos hw, hw, popCount_zero_word]
    · rw [if_neg hw]
      have hk := popCount_clear_lowest k w hw hlt
      rw [ih (w &&& (w - 1)) (Nat.lt_of_le_of_lt Nat.and_le_left hlt) (by omega)]
      exact hk

theorem sum_word_counts (W : Nat) (hW : 0 < W) (f : Nat → Bool) (q n : Nat) (h : n ≤ W * q) :
    ((List.range q).map fun k =>
        ((List.range (min W (n - W * k))).filter fun p => f (W * k + p)).length).sum
      = ((List.range n).filter f).length := by
  induction q generalizing n with
  | zero =>
    have : n = 0 := by omega
    subst this
    rfl
  | succ q ih =>
    rw [List.range_succ, List.map_append, List.sum_append, List.map_singleton, List.sum_singleton]
    by_cases hn : n ≤ W * q
    · rw [ih n hn]
      have : min W (n - W * q) = 0 := by omega
      rw [this]
      rfl
    · have hn1 : W * q < n := by omega
      have hq1 : W * (q + 1) = W * q + W := Nat.mul_succ W q
      have hmin : min W (n - W * q) = n - W * q := by omega
      have hcongr : (List.range q).map (fun k =>
            ((List.range (min W (n - W * k))).filter fun p => f (W * k + p)).length)
          = (List.range q).map (fun k =>
            ((List.range (min W (W * q - W * k))).filter fun p => f (W * k + p)).length) := by
        apply List.map_congr_left
        intro k hk
        have hk1 : k < q := List.mem_range.mp hk
        have hk2 : W * k + W ≤ W * q := by
          have := Nat.mul_le_mul_left W (Nat.succ_le_of_lt hk1)
          rw [Nat.mul_succ] at this
          exact this
        have e1 : min W (n - W * k) = W := by omega
        have e2 : min W (W * q - W * k) = W := by omega
        rw [e1, e2]
      rw [hcongr, ih (W * q) (Nat.le_refl _), hmin]
      have hsplit : n = W * q + (n - W * q) := by omega
      conv => rhs; rw [hsplit, List.range_add, List.filter_append, List.length_append,
        List.filter_map, List.length_map]
      rfl

theorem covers_of_specNumWords (W n : Nat) (hW : 0 < W) : n ≤ W * specNumWords W n := by
  unfold specNumWords
  have h1 := Nat.div_add_mod (n + (W - 1)) W
  have h2 := Nat.mod_lt (n + (W - 1)) hW
  omega

theorem specCountBits2_eq (W : Nat) (hW : 0 < W) (bf : List Nat) (n : Nat)
    (hc : specNumWords W n ≤ bf.length) :
    specCountBits2 W bf n
      = some ((List.range n).filter fun i => (bf.getD (i / W) 0).testBit (i % W)).length := by
  unfold specCountBits2 specCountWith
  rw [if_pos hc, ← sum_word_counts W hW _ (specNumWords W n) n (covers_of_specNumWords W n hW)]
  congr 2
  apply List.map_congr_left
  intro k _
  unfold specValidWord
  rw [popCount_mod W _ _ (Nat.min_le_left _ _), popCount_eq_filter]
  congr 1
  apply List.filter_congr
  intro p hp
  have hp1 : p < W := by
    have := List.mem_range.mp hp
    omega
  rw [Nat.mul_add_div hW, Nat.mul_add_mod, Nat.div_eq_of_lt hp1, Nat.mod_eq_of_lt hp1,
    Nat.add_zero]

theorem specCountBits_eq_specCountBits2 (W : Nat) (bf : List Nat) (n : Nat) :
    specCountBits W bf n = specCountBits2 W bf n := by
  unfold specCountBits specCountBits2 specCountWith
  split
  · congr 2
    apply List.map_congr_left
    intro k _
    unfold specValidWord
    exact clearLowestCount_eq W W _
      (Nat.lt_of_lt_of_le (Nat.mod_lt _ (Nat.two_pow_pos _))
        (Nat.pow_le_pow_right (by decide) (Nat.min_le_left _ _)))
      (popCount_le W _)
  · rfl

theorem Get_covered8 (pm : Nat → Nat) (hpm : MasksArePowers 8 pm) (x : cBitArrayBytes)
    (hc : (x.array_size + 7) / 8 ≤ x.bit_array.bit_fields.length) (i : Nat)
    (hi : i < x.array_size) :
    x.Get pm i = .ok ((x.bit_array.bit_fields.getD (i / 8) 0).testBit (i % 8)) := by
  have hk : i / 8 < x.bit_array.bit_fields.length := by omega
  unfold cBitArrayBytes.Get
  rw [if_pos hi, GetBit_eq8 pm hpm, readWord_lt hk, List.getD_eq_getElem _ _ hk]
  rfl

theorem Get_covered32 (pm : Nat → Nat) (hpm : MasksArePowers 32 pm) (x : cBitArray)
    (hc : (x.array_size + 31) / 32 ≤ x.bit_array.bit_fields.length) (i : Nat)
    (hi : i < x.array_size) :
    x.Get pm i = .ok ((x.bit_array.bit_fields.getD (i / 32) 0).testBit (i % 32)) := by
  have hk : i / 32 < x.bit_array.bit_fields.length := by omega
  unfold cBitArray.Get
  rw [if_pos hi, GetBit_eq32 pm hpm, readWord_lt hk, List.getD_eq_getElem _ _ hk]
  rfl

theorem countOnes_eq_of_reads (get : Nat → Except Fault Bool) (f : Nat → Bool) (n : Nat)
    (h : ∀ i, i < n → get i = .ok (f i)) :
    countOnes get n = ((List.range n).filter f).length := by
  unfold countOnes
  congr 1
  apply List.filter_congr
  intro i hi
  rw [h i (List.mem_range.mp hi)]
  cases f i <;> rfl

/-- Claim C13, for the counts modelled from the specification.  For both facades and every array
`x` of size `n` whose block holds the covering words, `CountBits()` and `CountBits2()` return
the same number, the number of indices `i < n` at which `Get(i)` is true; the positions at or
beyond `n` in the last word play no part in it. -/
theorem C13_counts_agree (pm8 pm32 : Nat → Nat) (h8 : MasksArePowers 8 pm8)
    (h32 : MasksArePowers 32 pm32) (x : cBitArrayBytes) (y : cBitArray)
    (hx : (x.GetSize + 7) / 8 ≤ x.bit_array.bit_fields.length)
    (hy : (y.GetSize + 31) / 32 ≤ y.bit_array.bit_fields.length) :
    (x.CountBits = .ok (countOnes (x.Get pm8) x.GetSize) ∧
      x.CountBits2 = .ok (countOnes (x.Get pm8) x.GetSize)) ∧
    (y.CountBits = .ok (countOnes (y.Get pm32) y.GetSize) ∧
      y.CountBits2 = .ok (countOnes (y.Get pm32) y.GetSize)) := by
  unfold cBitArrayBytes.GetSize at hx
  unfold cBitArray.GetSize at hy
  unfold cBitArrayBytes.GetSize cBitArray.GetSize
  constructor
  · have h2 : x.CountBits2 = .ok (countOnes (x.Get pm8) x.array_size) := by
      unfold cBitArrayBytes.CountBits2 cRawBitArrayBytes.CountBits2
      rw [liftEngine_ok, specCountBits2_eq 8 (by decide) _ _ hx,
        countOnes_eq_of_reads _ _ _ (Get_covered8 pm8 h8 x hx)]
    refine ⟨?_, h2⟩
    rw [← h2]
    unfold cBitArrayBytes.CountBits cBitArrayBytes.CountBits2 cRawBitArrayBytes.CountBits
      cRawBitArrayBytes.CountBits2
    rw [specCountBits_eq_specCountBits2]
  · have h2 : y.CountBits2 = .ok (countOnes (y.Get pm32) y.array_size) := by
      unfold cBitArray.CountBits2 cRawBitArray.CountBits2
      rw [liftEngine_ok, specCountBits2_eq 32 (by decide) _ _ hy,
        countOnes_eq_of_reads _ _ _ (Get_covered32 pm32 h32 y hy)]
    refine ⟨?_, h2⟩
    rw [← h2]
    unfold cBitArray.CountBits cBitArray.CountBits2 cRawBitArray.CountBits
      cRawBitArray.CountBits2
    rw [specCountBits_eq_specCountBits2]

/-- Witness for C13: ten bits with 2, 5 and 9 set and every position beyond the tenth set as
well; both counts are 3. -/
theorem C13_counts_agree_witness :
    (cBitArrayBytes.CountBits ⟨⟨[36, 254]⟩, 10⟩ = .ok 3 ∧
      cBitArrayBytes.CountBits2 ⟨⟨[36, 254]⟩, 10⟩ = .ok 3) ∧
    (cBitArray.CountBits ⟨⟨[4294966820]⟩, 10⟩ = .ok 3 ∧
      cBitArray.CountBits2 ⟨⟨[4294966820]⟩, 10⟩ = .ok 3) :=
  C13_counts_agree (fun k => 2 ^ k) (fun k => 2 ^ k) (fun _ _ => rfl) (fun _ _ => rfl)
    ⟨⟨[36, 254]⟩, 10⟩ ⟨⟨[4294966820]⟩, 10⟩ (by decide) (by decide)

/-! ## The modelled increment -/

theorem packWord_lt (f : Nat → Bool) (n : Nat) : packWord f n < 2 ^ n := by
  induction n with
  | zero => exact Nat.one_pos
  | succ n ih =>
    rw [packWord, Nat.pow_succ]
    split <;> omega

theorem packWord_succ_low (f : Nat → Bool) (t : Nat) :
    packWord f (t + 1) = (if f 0 then 1 else 0) + 2 * packWord (fun p => f (p + 1)) t := by
  induction t with
  | zero => simp [packWord]
  | succ t ih =>
    rw [packWord, ih, packWord, Nat.pow_succ]
    by_cases h1 : f (t + 1) = true
    · simp only [if_pos h1]
      omega
    · simp only [if_neg h1]
      omega

theorem packWord_congr (f g : Nat → Bool) (n : Nat) (h : ∀ p, p < n → f p = g p) :
    packWord f n = packWord g n := by
  induction n with
  | zero => rfl
  | succ n ih =>
    rw [packWord, packWord, ih (fun p hp => h p (by omega)), h n (by omega)]

theorem packWord_eq_zero (f : Nat → Bool) (n : Nat) (h : packWord f n = 0) :
    ∀ p, p < n → f p = false := by
  induction n with
  | zero => intro p hp; omega
  | succ n ih =>
    rw [packWord] at h
    have hpos := Nat.two_pow_pos n
    intro p hp
    by_cases hfn : f n = true
    · rw [if_pos hfn] at h
      omega
    · rw [if_neg hfn] at h
      by_cases hpn : p = n
      · rw [hpn]
        exact Bool.eq_false_iff.mpr hfn
      · exact ih (by omega) p (by omega)

theorem packWord_of_false (f : Nat → Bool) (n : Nat) (h : ∀ p, p < n → f p = false) :
    packWord f n = 0 := by
  induction n with
  | zero => rfl
  | succ n ih =>
    rw [packWord, ih (fun p hp => h p (by omega)), h n (by omega)]
    rfl

theorem valueOf_eq_of_reads (get : Nat → Except Fault Bool) (f : Nat → Bool) (n : Nat)
    (h : ∀ i, i < n → get i = .ok (f i)) : valueOf get n = packWord f n := by
  induction n with
  | zero => rfl
  | succ n ih =>
    rw [valueOf, packWord, ih (fun i hi => h i (by omega)), h n (by omega)]
    cases f n <;> rfl

theorem specBit_covered (W : Nat) (bf : List Nat) (i : Nat) (h : i / W < bf.length) :
    specBit W bf i = some (storedBit W bf i) := by
  unfold specBit storedBit
  rw [readWord_lt h, List.getD_eq_getElem _ _ h]
  rfl

theorem specSetBit_covered (W : Nat) (bf : List Nat) (i : Nat) (v : Bool)
    (h : i / W < bf.length) :
    specSetBit W bf i v = some (bf.set (i / W)
      (if v then (bf.getD (i / W) 0 ||| 2 ^ (i % W)) % 2 ^ W
        else (bf.getD (i / W) 0 &&& notUInt32 (2 ^ (i % W))) % 2 ^ W)) := by
  unfold specSetBit
  rw [readWord_lt h, List.getD_eq_getElem _ _ h]
  exact writeWord_lt _ h

theorem storedBit_set (W : Nat) (hW : 0 < W) (hW32 : W ≤ 32) (bf : List Nat) (i : Nat) (v : Bool)
    (h : i / W < bf.length) (j : Nat) :
    storedBit W (bf.set (i / W)
      (if v then (bf.getD (i / W) 0 ||| 2 ^ (i % W)) % 2 ^ W
        else (bf.getD (i / W) 0 &&& notUInt32 (2 ^ (i % W))) % 2 ^ W)) j
      = if j = i then v else storedBit W bf j := by
  unfold storedBit
  by_cases hw : j / W = i / W
  · have hi : i % W < W := Nat.mod_lt _ hW
    have hj : j % W < W := Nat.mod_lt _ hW
    rw [hw, List.getD_eq_getElem?_getD, List.getElem?_set_self h, Option.getD_some,
      testBit_updated_word _ (i % W) (j % W) W v (by omega) hW32 hj]
    have hiff : (i % W = j % W) ↔ (j = i) := by
      constructor
      · intro hm
        have h1 := Nat.div_add_mod i W
        have h2 := Nat.div_add_mod j W
        rw [hw, ← hm] at h2
        omega
      · intro e
        rw [e]
    by_cases hji : j = i
    · rw [if_pos hji, if_pos (hiff.mpr hji)]
    · rw [if_neg hji, if_neg (fun e => hji (hiff.mp e))]
  · have hji : j ≠ i := fun e => hw (by rw [e])
    rw [if_neg hji, List.getD_eq_getElem?_getD, List.getElem?_set_ne (fun e => hw e.symm),
      ← List.getD_eq_getElem?_getD]

theorem specSetBit_spec (W : Nat) (hW : 0 < W) (hW32 : W ≤ 32) (bf : List Nat) (i : Nat)
    (v : Bool) (h : i / W < bf.length) :
    ∃ bf1, specSetBit W bf i v = some bf1 ∧ bf1.length = bf.length ∧
      ∀ j, storedBit W bf1 j = if j = i then v else storedBit W bf j :=
  ⟨_, specSetBit_covered W bf i v h, List.length_set _ _ _, storedBit_set W hW hW32 bf i v h⟩

theorem packWord_inc_stop (f g : Nat → Bool) (t : Nat) (h0 : f 0 = false) (h1 : g 0 = true)
    (ht : ∀ p, p < t → g (p + 1) = f (p + 1)) :
    packWord g (t + 1) = (packWord f (t + 1) + 1) % 2 ^ (t + 1) := by
  have hc : packWord (fun p => g (p + 1)) t = packWord (fun p => f (p + 1)) t :=
    packWord_congr _ _ t ht
  have hlt := packWord_lt (fun p => f (p + 1)) t
  rw [packWord_succ_low, packWord_succ_low, h0, h1, hc, Nat.pow_succ]
  generalize packWord (fun p => f (p + 1)) t = S at hlt
  show 1 + 2 * S = (0 + 2 * S + 1) % (2 ^ t * 2)
  rw [Nat.mod_eq_of_lt (by omega)]
  omega

theorem packWord_inc_carry (f g : Nat → Bool) (t : Nat) (h0 : f 0 = true) (h1 : g 0 = false)
    (ht : packWord (fun p => g (p + 1)) t = (packWord (fun p => f (p + 1)) t + 1) % 2 ^ t) :
    packWord g (t + 1) = (packWord f (t + 1) + 1) % 2 ^ (t + 1) := by
  rw [packWord_succ_low, packWord_succ_low, h0, h1, ht, Nat.pow_succ]
  generalize packWord (fun p => f (p + 1)) t = S
  show 0 + 2 * ((S + 1) % 2 ^ t) = (1 + 2 * S + 1) % (2 ^ t * 2)
  have e : 1 + 2 * S + 1 = 2 * (S + 1) := by omega
  rw [e, Nat.mul_comm (2 ^ t) 2, Nat.mul_mod_mul_left, Nat.zero_add]

theorem carry_spec (W : Nat) (hW : 0 < W) (hW32 : W ≤ 32) (todo i : Nat) (bf : List Nat)
    (hc : i + todo ≤ W * bf.length) :
    ∃ bf', specIncrement.carry W todo i bf = some bf' ∧ bf'.length = bf.length ∧
      (∀ j, j < i → storedBit W bf' j = storedBit W bf j) ∧
      (∀ j, i + todo ≤ j → storedBit W bf' j = storedBit W bf j) ∧
      packWord (fun p => storedBit W bf' (i + p)) todo
        = (packWord (fun p => storedBit W bf (i + p)) todo + 1) % 2 ^ todo := by
  induction todo generalizing i bf with
  | zero =>
    exact ⟨bf, rfl, rfl, fun _ _ => rfl, fun _ _ => rfl, by rw [Nat.pow_zero, Nat.mod_one]; rfl⟩
  | succ todo ih =>
    have hi : i / W < bf.length := by
      rw [Nat.div_lt_iff_lt_mul hW, Nat.mul_comm]
      omega
    rw [specIncrement.carry, specBit_covered W bf i hi]
    cases hb : storedBit W bf i
    · obtain ⟨bf1, hrun, hlen, hbits⟩ := specSetBit_spec W hW hW32 bf i true hi
      refine ⟨bf1, hrun, hlen, ?_, ?_, ?_⟩
      · intro j hj
        rw [hbits j, if_neg (by omega)]
      · intro j hj
        rw [hbits j, if_neg (by omega)]
      · refine packWord_inc_stop (fun p => storedBit W bf (i + p))
          (fun p => storedBit W bf1 (i + p)) todo hb ?_ ?_
        · show storedBit W bf1 (i + 0) = true
          rw [hbits (i + 0), if_pos (Nat.add_zero i)]
        · intro p _
          show storedBit W bf1 (i + (p + 1)) = storedBit W bf (i + (p + 1))
          rw [hbits (i + (p + 1)), if_neg (by omega)]
    · obtain ⟨bf1, hrun1, hlen1, hbits1⟩ := specSetBit_spec W hW hW32 bf i false hi
      obtain ⟨bf2, hrun, hlen, hlow, hhigh, hval⟩ := ih (i + 1) bf1 (by rw [hlen1]; omega)
      refine ⟨bf2, ?_, ?_, ?_, ?_, ?_⟩
      · show (match specSetBit W bf i false with
          | none => none
          | some next => specIncrement.carry W todo (i + 1) next) = some bf2
        rw [hrun1]
        exact hrun
      · rw [hlen, hlen1]
      · intro j hj
        rw [hlow j (by omega), hbits1 j, if_neg (by omega)]
      · intro j hj
        rw [hhigh j (by omega), hbits1 j, if_neg (by omega)]
      · refine packWord_inc_carry (fun p => storedBit W bf (i + p))
          (fun p => storedBit W bf2 (i + p)) todo hb ?_ ?_
        · show storedBit W bf2 (i + 0) = false
          rw [hlow (i + 0) (by omega), hbits1 (i + 0), if_pos (Nat.add_zero i)]
        · have e1 : packWord (fun p => storedBit W bf2 (i + (p + 1))) todo
              = packWord (fun p => storedBit W bf2 (i + 1 + p)) todo :=
            packWord_congr _ _ todo (fun p _ => by
              show storedBit W bf2 (i + (p + 1)) = storedBit W bf2 (i + 1 + p)
              rw [Nat.add_assoc, Nat.add_comm 1 p])
          have e2 : packWord (fun p => storedBit W bf1 (i + 1 + p)) todo
              = packWord (fun p => storedBit W bf (i + (p + 1))) todo :=
            packWord_congr _ _ todo (fun p _ => by
              show storedBit W bf1 (i + 1 + p) = storedBit W bf (i + (p + 1))
              rw [hbits1 (i + 1 + p), if_neg (by omega), Nat.add_assoc, Nat.add_comm 1 p])
          show packWord (fun p => storedBit W bf2 (i + (p + 1))) todo
            = (packWord (fun p => storedBit W bf (i + (p + 1))) todo + 1) % 2 ^ todo
          rw [e1, hval, e2]

theorem valueOf_lt (get : Nat → Except Fault Bool) (n : Nat) : valueOf get n < 2 ^ n := by
  induction n with
  | zero => exact Nat.one_pos
  | succ n ih =>
    rw [valueOf, Nat.pow_succ]
    split <;> omega

theorem INCREMENTSELF_spec8 (pm : Nat → Nat) (hpm : MasksArePowers 8 pm) (x : cBitArrayBytes)
    (hc : (x.array_size + 7) / 8 ≤ x.bit_array.bit_fields.length) :
    ∃ x', x.INCREMENTSELF = (.ok (), x') ∧ x'.array_size = x.array_size ∧
      x'.bit_array.bit_fields.length = x.bit_array.bit_fields.length ∧
      valueOf (x'.Get pm) x.array_size
        = (valueOf (x.Get pm) x.array_size + 1) % 2 ^ x.array_size := by
  obtain ⟨bf, hrun, hlen, _, _, hval⟩ :=
    carry_spec 8 (by decide) (by decide) x.array_size 0 x.bit_array.bit_fields (by omega)
  refine ⟨⟨⟨bf⟩, x.array_size⟩, ?_, rfl, hlen, ?_⟩
  · unfold cBitArrayBytes.INCREMENTSELF cRawBitArrayBytes.INCREMENT specIncrement
    rw [hrun]
    rfl
  · rw [valueOf_eq_of_reads _ _ _ (Get_covered8 pm hpm ⟨⟨bf⟩, x.array_size⟩ (by rw [hlen]; exact hc)),
      valueOf_eq_of_reads _ _ _ (Get_covered8 pm hpm x hc)]
    have e1 := packWord_congr (fun p => storedBit 8 bf (0 + p)) (storedBit 8 bf) x.array_size
      (fun p _ => by show storedBit 8 bf (0 + p) = storedBit 8 bf p; rw [Nat.zero_add])
    have e2 := packWord_congr (fun p => storedBit 8 x.bit_array.bit_fields (0 + p))
      (storedBit 8 x.bit_array.bit_fields) x.array_size
      (fun p _ => by
        show storedBit 8 x.bit_array.bit_fields (0 + p) = storedBit 8 x.bit_array.bit_fields p
        rw [Nat.zero_add])
    rw [e1, e2] at hval
    exact hval

theorem INCREMENTSELF_spec32 (pm : Nat → Nat) (hpm : MasksArePowers 32 pm) (x : cBitArray)
    (hc : (x.array_size + 31) / 32 ≤ x.bit_array.bit_fields.length) :
    ∃ x', x.INCREMENTSELF = (.ok (), x') ∧ x'.array_size = x.array_size ∧
      x'.bit_array.bit_fields.length = x.bit_array.bit_fields.length ∧
      valueOf (x'.Get pm) x.array_size
        = (valueOf (x.Get pm) x.array_size + 1) % 2 ^ x.array_size := by
  obtain ⟨bf, hrun, hlen, _, _, hval⟩ :=
    carry_spec 32 (by decide) (by decide) x.array_size 0 x.bit_array.bit_fields (by omega)
  refine ⟨⟨⟨bf⟩, x.array_size⟩, ?_, rfl, hlen, ?_⟩
  · unfold cBitArray.INCREMENTSELF cRawBitArray.INCREMENT specIncrement
    rw [hrun]
    rfl
  · rw [valueOf_eq_of_reads _ _ _ (Get_covered32 pm hpm ⟨⟨bf⟩, x.array_size⟩ (by rw [hlen]; exact hc)),
      valueOf_eq_of_reads _ _ _ (Get_covered32 pm hpm x hc)]
    have e1 := packWord_congr (fun p => storedBit 32 bf (0 + p)) (storedBit 32 bf) x.array_size
      (fun p _ => by show storedBit 32 bf (0 + p) = storedBit 32 bf p; rw [Nat.zero_add])
    have e2 := packWord_congr (fun p => storedBit 32 x.bit_array.bit_fields (0 + p))
      (storedBit 32 x.bit_array.bit_fields) x.array_size
      (fun p _ => by
        show storedBit 32 x.bit_array.bit_fields (0 + p) = storedBit 32 x.bit_array.bit_fields p
        rw [Nat.zero_add])
    rw [e1, e2] at hval
    exact hval

theorem increments_spec8 (pm : Nat → Nat) (hpm : MasksArePowers 8 pm) (k : Nat)
    (x : cBitArrayBytes) (hc : (x.array_size + 7) / 8 ≤ x.bit_array.bit_fields.length) :
    ∃ x', x.increments k = (.ok (), x') ∧ x'.array_size = x.array_size ∧
      x'.bit_array.bit_fields.length = x.bit_array.bit_fields.length ∧
      valueOf (x'.Get pm) x.array_size
        = (valueOf (x.Get pm) x.array_size + k) % 2 ^ x.array_size := by
  induction k generalizing x with
  | zero =>
    exact ⟨x, rfl, rfl, rfl, by rw [Nat.add_zero, Nat.mod_eq_of_lt (valueOf_lt _ _)]⟩
  | succ k ih =>
    obtain ⟨x1, hrun1, hsize1, hlen1, hval1⟩ := INCREMENTSELF_spec8 pm hpm x hc
    obtain ⟨x2, hrun2, hsize2, hlen2, hval2⟩ := ih x1 (by rw [hsize1, hlen1]; exact hc)
    refine ⟨x2, ?_, ?_, ?_, ?_⟩
    · rw [cBitArrayBytes.increments]
      unfold cBitArrayBytes.operator_inc
      rw [hrun1]
      exact hrun2
    · rw [hsize2, hsize1]
    · rw [hlen2, hlen1]
    · rw [hsize1] at hval2
      rw [hval2, hval1, Nat.mod_add_mod, Nat.add_assoc, Nat.add_comm 1 k]

theorem increments_spec32 (pm : Nat → Nat) (hpm : MasksArePowers 32 pm) (k : Nat)
    (x : cBitArray) (hc : (x.array_size + 31) / 32 ≤ x.bit_array.bit_fields.length) :
    ∃ x', x.increments k = (.ok (), x') ∧ x'.array_size = x.array_size ∧
      x'.bit_array.bit_fields.length = x.bit_array.bit_fields.length ∧
      valueOf (x'.Get pm) x.array_size
        = (valueOf (x.Get pm) x.array_size + k) % 2 ^ x.array_size := by
  induction k generalizing x with
  | zero =>
    exact ⟨x, rfl, rfl, rfl, by rw [Nat.add_zero, Nat.mod_eq_of_lt (valueOf_lt _ _)]⟩
  | succ k ih =>
    obtain ⟨x1, hrun1, hsize1, hlen1, hval1⟩ := INCREMENTSELF_spec32 pm hpm x hc
    obtain ⟨x2, hrun2, hsize2, hlen2, hval2⟩ := ih x1 (by rw [hsize1, hlen1]; exact hc)
    refine ⟨x2, ?_, ?_, ?_, ?_⟩
    · rw [cBitArray.increments]
      unfold cBitArray.operator_inc
      rw [hrun1]
      exact hrun2
    · rw [hsize2, hsize1]
    · rw [hlen2, hlen1]
    · rw [hsize1] at hval2
      rw [hval2, hval1, Nat.mod_add_mod, Nat.add_assoc, Nat.add_comm 1 k]

theorem increments_wrap8 (pm : Nat → Nat) (hpm : MasksArePowers 8 pm) (x : cBitArrayBytes)
    (hc : (x.array_size + 7) / 8 ≤ x.bit_array.bit_fields.length)
    (hz : ∀ i, i < x.array_size → x.Get pm i = .ok false) :
    ∃ x', x.increments (2 ^ x.array_size) = (.ok (), x') ∧ x'.array_size = x.array_size ∧
      ∀ i, i < x.array_size → x'.Get pm i = .ok false := by
  obtain ⟨x1, hrun, hsize, hlen, hval⟩ := increments_spec8 pm hpm (2 ^ x.array_size) x hc
  have hc1 : (x1.array_size + 7) / 8 ≤ x1.bit_array.bit_fields.length := by
    rw [hsize, hlen]
    exact hc
  refine ⟨x1, hrun, hsize, fun i hi => ?_⟩
  rw [valueOf_eq_of_reads _ (fun _ => false) _ hz, packWord_of_false _ _ (fun _ _ => rfl),
    Nat.zero_add, Nat.mod_self,
    valueOf_eq_of_reads _ _ _ (fun i hi => Get_covered8 pm hpm x1 hc1 i (by rw [hsize]; exact hi))]
    at hval
  have hbit := packWord_eq_zero _ _ hval i hi
  rw [Get_covered8 pm hpm x1 hc1 i (by rw [hsize]; exact hi)]
  exact congrArg Except.ok hbit

theorem increments_wrap32 (pm : Nat → Nat) (hpm : MasksArePowers 32 pm) (x : cBitArray)
    (hc : (x.array_size + 31) / 32 ≤ x.bit_array.bit_fields.length)
    (hz : ∀ i, i < x.array_size → x.Get pm i = .ok false) :
    ∃ x', x.increments (2 ^ x.array_size) = (.ok (), x') ∧ x'.array_size = x.array_size ∧
      ∀ i, i < x.array_size → x'.Get pm i = .ok false := by
  obtain ⟨x1, hrun, hsize, hlen, hval⟩ := increments_spec32 pm hpm (2 ^ x.array_size) x hc
  have hc1 : (x1.array_size + 31) / 32 ≤ x1.bit_array.bit_fields.length := by
    rw [hsize, hlen]
    exact hc
  refine ⟨x1, hrun, hsize, fun i hi => ?_⟩
  rw [valueOf_eq_of_reads _ (fun _ => false) _ hz, packWord_of_false _ _ (fun _ _ => rfl),
    Nat.zero_add, Nat.mod_self,
    valueOf_eq_of_reads _ _ _ (fun i hi => Get_covered32 pm hpm x1 hc1 i (by rw [hsize]; exact hi))]
    at hval
  have hbit := packWord_eq_zero _ _ hval i hi
  rw [Get_covered32 pm hpm x1 hc1 i (by rw [hsize]; exact hi)]
  exact congrArg Except.ok hbit

/-- Claim C15, for `INCREMENT` of the engines modelled from the specification.  For both facades
and every array `x` of size `n` whose block holds the covering words, `INCREMENTSELF()` and the
prefix `++` return, the size is unchanged, and the value `sum over i < n of Get(i) * 2^i` of
the array after the call is `(old value + 1) mod 2^n`; `0b0111` at `n = 4` becomes `0b1000`;
and `2^n` increments of an array whose `n` bits are all zero return, and leave every bit zero. -/
theorem C15_increment_adds_one (pm8 pm32 : Nat → Nat) (h8 : MasksArePowers 8 pm8)
    (h32 : MasksArePowers 32 pm32) (x : cBitArrayBytes) (y : cBitArray)
    (hx : (x.GetSize + 7) / 8 ≤ x.bit_array.bit_fields.length)
    (hy : (y.GetSize + 31) / 32 ≤ y.bit_array.bit_fields.length) :
    ((∃ x', x.INCREMENTSELF = (.ok (), x') ∧ x.operator_inc = (.ok (), x') ∧
          x'.GetSize = x.GetSize ∧
          valueOf (x'.Get pm8) x.GetSize = (valueOf (x.Get pm8) x.GetSize + 1) % 2 ^ x.GetSize) ∧
      ((∀ i, i < x.GetSize → x.Get pm8 i = .ok false) →
        ∃ x', x.increments (2 ^ x.GetSize) = (.ok (), x') ∧ x'.GetSize = x.GetSize ∧
          ∀ i, i < x.GetSize → x'.Get pm8 i = .ok false) ∧
      cBitArrayBytes.INCREMENTSELF ⟨⟨[7]⟩, 4⟩ = (.ok (), ⟨⟨[8]⟩, 4⟩)) ∧
    ((∃ y', y.INCREMENTSELF = (.ok (), y') ∧ y.operator_inc = (.ok (), y') ∧
          y'.GetSize = y.GetSize ∧
          valueOf (y'.Get pm32) y.GetSize
            = (valueOf (y.Get pm32) y.GetSize + 1) % 2 ^ y.GetSize) ∧
      ((∀ i, i < y.GetSize → y.Get pm32 i = .ok false) →
        ∃ y', y.increments (2 ^ y.GetSize) = (.ok (), y') ∧ y'.GetSize = y.GetSize ∧
          ∀ i, i < y.GetSize → y'.Get pm32 i = .ok false) ∧
      cBitArray.INCREMENTSELF ⟨⟨[7]⟩, 4⟩ = (.ok (), ⟨⟨[8]⟩, 4⟩)) := by
  unfold cBitArrayBytes.GetSize at hx
  unfold cBitArray.GetSize at hy
  unfold cBitArrayBytes.GetSize cBitArray.GetSize
  refine ⟨⟨?_, increments_wrap8 pm8 h8 x hx, rfl⟩, ⟨?_, increments_wrap32 pm32 h32 y hy, rfl⟩⟩
  · obtain ⟨x1, hrun, hsize, _, hval⟩ := INCREMENTSELF_spec8 pm8 h8 x hx
    exact ⟨x1, hrun, hrun, hsize, hval⟩
  · obtain ⟨y1, hrun, hsize, _, hval⟩ := INCREMENTSELF_spec32 pm32 h32 y hy
    exact ⟨y1, hrun, hrun, hsize, hval⟩

/-- Witness for C15: `0b0111` on four bits, whose value 7 becomes 8, and four zero bits, which
sixteen increments leave zero. -/
theorem C15_increment_adds_one_witness :
    (∃ x', cBitArrayBytes.INCREMENTSELF ⟨⟨[7]⟩, 4⟩ = (.ok (), x') ∧
      valueOf (cBitArrayBytes.Get (fun k => 2 ^ k) ⟨⟨[7]⟩, 4⟩) 4 = 7 ∧
      valueOf (x'.Get fun k => 2 ^ k) 4 = 8) ∧
    (∃ y', cBitArray.increments ⟨⟨[0]⟩, 4⟩ 16 = (.ok (), y') ∧
      ∀ i, i < 4 → y'.Get (fun k => 2 ^ k) i = .ok false) := by
  have h := C15_increment_adds_one (fun k => 2 ^ k) (fun k => 2 ^ k) (fun _ _ => rfl)
    (fun _ _ => rfl) ⟨⟨[7]⟩, 4⟩ ⟨⟨[0]⟩, 4⟩ (by decide) (by decide)
  obtain ⟨x1, hrun, _, _, hval⟩ := h.1.1
  obtain ⟨y1, hrun2, _, hzero⟩ :=
    h.2.2.1 (fun i hi => by
      have hi4 : i < 4 := hi
      interval_cases i <;> rfl)
  exact ⟨⟨x1, hrun, rfl, hval⟩, ⟨y1, hrun2, hzero⟩⟩

/-! ## The sized constructors -/

theorem readWord_fresh (f : Nat → Nat) (count k : Nat) (h : k < count) :
    readWord ((List.range count).map f) k = some (f k) := by
  unfold readWord
  rw [List.getElem?_map, List.getElem?_range h]
  rfl

theorem sized_unfilled8 (fresh : Nat → Nat) (n : Nat)
    (h : toUInt64 (toInt32 (cRawBitArrayBytes.GetNumFields n)) = 0) :
    cBitArrayBytes.sized fresh n
      = .ok ⟨⟨(List.range (cRawBitArrayBytes.GetNumFields n)).map fun k => fresh k % 2 ^ 8⟩, n⟩ := by
  unfold cBitArrayBytes.sized cRawBitArrayBytes.sized
  dsimp only
  rw [Zero_unchanged8 _ _ h]

theorem sized_unfilled32 (fresh : Nat → Nat) (n : Nat)
    (h : toUInt64 (toInt32 (cRawBitArray.GetNumFields n)) = 0) :
    cBitArray.sized fresh n
      = .ok ⟨⟨(List.range (cRawBitArray.GetNumFields n)).map fun k => fresh k % 2 ^ 32⟩, n⟩ := by
  unfold cBitArray.sized cRawBitArray.sized
  dsimp only
  rw [Zero_unchanged32 _ _ h]

/-- Claim C21, at the inputs where it fails.  The sized constructor allocates `GetNumFields(n)`
words and calls `Zero(n)`, which narrows the word count to `int`.  For `n = 2^35` the 8-bit
facade allocates `2^32` bytes, the narrowed count is 0 and no byte is written: the array has
`GetSize() = 2^35` and its bits are what the fresh block held, so with bytes `0xFF` in the
block `Get(0)` is true.  The 32-bit facade does the same for `n = 2^37`. -/
theorem C21_sized_constructor_leaves_large_arrays_unfilled :
    (cRawBitArrayBytes.GetNumFields (2 ^ 35) = 2 ^ 32 ∧
      toUInt64 (toInt32 (cRawBitArrayBytes.GetNumFields (2 ^ 35))) = 0 ∧
      ∃ x, cBitArrayBytes.sized (fun _ => 255) (2 ^ 35) = .ok x ∧ x.GetSize = 2 ^ 35 ∧
        x.Get (fun k => 2 ^ k) 0 = .ok true) ∧
    (cRawBitArray.GetNumFields (2 ^ 37) = 2 ^ 32 ∧
      toUInt64 (toInt32 (cRawBitArray.GetNumFields (2 ^ 37))) = 0 ∧
      ∃ y, cBitArray.sized (fun _ => 4294967295) (2 ^ 37) = .ok y ∧ y.GetSize = 2 ^ 37 ∧
        y.Get (fun k => 2 ^ k) 0 = .ok true) := by
  have c8 : cRawBitArrayBytes.GetNumFields (2 ^ 35) = 2 ^ 32 := by decide
  have c32 : cRawBitArray.GetNumFields (2 ^ 37) = 2 ^ 32 := by decide
  have n8 : toUInt64 (toInt32 (cRawBitArrayBytes.GetNumFields (2 ^ 35))) = 0 := by decide
  have n32 : toUInt64 (toInt32 (cRawBitArray.GetNumFields (2 ^ 37))) = 0 := by decide
  refine ⟨⟨c8, n8, _, sized_unfilled8 _ _ n8, rfl, ?_⟩, ⟨c32, n32, _, sized_unfilled32 _ _ n32, rfl, ?_⟩⟩
  · unfold cBitArrayBytes.Get
    rw [if_pos (show (0 : Nat) < 2 ^ 35 by decide), GetBit_eq8 _ (fun _ _ => rfl)]
    dsimp only
    rw [c8, readWord_fresh _ _ _ (by decide)]
    rfl
  · unfold cBitArray.Get
    rw [if_pos (show (0 : Nat) < 2 ^ 37 by decide), GetBit_eq32 _ (fun _ _ => rfl)]
    dsimp only
    rw [c32, readWord_fresh _ _ _ (by decide)]
    rfl

/-! ## The tail of the last covering word -/

theorem TailZero_after_Zero8 (s : cRawBitArrayBytes) {n : Nat} (h1 : 1 ≤ n) (h2 : n < 2 ^ 64)
    (hc : cRawBitArrayBytes.GetNumFields n < 2 ^ 31)
    (hlen : cRawBitArrayBytes.GetNumFields n ≤ s.bit_fields.length) :
    ∃ s', s.Zero n = some s' ∧ TailZero 8 n s'.bit_fields := by
  obtain ⟨s', hz, _, hw⟩ := Zero_spec8 s n hc hlen
  refine ⟨s', hz, fun _ => ⟨0, ?_, fun p _ _ => Nat.zero_testBit p⟩⟩
  rw [hw, if_pos (by rw [GetNumFields_pos8 h1 h2]; omega)]

theorem TailZero_after_Ones8 (s : cRawBitArrayBytes) {n : Nat} (h1 : 1 ≤ n) (h2 : n < 2 ^ 64)
    (hlen : cRawBitArrayBytes.GetNumFields n ≤ s.bit_fields.length) :
    ∃ s', s.Ones n = some s' ∧ TailZero 8 n s'.bit_fields := by
  obtain ⟨s', hones, _, hw⟩ := Ones_spec8 s h1 h2 hlen
  refine ⟨s', hones, fun hz => ⟨2 ^ (n % 8) - 1, ?_, fun p hp _ => ?_⟩⟩
  · rw [hw, if_neg (by omega), if_pos rfl, if_neg hz]
  · rw [Nat.testBit_two_pow_sub_one]
    simp only [decide_eq_false_iff_not, Nat.not_lt]
    exact hp

theorem TailZero_after_SetBit8 (pm : Nat → Nat) (hpm : MasksArePowers 8 pm) (s : cRawBitArrayBytes)
    {n : Nat} (h1 : 1 ≤ n) (h2 : n < 2 ^ 64)
    (hlen : cRawBitArrayBytes.GetNumFields n ≤ s.bit_fields.length) (i : Nat) (v : Bool) (hi : i < n)
    (ht : TailZero 8 n s.bit_fields) :
    ∃ s', s.SetBit pm i v = some s' ∧ TailZero 8 n s'.bit_fields := by
  rw [GetNumFields_pos8 h1 h2] at hlen
  have hk : i / 8 < s.bit_fields.length := by omega
  obtain ⟨w, w', hw, hset, _, hbits⟩ := SetBit_spec8 pm hpm s i v hk
  refine ⟨_, hset, fun hz => ?_⟩
  obtain ⟨w0, hw0, htail⟩ := ht hz
  by_cases hsame : i / 8 = (n - 1) / 8
  · refine ⟨w', ?_, fun p hp1 hp2 => ?_⟩
    · show readWord (s.bit_fields.set (i / 8) w') ((n - 1) / 8) = some w'
      rw [← hsame]
      exact readWord_set_self w' hk
    · rw [hsame, hw0] at hw
      have hww : w0 = w := Option.some.inj hw
      rw [hbits p hp2, if_neg (by omega), ← hww]
      exact htail p hp1 hp2
  · refine ⟨w0, ?_, htail⟩
    show readWord (s.bit_fields.set (i / 8) w') ((n - 1) / 8) = some w0
    rw [readWord_set_of_ne _ _ hsame]
    exact hw0

theorem TailZero_after_Zero32 (s : cRawBitArray) {n : Nat} (h1 : 1 ≤ n) (h2 : n < 2 ^ 64)
    (hc : cRawBitArray.GetNumFields n < 2 ^ 31)
    (hlen : cRawBitArray.GetNumFields n ≤ s.bit_fields.length) :
    ∃ s', s.Zero n = some s' ∧ TailZero 32 n s'.bit_fields := by
  obtain ⟨s', hz, _, hw⟩ := Zero_spec32 s n hc hlen
  refine ⟨s', hz, fun _ => ⟨0, ?_, fun p _ _ => Nat.zero_testBit p⟩⟩
  rw [hw, if_pos (by rw [GetNumFields_pos32 h1 h2]; omega)]

theorem TailZero_after_Ones32 (s : cRawBitArray) {n : Nat} (h1 : 1 ≤ n) (h2 : n < 2 ^ 64)
    (hlen : cRawBitArray.GetNumFields n ≤ s.bit_fields.length) :
    ∃ s', s.Ones n = some s' ∧ TailZero 32 n s'.bit_fields := by
  obtain ⟨s', hones, _, hw⟩ := Ones_spec32 s h1 h2 hlen
  refine ⟨s', hones, fun hz => ⟨2 ^ (n % 32) - 1, ?_, fun p hp _ => ?_⟩⟩
  · rw [hw, if_neg (by omega), if_pos rfl, if_neg hz]
  · rw [Nat.testBit_two_pow_sub_one]
    simp only [decide_eq_false_iff_not, Nat.not_lt]
    exact hp

theorem TailZero_after_SetBit32 (pm : Nat → Nat) (hpm : MasksArePowers 32 pm) (s : cRawBitArray)
    {n : Nat} (h1 : 1 ≤ n) (h2 : n < 2 ^ 64)
    (hlen : cRawBitArray.GetNumFields n ≤ s.bit_fields.length) (i : Nat) (v : Bool) (hi : i < n)
    (ht : TailZero 32 n s.bit_fields) :
    ∃ s', s.SetBit pm i v = some s' ∧ TailZero 32 n s'.bit_fields := by
  rw [GetNumFields_pos32 h1 h2] at hlen
  have hk : i / 32 < s.bit_fields.length := by omega
  obtain ⟨w, w', hw, hset, _, hbits⟩ := SetBit_spec32 pm hpm s i v hk
  refine ⟨_, hset, fun hz => ?_⟩
  obtain ⟨w0, hw0, htail⟩ := ht hz
  by_cases hsame : i / 32 = (n - 1) / 32
  · refine ⟨w', ?_, fun p hp1 hp2 => ?_⟩
    · show readWord (s.bit_fields.set (i / 32) w') ((n - 1) / 32) = some w'
      rw [← hsame]
      exact readWord_set_self w' hk
    · rw [hsame, hw0] at hw
      have hww : w0 = w := Option.some.inj hw
      rw [hbits p hp2, if_neg (by omega), ← hww]
      exact htail p hp1 hp2
  · refine ⟨w0, ?_, htail⟩
    show readWord (s.bit_fields.set (i / 32) w') ((n - 1) / 32) = some w0
    rw [readWord_set_of_ne _ _ hsame]
    exact hw0

/-- Claim C22.  In both engines, for `1 ≤ n < 2^64` and a block that holds the covering words,
the tail of the last covering word is zero (every position from `n mod W` up holds 0 when
`n mod W ≠ 0`) after `Zero(n)` when the word count is below `2^31`, and after `Ones(n)`; and
`SetBit(i, v)` with `i < n` keeps it zero, given `position_masks[k] = 2^k`. -/
theorem C22_tail_zero_invariant (pm8 pm32 : Nat → Nat) (h8 : MasksArePowers 8 pm8)
    (h32 : MasksArePowers 32 pm32) (b : cRawBitArrayBytes) (a : cRawBitArray) (n : Nat)
    (h1 : 1 ≤ n) (h2 : n < 2 ^ 64)
    (hb : cRawBitArrayBytes.GetNumFields n ≤ b.bit_fields.length)
    (ha : cRawBitArray.GetNumFields n ≤ a.bit_fields.length) :
    ((cRawBitArrayBytes.GetNumFields n < 2 ^ 31 →
        ∃ b', b.Zero n = some b' ∧ TailZero 8 n b'.bit_fields) ∧
      (∃ b', b.Ones n = some b' ∧ TailZero 8 n b'.bit_fields) ∧
      (∀ i v, i < n → TailZero 8 n b.bit_fields →
        ∃ b', b.SetBit pm8 i v = some b' ∧ TailZero 8 n b'.bit_fields)) ∧
    ((cRawBitArray.GetNumFields n < 2 ^ 31 →
        ∃ a', a.Zero n = some a' ∧ TailZero 32 n a'.bit_fields) ∧
      (∃ a', a.Ones n = some a' ∧ TailZero 32 n a'.bit_fields) ∧
      (∀ i v, i < n → TailZero 32 n a.bit_fields →
        ∃ a', a.SetBit pm32 i v = some a' ∧ TailZero 32 n a'.bit_fields)) :=
  ⟨⟨fun hc => TailZero_after_Zero8 b h1 h2 hc hb, TailZero_after_Ones8 b h1 h2 hb,
      fun i v hi ht => TailZero_after_SetBit8 pm8 h8 b h1 h2 hb i v hi ht⟩,
    ⟨fun hc => TailZero_after_Zero32 a h1 h2 hc ha, TailZero_after_Ones32 a h1 h2 ha,
      fun i v hi ht => TailZero_after_SetBit32 pm32 h32 a h1 h2 ha i v hi ht⟩⟩

/-- Witness for C22: ten bits, all set, with a zero tail; `Zero(10)` and `Ones(10)` give a zero
tail, and clearing bit 9, the last one, keeps it. -/
theorem C22_tail_zero_invariant_witness :
    ((∃ b', (⟨[255, 3]⟩ : cRawBitArrayBytes).Zero 10 = some b' ∧ TailZero 8 10 b'.bit_fields) ∧
      (∃ b', (⟨[255, 3]⟩ : cRawBitArrayBytes).Ones 10 = some b' ∧ TailZero 8 10 b'.bit_fields) ∧
      (∃ b', (⟨[255, 3]⟩ : cRawBitArrayBytes).SetBit (fun k => 2 ^ k) 9 false = some b' ∧
        TailZero 8 10 b'.bit_fields)) ∧
    ((∃ a', (⟨[1023]⟩ : cRawBitArray).Zero 10 = some a' ∧ TailZero 32 10 a'.bit_fields) ∧
      (∃ a', (⟨[1023]⟩ : cRawBitArray).Ones 10 = some a' ∧ TailZero 32 10 a'.bit_fields) ∧
      (∃ a', (⟨[1023]⟩ : cRawBitArray).SetBit (fun k => 2 ^ k) 9 false = some a' ∧
        TailZero 32 10 a'.bit_fields)) :=
  have h := C22_tail_zero_invariant (fun k => 2 ^ k) (fun k => 2 ^ k) (fun _ _ => rfl)
    (fun _ _ => rfl) ⟨[255, 3]⟩ ⟨[1023]⟩ 10 (by decide) (by decide) (by decide) (by decide)
  ⟨⟨h.1.1 (by decide), h.1.2.1,
      h.1.2.2 9 false (by decide) (fun _ => ⟨3, rfl, fun p hp1 hp2 => by
        have hp3 : 2 ≤ p := hp1
        interval_cases p <;> rfl⟩)⟩,
    ⟨h.2.1 (by decide), h.2.2.1,
      h.2.2.2 9 false (by decide) (fun _ => ⟨1023, rfl, fun p hp1 hp2 => by
        have hp3 : 10 ≤ p := hp1
        interval_cases p <;> rfl⟩)⟩⟩

/-! ## The size kept by the facades -/

theorem afterEngine_size8 (x : cBitArrayBytes) (o : Option cRawBitArrayBytes) :
    (x.afterEngine o).2.array_size = x.array_size := by
  cases o <;> rfl

theorem afterEngine_ok8 (x : cBitArrayBytes) (o : Option cRawBitArrayBytes) :
    (x.afterEngine o).1 = .ok () ↔ ∃ r, o = some r := by
  cases o with
  | none =>
    constructor
    · intro e
      cases e
    · rintro ⟨_, e⟩
      cases e
  | some r => exact ⟨fun _ => ⟨r, rfl⟩, fun _ => rfl⟩

theorem AND_size8 : ReturnsSizeOfReceiver cBitArrayBytes.GetSize Combinators.AND cBitArrayBytes.AND := by
  intro ops a b
  unfold cBitArrayBytes.AND cBitArrayBytes.GetSize
  by_cases h : a.array_size = b.array_size
  · rw [if_pos h]
    dsimp only
    have hc := fun (c : ∀ s x y n, ∃ r, ops.AND s x y n = some r) =>
      c cBitArrayBytes.empty.bit_array a.bit_array b.bit_array a.array_size
    cases hr : ops.AND cBitArrayBytes.empty.bit_array a.bit_array b.bit_array a.array_size with
    | none =>
      rw [hr] at hc
      constructor
      · intro out e
        cases e
      · intro _ c
        obtain ⟨r, e⟩ := hc c
        cases e
    | some ba =>
      constructor
      · intro out e
        cases e
        rfl
      · intro _ _
        exact ⟨_, rfl⟩
  · rw [if_neg h]
    constructor
    · intro out e
      cases e
    · intro e
      exact absurd e h

theorem OR_size8 : ReturnsSizeOfReceiver cBitArrayBytes.GetSize Combinators.OR cBitArrayBytes.OR := by
  intro ops a b
  unfold cBitArrayBytes.OR cBitArrayBytes.GetSize
  by_cases h : a.array_size = b.array_size
  · rw [if_pos h]
    dsimp only
    have hc := fun (c : ∀ s x y n, ∃ r, ops.OR s x y n = some r) =>
      c cBitArrayBytes.empty.bit_array a.bit_array b.bit_array a.array_size
    cases hr : ops.OR cBitArrayBytes.empty.bit_array a.bit_array b.bit_array a.array_size with
    | none =>
      rw [hr] at hc
      constructor
      · intro out e
        cases e
      · intro _ c
        obtain ⟨r, e⟩ := hc c
        cases e
    | some ba =>
      constructor
      · intro out e
        cases e
        rfl
      · intro _ _
        exact ⟨_, rfl⟩
  · rw [if_neg h]
    constructor
    · intro out e
      cases e
    · intro e
      exact absurd e h

theorem NAND_size8 : ReturnsSizeOfReceiver cBitArrayBytes.GetSize Combinators.NAND cBitArrayBytes.NAND := by
  intro ops a b
  unfold cBitArrayBytes.NAND cBitArrayBytes.GetSize
  by_cases h : a.array_size = b.array_size
  · rw [if_pos h]
    dsimp only
    have hc := fun (c : ∀ s x y n, ∃ r, ops.NAND s x y n = some r) =>
      c cBitArrayBytes.empty.bit_array a.bit_array b.bit_array a.array_size
    cases hr : ops.NAND cBitArrayBytes.empty.bit_array a.bit_array b.bit_array a.array_size with
    | none =>
      rw [hr] at hc
      constructor
      · intro out e
        cases e
      · intro _ c
        obtain ⟨r, e⟩ := hc c
        cases e
    | some ba =>
      constructor
      · intro out e
        cases e
        rfl
      · intro _ _
        exact ⟨_, rfl⟩
  · rw [if_neg h]
    constructor
    · intro out e
      cases e
    · intro e
      exact absurd e h

theorem NOR_size8 : ReturnsSizeOfReceiver cBitArrayBytes.GetSize Combinators.NOR cBitArrayBytes.NOR := by
  intro ops a b
  unfold cBitArrayBytes.NOR cBitArrayBytes.GetSize
  by_cases h : a.array_size = b.array_size
  · rw [if_pos h]
    dsimp only
    have hc := fun (c : ∀ s x y n, ∃ r, ops.NOR s x y n = some r) =>
      c cBitArrayBytes.empty.bit_array a.bit_array b.bit_array a.array_size
    cases hr : ops.NOR cBitArrayBytes.empty.bit_array a.bit_array b.bit_array a.array_size with
    | none =>
      rw [hr] at hc
      constructor
      · intro out e
        cases e
      · intro _ c
        obtain ⟨r, e⟩ := hc c
        cases e
    | some ba =>
      constructor
      · intro out e
        cases e
        rfl
      · intro _ _
        exact ⟨_, rfl⟩
  · rw [if_neg h]
    constructor
    · intro out e
      cases e
    · intro e
      exact absurd e h

theorem XOR_size8 : ReturnsSizeOfReceiver cBitArrayBytes.GetSize Combinators.XOR cBitArrayBytes.XOR := by
  intro ops a b
  unfold cBitArrayBytes.XOR cBitArrayBytes.GetSize
  by_cases h : a.array_size = b.array_size
  · rw [if_pos h]
    dsimp only
    have hc := fun (c : ∀ s x y n, ∃ r, ops.XOR s x y n = some r) =>
      c cBitArrayBytes.empty.bit_array a.bit_array b.bit_array a.array_size
    cases hr : ops.XOR cBitArrayBytes.empty.bit_array a.bit_array b.bit_array a.array_size with
    | none =>
      rw [hr] at hc
      constructor
      · intro out e
        cases e
      · intro _ c
        obtain ⟨r, e⟩ := hc c
        cases e
    | some ba =>
      constructor
      · intro out e
        cases e
        rfl
      · intro _ _
        exact ⟨_, rfl⟩
  · rw [if_neg h]
    constructor
    · intro out e
      cases e
    · intro e
      exact absurd e h

theorem EQU_size8 : ReturnsSizeOfReceiver cBitArrayBytes.GetSize Combinators.EQU cBitArrayBytes.EQU := by
  intro ops a b
  unfold cBitArrayBytes.EQU cBitArrayBytes.GetSize
  by_cases h : a.array_size = b.array_size
  · rw [if_pos h]
    dsimp only
    have hc := fun (c : ∀ s x y n, ∃ r, ops.EQU s x y n = some r) =>
      c cBitArrayBytes.empty.bit_array a.bit_array b.bit_array a.array_size
    cases hr : ops.EQU cBitArrayBytes.empty.bit_array a.bit_array b.bit_array a.array_size with
    | none =>
      rw [hr] at hc
      constructor
      · intro out e
        cases e
      · intro _ c
        obtain ⟨r, e⟩ := hc c
        cases e
    | some ba =>
      constructor
      · intro out e
        cases e
        rfl
      · intro _ _
        exact ⟨_, rfl⟩
  · rw [if_neg h]
    constructor
    · intro out e
      cases e
    · intro e
      exact absurd e h

theorem ANDSELF_size8 : KeepsSizeInPlace cBitArrayBytes.GetSize Combinators.AND_in_place cBitArrayBytes.ANDSELF := by
  intro ops a b
  unfold cBitArrayBytes.ANDSELF cBitArrayBytes.GetSize
  by_cases h : a.array_size = b.array_size
  · rw [if_pos h]
    exact ⟨afterEngine_size8 _ _, fun _ hc => (afterEngine_ok8 _ _).mpr (hc _ _ _)⟩
  · rw [if_neg h]
    exact ⟨rfl, fun e => absurd e h⟩

theorem ORSELF_size8 : KeepsSizeInPlace cBitArrayBytes.GetSize Combinators.OR_in_place cBitArrayBytes.ORSELF := by
  intro ops a b
  unfold cBitArrayBytes.ORSELF cBitArrayBytes.GetSize
  by_cases h : a.array_size = b.array_size
  · rw [if_pos h]
    exact ⟨afterEngine_size8 _ _, fun _ hc => (afterEngine_ok8 _ _).mpr (hc _ _ _)⟩
  · rw [if_neg h]
    exact ⟨rfl, fun e => absurd e h⟩

theorem NANDSELF_size8 : KeepsSizeInPlace cBitArrayBytes.GetSize Combinators.NAND_in_place cBitArrayBytes.NANDSELF := by
  intro ops a b
  unfold cBitArrayBytes.NANDSELF cBitArrayBytes.GetSize
  by_cases h : a.array_size = b.array_size
  · rw [if_pos h]
    exact ⟨afterEngine_size8 _ _, fun _ hc => (afterEngine_ok8 _ _).mpr (hc _ _ _)⟩
  · rw [if_neg h]
    exact ⟨rfl, fun e => absurd e h⟩

theorem NORSELF_size8 : KeepsSizeInPlace cBitArrayBytes.GetSize Combinators.NOR_in_place cBitArrayBytes.NORSELF := by
  intro ops a b
  unfold cBitArrayBytes.NORSELF cBitArrayBytes.GetSize
  by_cases h : a.array_size = b.array_size
  · rw [if_pos h]
    exact ⟨afterEngine_size8 _ _, fun _ hc => (afterEngine_ok8 _ _).mpr (hc _ _ _)⟩
  · rw [if_neg h]
    exact ⟨rfl, fun e => absurd e h⟩

theorem XORSELF_size8 : KeepsSizeInPlace cBitArrayBytes.GetSize Combinators.XOR_in_place cBitArrayBytes.XORSELF := by
  intro ops a b
  unfold cBitArrayBytes.XORSELF cBitArrayBytes.GetSize
  by_cases h : a.array_size = b.array_size
  · rw [if_pos h]
    exact ⟨afterEngine_size8 _ _, fun _ hc => (afterEngine_ok8 _ _).mpr (hc _ _ _)⟩
  · rw [if_neg h]
    exact ⟨rfl, fun e => absurd e h⟩

theorem EQUSELF_size8 : KeepsSizeInPlace cBitArrayBytes.GetSize Combinators.EQU_in_place cBitArrayBytes.EQUSELF := by
  intro ops a b
  unfold cBitArrayBytes.EQUSELF cBitArrayBytes.GetSize
  by_cases h : a.array_size = b.array_size
  · rw [if_pos h]
    exact ⟨afterEngine_size8 _ _, fun _ hc => (afterEngine_ok8 _ _).mpr (hc _ _ _)⟩
  · rw [if_neg h]
    exact ⟨rfl, fun e => absurd e h⟩

theorem Set_size8 (pm : Nat → Nat) (x : cBitArrayBytes) (i : Nat) (v : Bool) :
    (x.Set pm i v).2.GetSize = x.GetSize := by
  unfold cBitArrayBytes.Set cBitArrayBytes.GetSize
  split
  · exact afterEngine_size8 _ _
  · rfl

theorem NOT_size8 (ops : Storage cRawBitArrayBytes) (x : cBitArrayBytes) :
    (∀ out, x.NOT ops = .ok out → out.GetSize = x.GetSize) ∧
    ((∃ out, x.NOT ops = .ok out) ↔
      ∃ r, ops.NOT cRawBitArrayBytes.empty x.bit_array x.GetSize = some r) := by
  unfold cBitArrayBytes.NOT cBitArrayBytes.GetSize
  dsimp only
  have he : cBitArrayBytes.empty.bit_array = cRawBitArrayBytes.empty := rfl
  rw [he]
  cases ops.NOT cRawBitArrayBytes.empty x.bit_array x.array_size with
  | none =>
    refine ⟨?_, ?_, ?_⟩
    · intro out e
      cases e
    · rintro ⟨_, e⟩
      cases e
    · rintro ⟨_, e⟩
      cases e
  | some ba =>
    refine ⟨?_, fun _ => ⟨ba, rfl⟩, fun _ => ⟨_, rfl⟩⟩
    intro out e
    cases e
    rfl

theorem SHIFT_size8 (x : cBitArrayBytes) (k : Int) :
    (∀ out, x.SHIFT k = .ok out → out.GetSize = x.GetSize) ∧
    (specNumWords 8 x.GetSize ≤ x.bit_array.bit_fields.length → ∃ out, x.SHIFT k = .ok out) := by
  unfold cBitArrayBytes.SHIFT cBitArrayBytes.GetSize cRawBitArrayBytes.SHIFT specShift
  dsimp only
  by_cases hc : specNumWords 8 x.array_size ≤ x.bit_array.bit_fields.length
  · rw [if_pos hc]
    by_cases hk : toUInt64 k = 0
    · rw [if_pos hk]
      refine ⟨?_, fun _ => ⟨_, rfl⟩⟩
      intro out e
      cases e
      rfl
    · rw [if_neg hk]
      refine ⟨?_, fun _ => ⟨_, rfl⟩⟩
      intro out e
      cases e
      rfl
  · rw [if_neg hc]
    refine ⟨?_, fun h => absurd h hc⟩
    intro out e
    cases e

theorem Resize_size8 (ops : Storage cRawBitArrayBytes) (x : cBitArrayBytes) (m : Nat) :
    ((x.Resize ops m).1 = .ok () → (x.Resize ops m).2.GetSize = m) ∧
    ((x.Resize ops m).1 = .ok () ↔ ∃ r, ops.Resize x.bit_array x.GetSize m = some r) := by
  unfold cBitArrayBytes.Resize cBitArrayBytes.GetSize
  cases ops.Resize x.bit_array x.array_size m with
  | none =>
    refine ⟨?_, ?_, ?_⟩
    · intro e
      cases e
    · intro e
      cases e
    · rintro ⟨_, e⟩
      cases e
  | some ba => exact ⟨fun _ => rfl, ⟨fun _ => ⟨ba, rfl⟩, fun _ => rfl⟩⟩

theorem ResizeClear_size8 (ops : Storage cRawBitArrayBytes) (x : cBitArrayBytes) (m : Nat) :
    ((x.ResizeClear ops m).1 = .ok () → (x.ResizeClear ops m).2.GetSize = m) ∧
    ((x.ResizeClear ops m).1 = .ok () ↔ ∃ r, ops.ResizeClear x.bit_array m = some r) := by
  unfold cBitArrayBytes.ResizeClear cBitArrayBytes.GetSize
  cases ops.ResizeClear x.bit_array m with
  | none =>
    refine ⟨?_, ?_, ?_⟩
    · intro e
      cases e
    · intro e
      cases e
    · rintro ⟨_, e⟩
      cases e
  | some ba => exact ⟨fun _ => rfl, ⟨fun _ => ⟨ba, rfl⟩, fun _ => rfl⟩⟩

theorem operator_assign_size8 (ops : Storage cRawBitArrayBytes) (x src : cBitArrayBytes) :
    ((x.operator_assign ops src).1 = .ok () →
      (x.operator_assign ops src).2.GetSize = src.GetSize) ∧
    ((x.operator_assign ops src).1 = .ok () ↔
      ∃ r, ops.Copy x.bit_array src.bit_array src.GetSize = some r) := by
  unfold cBitArrayBytes.operator_assign cBitArrayBytes.GetSize
  cases ops.Copy x.bit_array src.bit_array src.array_size with
  | none =>
    refine ⟨?_, ?_, ?_⟩
    · intro e
      cases e
    · intro e
      cases e
    · rintro ⟨_, e⟩
      cases e
  | some ba => exact ⟨fun _ => rfl, ⟨fun _ => ⟨ba, rfl⟩, fun _ => rfl⟩⟩

theorem copy_size8 (ops : Storage cRawBitArrayBytes) (src : cBitArrayBytes) :
    (∀ out, cBitArrayBytes.copy ops src = .ok out → out.GetSize = src.GetSize) ∧
    ((∃ out, cBitArrayBytes.copy ops src = .ok out) ↔
      ∃ r, ops.Copy cRawBitArrayBytes.empty src.bit_array src.GetSize = some r) := by
  unfold cBitArrayBytes.copy cBitArrayBytes.GetSize
  cases ops.Copy cRawBitArrayBytes.empty src.bit_array src.array_size with
  | none =>
    refine ⟨?_, ?_, ?_⟩
    · intro out e
      cases e
    · rintro ⟨_, e⟩
      cases e
    · rintro ⟨_, e⟩
      cases e
  | some ba =>
    refine ⟨?_, fun _ => ⟨ba, rfl⟩, fun _ => ⟨_, rfl⟩⟩
    intro out e
    cases e
    rfl

theorem afterEngine_size32 (x : cBitArray) (o : Option cRawBitArray) :
    (x.afterEngine o).2.array_size = x.array_size := by
  cases o <;> rfl

theorem afterEngine_ok32 (x : cBitArray) (o : Option cRawBitArray) :
    (x.afterEngine o).1 = .ok () ↔ ∃ r, o = some r := by
  cases o with
  | none =>
    constructor
    · intro e
      cases e
    · rintro ⟨_, e⟩
      cases e
  | some r => exact ⟨fun _ => ⟨r, rfl⟩, fun _ => rfl⟩

theorem AND_size32 : ReturnsSizeOfReceiver cBitArray.GetSize Combinators.AND cBitArray.AND := by
  intro ops a b
  unfold cBitArray.AND cBitArray.GetSize
  by_cases h : a.array_size = b.array_size
  · rw [if_pos h]
    dsimp only
    have hc := fun (c : ∀ s x y n, ∃ r, ops.AND s x y n = some r) =>
      c cBitArray.empty.bit_array a.bit_array b.bit_array a.array_size
    cases hr : ops.AND cBitArray.empty.bit_array a.bit_array b.bit_array a.array_size with
    | none =>
      rw [hr] at hc
      constructor
      · intro out e
        cases e
      · intro _ c
        obtain ⟨r, e⟩ := hc c
        cases e
    | some ba =>
      constructor
      · intro out e
        cases e
        rfl
      · intro _ _
        exact ⟨_, rfl⟩
  · rw [if_neg h]
    constructor
    · intro out e
      cases e
    · intro e
      exact absurd e h

theorem OR_size32 : ReturnsSizeOfReceiver cBitArray.GetSize Combinators.OR cBitArray.OR := by
  intro ops a b
  unfold cBitArray.OR cBitArray.GetSize
  by_cases h : a.array_size = b.array_size
  · rw [if_pos h]
    dsimp only
    have hc := fun (c : ∀ s x y n, ∃ r, ops.OR s x y n = some r) =>
      c cBitArray.empty.bit_array a.bit_array b.bit_array a.array_size
    cases hr : ops.OR cBitArray.empty.bit_array a.bit_array b.bit_array a.array_size with
    | none =>
      rw [hr] at hc
      constructor
      · intro out e
        cases e
      · intro _ c
        obtain ⟨r, e⟩ := hc c
        cases e
    | some ba =>
      constructor
      · intro out e
        cases e
        rfl
      · intro _ _
        exact ⟨_, rfl⟩
  · rw [if_neg h]
    constructor
    · intro out e
      cases e
    · intro e
      exact absurd e h

theorem NAND_size32 : ReturnsSizeOfReceiver cBitArray.GetSize Combinators.NAND cBitArray.NAND := by
  intro ops a b
  unfold cBitArray.NAND cBitArray.GetSize
  by_cases h : a.array_size = b.array_size
  · rw [if_pos h]
    dsimp only
    have hc := fun (c : ∀ s x y n, ∃ r, ops.NAND s x y n = some r) =>
      c cBitArray.empty.bit_array a.bit_array b.bit_array a.array_size
    cases hr : ops.NAND cBitArray.empty.bit_array a.bit_array b.bit_array a.array_size with
    | none =>
      rw [hr] at hc
      constructor
      · intro out e
        cases e
      · intro _ c
        obtain ⟨r, e⟩ := hc c
        cases e
    | some ba =>
      constructor
      · intro out e
        cases e
        rfl
      · intro _ _
        exact ⟨_, rfl⟩
  · rw [if_neg h]
    constructor
    · intro out e
      cases e
    · intro e
      exact absurd e h

theorem NOR_size32 : ReturnsSizeOfReceiver cBitArray.GetSize Combinators.NOR cBitArray.NOR := by
  intro ops a b
  unfold cBitArray.NOR cBitArray.GetSize
  by_cases h : a.array_size = b.array_size
  · rw [if_pos h]
    dsimp only
    have hc := fun (c : ∀ s x y n, ∃ r, ops.NOR s x y n = some r) =>
      c cBitArray.empty.bit_array a.bit_array b.bit_array a.array_size
    cases hr : ops.NOR cBitArray.empty.bit_array a.bit_array b.bit_array a.array_size with
    | none =>
      rw [hr] at hc
      constructor
      · intro out e
        cases e
      · intro _ c
        obtain ⟨r, e⟩ := hc c
        cases e
    | some ba =>
      constructor
      · intro out e
        cases e
        rfl
      · intro _ _
        exact ⟨_, rfl⟩
  · rw [if_neg h]
    constructor
    · intro out e
      cases e
    · intro e
      exact absurd e h

theorem XOR_size32 : ReturnsSizeOfReceiver cBitArray.GetSize Combinators.XOR cBitArray.XOR := by
  intro ops a b
  unfold cBitArray.XOR cBitArray.GetSize
  by_cases h : a.array_size = b.array_size
  · rw [if_pos h]
    dsimp only
    have hc := fun (c : ∀ s x y n, ∃ r, ops.XOR s x y n = some r) =>
      c cBitArray.empty.bit_array a.bit_array b.bit_array a.array_size
    cases hr : ops.XOR cBitArray.empty.bit_array a.bit_array b.bit_array a.array_size with
    | none =>
      rw [hr] at hc
      constructor
      · intro out e
        cases e
      · intro _ c
        obtain ⟨r, e⟩ := hc c
        cases e
    | some ba =>
      constructor
      · intro out e
        cases e
        rfl
      · intro _ _
        exact ⟨_, rfl⟩
  · rw [if_neg h]
    constructor
    · intro out e
      cases e
    · intro e
      exact absurd e h

theorem EQU_size32 : ReturnsSizeOfReceiver cBitArray.GetSize Combinators.EQU cBitArray.EQU := by
  intro ops a b
  unfold cBitArray.EQU cBitArray.GetSize
  by_cases h : a.array_size = b.array_size
  · rw [if_pos h]
    dsimp only
    have hc := fun (c : ∀ s x y n, ∃ r, ops.EQU s x y n = some r) =>
      c cBitArray.empty.bit_array a.bit_array b.bit_array a.array_size
    cases hr : ops.EQU cBitArray.empty.bit_array a.bit_array b.bit_array a.array_size with
    | none =>
      rw [hr] at hc
      constructor
      · intro out e
        cases e
      · intro _ c
        obtain ⟨r, e⟩ := hc c
        cases e
    | some ba =>
      constructor
      · intro out e
        cases e
        rfl
      · intro _ _
        exact ⟨_, rfl⟩
  · rw [if_neg h]
    constructor
    · intro out e
      cases e
    · intro e
      exact absurd e h

theorem ANDSELF_size32 : KeepsSizeInPlace cBitArray.GetSize Combinators.AND_in_place cBitArray.ANDSELF := by
  intro ops a b
  unfold cBitArray.ANDSELF cBitArray.GetSize
  by_cases h : a.array_size = b.array_size
  · rw [if_pos h]
    exact ⟨afterEngine_size32 _ _, fun _ hc => (afterEngine_ok32 _ _).mpr (hc _ _ _)⟩
  · rw [if_neg h]
    exact ⟨rfl, fun e => absurd e h⟩

theorem ORSELF_size32 : KeepsSizeInPlace cBitArray.GetSize Combinators.OR_in_place cBitArray.ORSELF := by
  intro ops a b
  unfold cBitArray.ORSELF cBitArray.GetSize
  by_cases h : a.array_size = b.array_size
  · rw [if_pos h]
    exact ⟨afterEngine_size32 _ _, fun _ hc => (afterEngine_ok32 _ _).mpr (hc _ _ _)⟩
  · rw [if_neg h]
    exact ⟨rfl, fun e => absurd e h⟩

theorem NANDSELF_size32 : KeepsSizeInPlace cBitArray.GetSize Combinators.NAND_in_place cBitArray.NANDSELF := by
  intro ops a b
  unfold cBitArray.NANDSELF cBitArray.GetSize
  by_cases h : a.array_size = b.array_size
  · rw [if_pos h]
    exact ⟨afterEngine_size32 _ _, fun _ hc => (afterEngine_ok32 _ _).mpr (hc _ _ _)⟩
  · rw [if_neg h]
    exact ⟨rfl, fun e => absurd e h⟩

theorem NORSELF_size32 : KeepsSizeInPlace cBitArray.GetSize Combinators.NOR_in_place cBitArray.NORSELF := by
  intro ops a b
  unfold cBitArray.NORSELF cBitArray.GetSize
  by_cases h : a.array_size = b.array_size
  · rw [if_pos h]
    exact ⟨afterEngine_size32 _ _, fun _ hc => (afterEngine_ok32 _ _).mpr (hc _ _ _)⟩
  · rw [if_neg h]
    exact ⟨rfl, fun e => absurd e h⟩

theorem XORSELF_size32 : KeepsSizeInPlace cBitArray.GetSize Combinators.XOR_in_place cBitArray.XORSELF := by
  intro ops a b
  unfold cBitArray.XORSELF cBitArray.GetSize
  by_cases h : a.array_size = b.array_size
  · rw [if_pos h]
    exact ⟨afterEngine_size32 _ _, fun _ hc => (afterEngine_ok32 _ _).mpr (hc _ _ _)⟩
  · rw [if_neg h]
    exact ⟨rfl, fun e => absurd e h⟩

theorem EQUSELF_size32 : KeepsSizeInPlace cBitArray.GetSize Combinators.EQU_in_place cBitArray.EQUSELF := by
  intro ops a b
  unfold cBitArray.EQUSELF cBitArray.GetSize
  by_cases h : a.array_size = b.array_size
  · rw [if_pos h]
    exact ⟨afterEngine_size32 _ _, fun _ hc => (afterEngine_ok32 _ _).mpr (hc _ _ _)⟩
  · rw [if_neg h]
    exact ⟨rfl, fun e => absurd e h⟩

theorem Set_size32 (pm : Nat → Nat) (x : cBitArray) (i : Nat) (v : Bool) :
    (x.Set pm i v).2.GetSize = x.GetSize := by
  unfold cBitArray.Set cBitArray.GetSize
  split
  · exact afterEngine_size32 _ _
  · rfl

theorem NOT_size32 (ops : Storage cRawBitArray) (x : cBitArray) :
    (∀ out, x.NOT ops = .ok out → out.GetSize = x.GetSize) ∧
    ((∃ out, x.NOT ops = .ok out) ↔
      ∃ r, ops.NOT cRawBitArray.empty x.bit_array x.GetSize = some r) := by
  unfold cBitArray.NOT cBitArray.GetSize
  dsimp only
  have he : cBitArray.empty.bit_array = cRawBitArray.empty := rfl
  rw [he]
  cases ops.NOT cRawBitArray.empty x.bit_array x.array_size with
  | none =>
    refine ⟨?_, ?_, ?_⟩
    · intro out e
      cases e
    · rintro ⟨_, e⟩
      cases e
    · rintro ⟨_, e⟩
      cases e
  | some ba =>
    refine ⟨?_, fun _ => ⟨ba, rfl⟩, fun _ => ⟨_, rfl⟩⟩
    intro out e
    cases e
    rfl

theorem SHIFT_size32 (x : cBitArray) (k : Int) :
    (∀ out, x.SHIFT k = .ok out → out.GetSize = x.GetSize) ∧
    (specNumWords 32 x.GetSize ≤ x.bit_array.bit_fields.length → ∃ out, x.SHIFT k = .ok out) := by
  unfold cBitArray.SHIFT cBitArray.GetSize cRawBitArray.SHIFT specShift
  dsimp only
  by_cases hc : specNumWords 32 x.array_size ≤ x.bit_array.bit_fields.length
  · rw [if_pos hc]
    by_cases hk : toUInt64 k = 0
    · rw [if_pos hk]
      refine ⟨?_, fun _ => ⟨_, rfl⟩⟩
      intro out e
      cases e
      rfl
    · rw [if_neg hk]
      refine ⟨?_, fun _ => ⟨_, rfl⟩⟩
      intro out e
      cases e
      rfl
  · rw [if_neg hc]
    refine ⟨?_, fun h => absurd h hc⟩
    intro out e
    cases e

theorem Resize_size32 (ops : Storage cRawBitArray) (x : cBitArray) (m : Nat) :
    ((x.Resize ops m).1 = .ok () → (x.Resize ops m).2.GetSize = m) ∧
    ((x.Resize ops m).1 = .ok () ↔ ∃ r, ops.Resize x.bit_array x.GetSize m = some r) := by
  unfold cBitArray.Resize cBitArray.GetSize
  cases ops.Resize x.bit_array x.array_size m with
  | none =>
    refine ⟨?_, ?_, ?_⟩
    · intro e
      cases e
    · intro e
      cases e
    · rintro ⟨_, e⟩
      cases e
  | some ba => exact ⟨fun _ => rfl, ⟨fun _ => ⟨ba, rfl⟩, fun _ => rfl⟩⟩

theorem ResizeClear_size32 (ops : Storage cRawBitArray) (x : cBitArray) (m : Nat) :
    ((x.ResizeClear ops m).1 = .ok () → (x.ResizeClear ops m).2.GetSize = m) ∧
    ((x.ResizeClear ops m).1 = .ok () ↔ ∃ r, ops.ResizeClear x.bit_array m = some r) := by
  unfold cBitArray.ResizeClear cBitArray.GetSize
  cases ops.ResizeClear x.bit_array m with
  | none =>
    refine ⟨?_, ?_, ?_⟩
    · intro e
      cases e
    · intro e
      cases e
    · rintro ⟨_, e⟩
      cases e
  | some ba => exact ⟨fun _ => rfl, ⟨fun _ => ⟨ba, rfl⟩, fun _ => rfl⟩⟩

theorem operator_assign_size32 (ops : Storage cRawBitArray) (x src : cBitArray) :
    ((x.operator_assign ops src).1 = .ok () →
      (x.operator_assign ops src).2.GetSize = src.GetSize) ∧
    ((x.operator_assign ops src).1 = .ok () ↔
      ∃ r, ops.Copy x.bit_array src.bit_array src.GetSize = some r) := by
  unfold cBitArray.operator_assign cBitArray.GetSize
  cases ops.Copy x.bit_array src.bit_array src.array_size with
  | none =>
    refine ⟨?_, ?_, ?_⟩
    · intro e
      cases e
    · intro e
      cases e
    · rintro ⟨_, e⟩
      cases e
  | some ba => exact ⟨fun _ => rfl, ⟨fun _ => ⟨ba, rfl⟩, fun _ => rfl⟩⟩

theorem copy_size32 (ops : Storage cRawBitArray) (src : cBitArray) :
    (∀ out, cBitArray.copy ops src = .ok out → out.GetSize = src.GetSize) ∧
    ((∃ out, cBitArray.copy ops src = .ok out) ↔
      ∃ r, ops.Copy cRawBitArray.empty src.bit_array src.GetSize = some r) := by
  unfold cBitArray.copy cBitArray.GetSize
  cases ops.Copy cRawBitArray.empty src.bit_array src.array_size with
  | none =>
    refine ⟨?_, ?_, ?_⟩
    · intro out e
      cases e
    · rintro ⟨_, e⟩
      cases e
    · rintro ⟨_, e⟩
      cases e
  | some ba =>
    refine ⟨?_, fun _ => ⟨ba, rfl⟩, fun _ => ⟨_, rfl⟩⟩
    intro out e
    cases e
    rfl

/-- Claim C23.  At both facades: a default-constructed array has `GetSize() = 0`; `Set`, `Clear`,
`SetAll`, `NOTSELF`, `ANDSELF`, `ORSELF`, `NANDSELF`, `NORSELF`, `XORSELF`, `EQUSELF`,
`SHIFTSELF` and `INCREMENTSELF` leave `GetSize()` of the receiver as it was, whatever the
engine does; an array returned by `NOT`, `AND`, `OR`, `NAND`, `NOR`, `XOR`, `EQU` or `SHIFT` has
the size of the receiver; a completed `Resize(m)` or `ResizeClear(m)` makes `GetSize() = m`; a
completed assignment and a copy construction give the size of the source.  The calls that hand
the work to an engine method without a body complete exactly when that method does (for the
binary operations: when the sizes are equal and the method completes). -/
theorem C23_size_tracking (pm8 pm32 : Nat → Nat) :
    ((cBitArrayBytes.empty).GetSize = 0 ∧
      (∀ x i v, (cBitArrayBytes.Set pm8 x i v).2.GetSize = x.GetSize) ∧
      (∀ x : cBitArrayBytes, x.Clear.2.GetSize = x.GetSize) ∧
      (∀ x : cBitArrayBytes, x.SetAll.2.GetSize = x.GetSize) ∧
      (∀ ops (x : cBitArrayBytes), (x.NOTSELF ops).2.GetSize = x.GetSize ∧
        ((x.NOTSELF ops).1 = .ok () ↔ ∃ r, ops.NOT_in_place x.bit_array x.GetSize = some r)) ∧
      KeepsSizeInPlace cBitArrayBytes.GetSize Combinators.AND_in_place cBitArrayBytes.ANDSELF ∧
      KeepsSizeInPlace cBitArrayBytes.GetSize Combinators.OR_in_place cBitArrayBytes.ORSELF ∧
      KeepsSizeInPlace cBitArrayBytes.GetSize Combinators.NAND_in_place cBitArrayBytes.NANDSELF ∧
      KeepsSizeInPlace cBitArrayBytes.GetSize Combinators.NOR_in_place cBitArrayBytes.NORSELF ∧
      KeepsSizeInPlace cBitArrayBytes.GetSize Combinators.XOR_in_place cBitArrayBytes.XORSELF ∧
      KeepsSizeInPlace cBitArrayBytes.GetSize Combinators.EQU_in_place cBitArrayBytes.EQUSELF ∧
      (∀ (x : cBitArrayBytes) k, (x.SHIFTSELF k).2.GetSize = x.GetSize) ∧
      (∀ x : cBitArrayBytes, x.INCREMENTSELF.2.GetSize = x.GetSize) ∧
      (∀ ops (x : cBitArrayBytes), (∀ out, x.NOT ops = .ok out → out.GetSize = x.GetSize) ∧
        ((∃ out, x.NOT ops = .ok out) ↔
          ∃ r, ops.NOT cRawBitArrayBytes.empty x.bit_array x.GetSize = some r)) ∧
      ReturnsSizeOfReceiver cBitArrayBytes.GetSize Combinators.AND cBitArrayBytes.AND ∧
      ReturnsSizeOfReceiver cBitArrayBytes.GetSize Combinators.OR cBitArrayBytes.OR ∧
      ReturnsSizeOfReceiver cBitArrayBytes.GetSize Combinators.NAND cBitArrayBytes.NAND ∧
      ReturnsSizeOfReceiver cBitArrayBytes.GetSize Combinators.NOR cBitArrayBytes.NOR ∧
      ReturnsSizeOfReceiver cBitArrayBytes.GetSize Combinators.XOR cBitArrayBytes.XOR ∧
      ReturnsSizeOfReceiver cBitArrayBytes.GetSize Combinators.EQU cBitArrayBytes.EQU ∧
      (∀ (x : cBitArrayBytes) k, (∀ out, x.SHIFT k = .ok out → out.GetSize = x.GetSize) ∧
        (specNumWords 8 x.GetSize ≤ x.bit_array.bit_fields.length →
          ∃ out, x.SHIFT k = .ok out)) ∧
      (∀ ops (x : cBitArrayBytes) m, ((x.Resize ops m).1 = .ok () → (x.Resize ops m).2.GetSize = m) ∧
        ((x.Resize ops m).1 = .ok () ↔ ∃ r, ops.Resize x.bit_array x.GetSize m = some r)) ∧
      (∀ ops (x : cBitArrayBytes) m,
        ((x.ResizeClear ops m).1 = .ok () → (x.ResizeClear ops m).2.GetSize = m) ∧
        ((x.ResizeClear ops m).1 = .ok () ↔ ∃ r, ops.ResizeClear x.bit_array m = some r)) ∧
      (∀ ops (x src : cBitArrayBytes),
        ((x.operator_assign ops src).1 = .ok () →
          (x.operator_assign ops src).2.GetSize = src.GetSize) ∧
        ((x.operator_assign ops src).1 = .ok () ↔
          ∃ r, ops.Copy x.bit_array src.bit_array src.GetSize = some r)) ∧
      (∀ ops (src : cBitArrayBytes),
        (∀ out, cBitArrayBytes.copy ops src = .ok out → out.GetSize = src.GetSize) ∧
        ((∃ out, cBitArrayBytes.copy ops src = .ok out) ↔
          ∃ r, ops.Copy cRawBitArrayBytes.empty src.bit_array src.GetSize = some r))) ∧
    ((cBitArray.empty).GetSize = 0 ∧
      (∀ x i v, (cBitArray.Set pm32 x i v).2.GetSize = x.GetSize) ∧
      (∀ x : cBitArray, x.Clear.2.GetSize = x.GetSize) ∧
      (∀ x : cBitArray, x.SetAll.2.GetSize = x.GetSize) ∧
      (∀ ops (x : cBitArray), (x.NOTSELF ops).2.GetSize = x.GetSize ∧
        ((x.NOTSELF ops).1 = .ok () ↔ ∃ r, ops.NOT_in_place x.bit_array x.GetSize = some r)) ∧
      KeepsSizeInPlace cBitArray.GetSize Combinators.AND_in_place cBitArray.ANDSELF ∧
      KeepsSizeInPlace cBitArray.GetSize Combinators.OR_in_place cBitArray.ORSELF ∧
      KeepsSizeInPlace cBitArray.GetSize Combinators.NAND_in_place cBitArray.NANDSELF ∧
      KeepsSizeInPlace cBitArray.GetSize Combinators.NOR_in_place cBitArray.NORSELF ∧
      KeepsSizeInPlace cBitArray.GetSize Combinators.XOR_in_place cBitArray.XORSELF ∧
      KeepsSizeInPlace cBitArray.GetSize Combinators.EQU_in_place cBitArray.EQUSELF ∧
      (∀ (x : cBitArray) k, (x.SHIFTSELF k).2.GetSize = x.GetSize) ∧
      (∀ x : cBitArray, x.INCREMENTSELF.2.GetSize = x.GetSize) ∧
      (∀ ops (x : cBitArray), (∀ out, x.NOT ops = .ok out → out.GetSize = x.GetSize) ∧
        ((∃ out, x.NOT ops = .ok out) ↔
          ∃ r, ops.NOT cRawBitArray.empty x.bit_array x.GetSize = some r)) ∧
      ReturnsSizeOfReceiver cBitArray.GetSize Combinators.AND cBitArray.AND ∧
      ReturnsSizeOfReceiver cBitArray.GetSize Combinators.OR cBitArray.OR ∧
      ReturnsSizeOfReceiver cBitArray.GetSize Combinators.NAND cBitArray.NAND ∧
      ReturnsSizeOfReceiver cBitArray.GetSize Combinators.NOR cBitArray.NOR ∧
      ReturnsSizeOfReceiver cBitArray.GetSize Combinators.XOR cBitArray.XOR ∧
      ReturnsSizeOfReceiver cBitArray.GetSize Combinators.EQU cBitArray.EQU ∧
      (∀ (x : cBitArray) k, (∀ out, x.SHIFT k = .ok out → out.GetSize = x.GetSize) ∧
        (specNumWords 32 x.GetSize ≤ x.bit_array.bit_fields.length →
          ∃ out, x.SHIFT k = .ok out)) ∧
      (∀ ops (x : cBitArray) m, ((x.Resize ops m).1 = .ok () → (x.Resize ops m).2.GetSize = m) ∧
        ((x.Resize ops m).1 = .ok () ↔ ∃ r, ops.Resize x.bit_array x.GetSize m = some r)) ∧
      (∀ ops (x : cBitArray) m,
        ((x.ResizeClear ops m).1 = .ok () → (x.ResizeClear ops m).2.GetSize = m) ∧
        ((x.ResizeClear ops m).1 = .ok () ↔ ∃ r, ops.ResizeClear x.bit_array m = some r)) ∧
      (∀ ops (x src : cBitArray),
        ((x.operator_assign ops src).1 = .ok () →
          (x.operator_assign ops src).2.GetSize = src.GetSize) ∧
        ((x.operator_assign ops src).1 = .ok () ↔
          ∃ r, ops.Copy x.bit_array src.bit_array src.GetSize = some r)) ∧
      (∀ ops (src : cBitArray),
        (∀ out, cBitArray.copy ops src = .ok out → out.GetSize = src.GetSize) ∧
        ((∃ out, cBitArray.copy ops src = .ok out) ↔
          ∃ r, ops.Copy cRawBitArray.empty src.bit_array src.GetSize = some r))) :=
  ⟨
    ⟨rfl, fun x i v => Set_size8 _ x i v, fun x => afterEngine_size8 x _,
      fun x => afterEngine_size8 x _, fun _ x => ⟨afterEngine_size8 x _, afterEngine_ok8 x _⟩,
      ANDSELF_size8, ORSELF_size8, NANDSELF_size8, NORSELF_size8, XORSELF_size8, EQUSELF_size8,
      fun x _ => afterEngine_size8 x _, fun x => afterEngine_size8 x _, NOT_size8, AND_size8,
      OR_size8, NAND_size8, NOR_size8, XOR_size8, EQU_size8, SHIFT_size8, Resize_size8,
      ResizeClear_size8, operator_assign_size8, copy_size8⟩,
    ⟨rfl, fun x i v => Set_size32 _ x i v, fun x => afterEngine_size32 x _,
      fun x => afterEngine_size32 x _,
      fun _ x => ⟨afterEngine_size32 x _, afterEngine_ok32 x _⟩, ANDSELF_size32, ORSELF_size32,
      NANDSELF_size32, NORSELF_size32, XORSELF_size32, EQUSELF_size32,
      fun x _ => afterEngine_size32 x _, fun x => afterEngine_size32 x _, NOT_size32, AND_size32,
      OR_size32, NAND_size32, NOR_size32, XOR_size32, EQU_size32, SHIFT_size32, Resize_size32,
      ResizeClear_size32, operator_assign_size32, copy_size32⟩⟩

/-! ## Equality of arrays -/

theorem operator_eq_spec8 (ops : Storage cRawBitArrayBytes) (a b : cBitArrayBytes) :
    (a.GetSize ≠ b.GetSize → a.operator_eq ops b = .ok false) ∧
    (a.GetSize = b.GetSize →
      a.operator_eq ops b = liftEngine (ops.IsEqual a.bit_array b.bit_array a.GetSize)) ∧
    (a.operator_eq ops b = .ok true → a.GetSize = b.GetSize) := by
  unfold cBitArrayBytes.operator_eq cBitArrayBytes.GetSize
  by_cases h : a.array_size = b.array_size
  · rw [if_neg (fun hne => hne h)]
    exact ⟨fun hne => absurd h hne, fun _ => rfl, fun _ => h⟩
  · rw [if_pos h]
    refine ⟨fun _ => rfl, fun e => absurd e h, ?_⟩
    intro e
    cases e

theorem operator_eq_spec32 (ops : Storage cRawBitArray) (a b : cBitArray) :
    (a.GetSize ≠ b.GetSize → a.operator_eq ops b = .ok false) ∧
    (a.GetSize = b.GetSize →
      a.operator_eq ops b = liftEngine (ops.IsEqual a.bit_array b.bit_array a.GetSize)) ∧
    (a.operator_eq ops b = .ok true → a.GetSize = b.GetSize) := by
  unfold cBitArray.operator_eq cBitArray.GetSize
  by_cases h : a.array_size = b.array_size
  · rw [if_neg (fun hne => hne h)]
    exact ⟨fun hne => absurd h hne, fun _ => rfl, fun _ => h⟩
  · rw [if_pos h]
    refine ⟨fun _ => rfl, fun e => absurd e h, ?_⟩
    intro e
    cases e

/-- Claim C24.  For both facades and every pair of arrays `a`, `b`: when the sizes differ,
`a == b` returns false, and it does so with any engine in place of the one given, so `IsEqual`
has no part in the answer; when the sizes are equal, `a == b` is what the engine's
`IsEqual(b, GetSize())` gives; and `a == b` returning true implies equal sizes. -/
theorem C24_equality_checks_sizes_first (ops8 other8 : Storage cRawBitArrayBytes)
    (ops32 other32 : Storage cRawBitArray) (a b : cBitArrayBytes) (c d : cBitArray) :
    ((a.GetSize ≠ b.GetSize →
        a.operator_eq ops8 b = .ok false ∧ a.operator_eq other8 b = a.operator_eq ops8 b) ∧
      (a.GetSize = b.GetSize →
        a.operator_eq ops8 b = liftEngine (ops8.IsEqual a.bit_array b.bit_array a.GetSize)) ∧
      (a.operator_eq ops8 b = .ok true → a.GetSize = b.GetSize)) ∧
    ((c.GetSize ≠ d.GetSize →
        c.operator_eq ops32 d = .ok false ∧ c.operator_eq other32 d = c.operator_eq ops32 d) ∧
      (c.GetSize = d.GetSize →
        c.operator_eq ops32 d = liftEngine (ops32.IsEqual c.bit_array d.bit_array c.GetSize)) ∧
      (c.operator_eq ops32 d = .ok true → c.GetSize = d.GetSize)) :=
  ⟨⟨fun h => ⟨(operator_eq_spec8 ops8 a b).1 h,
        ((operator_eq_spec8 other8 a b).1 h).trans ((operator_eq_spec8 ops8 a b).1 h).symm⟩,
      (operator_eq_spec8 ops8 a b).2.1, (operator_eq_spec8 ops8 a b).2.2⟩,
    ⟨fun h => ⟨(operator_eq_spec32 ops32 c d).1 h,
        ((operator_eq_spec32 other32 c d).1 h).trans ((operator_eq_spec32 ops32 c d).1 h).symm⟩,
      (operator_eq_spec32 ops32 c d).2.1, (operator_eq_spec32 ops32 c d).2.2⟩⟩

/-! ## Shifts through the facade -/

theorem toInt64_toUInt64 (k : Int) (h1 : -2 ^ 63 ≤ k) (h2 : k < 2 ^ 63) :
    toInt64 (toUInt64 k) = k := by
  unfold toInt64 toUInt64
  split <;> omega

theorem negInt32_eq_neg (k : Int) (h1 : -2 ^ 31 < k) (h2 : k < 2 ^ 31) : negInt32 k = -k := by
  unfold negInt32 toInt32
  split <;> omega

theorem testBit_packWord (f : Nat → Bool) (n p : Nat) :
    (packWord f n).testBit p = (decide (p < n) && f p) := by
  induction n with
  | zero => simp [packWord]
  | succ n ih =>
    rw [packWord]
    by_cases hf : f n = true
    · rw [if_pos hf, Nat.add_comm, ← Nat.mul_one (2 ^ n),
        Nat.testBit_mul_pow_two_add 1 (packWord_lt f n) p, ih]
      by_cases hp : p < n
      · rw [if_pos hp]
        simp [hp, Nat.lt_succ_of_lt hp]
      · rw [if_neg hp]
        by_cases hpn : p = n
        · subst hpn
          simp [hf]
        · have h1 : ¬ p < n + 1 := by omega
          obtain ⟨m, hm⟩ : ∃ m, p - n = m + 1 := ⟨p - n - 1, by omega⟩
          simp [h1, hm, Nat.testBit_succ]
    · rw [if_neg hf, Nat.add_zero, ih]
      by_cases hp : p < n
      · simp [hp, Nat.lt_succ_of_lt hp]
      · by_cases hpn : p = n
        · subst hpn
          simp [Bool.eq_false_iff.mpr hf]
        · have h1 : ¬ p < n + 1 := by omega
          simp [hp, h1]

theorem specShiftedBit_zero (W : Nat) (bf : List Nat) (n j : Nat) (hj : j < n) :
    specShiftedBit W bf n 0 j = storedBit W bf j := by
  unfold specShiftedBit storedBit
  rw [if_pos (Int.le_refl 0)]
  simp [hj]

theorem word_index_lt (W : Nat) (hW : 0 < W) (n j : Nat) (hj : j < n) :
    j / W < specNumWords W n := by
  have h := covers_of_specNumWords W n hW
  rw [Nat.div_lt_iff_lt_mul hW, Nat.mul_comm]
  omega

theorem specShift_spec (W : Nat) (hW : 0 < W) (bf : List Nat) (n s : Nat)
    (hc : specNumWords W n ≤ bf.length) :
    ∃ R, specShift W bf n s = some R ∧ R.length = specNumWords W n ∧
      ∀ j, j < n → storedBit W R j = specShiftedBit W bf n (toInt64 s) j := by
  unfold specShift
  rw [if_pos hc]
  by_cases hs : s = 0
  · rw [if_pos hs]
    refine ⟨_, rfl, by rw [List.length_take]; omega, fun j hj => ?_⟩
    have hz : toInt64 s = 0 := by rw [hs]; rfl
    rw [hz, specShiftedBit_zero W bf n j hj]
    unfold storedBit
    rw [List.getD_eq_getElem?_getD, List.getElem?_take_of_lt (word_index_lt W hW n j hj),
      ← List.getD_eq_getElem?_getD]
  · rw [if_neg hs]
    refine ⟨_, rfl, by rw [List.length_map, List.length_range], fun j hj => ?_⟩
    unfold storedBit
    rw [List.getD_eq_getElem?_getD, List.getElem?_map,
      List.getElem?_range (word_index_lt W hW n j hj), Option.map_some', Option.getD_some,
      testBit_packWord, Nat.div_add_mod]
    simp [Nat.mod_lt j hW]

theorem storedBit_append_left (W : Nat) (R rest : List Nat) (j : Nat) (h : j / W < R.length) :
    storedBit W (R ++ rest) j = storedBit W R j := by
  unfold storedBit
  rw [List.getD_eq_getElem?_getD, List.getElem?_append_left h, ← List.getD_eq_getElem?_getD]

theorem logical_of_shiftedBit (W : Nat) (bf : List Nat) (n : Nat) (k : Int)
    (source result : Nat → Except Fault Bool)
    (hs : ∀ i, i < n → source i = .ok (storedBit W bf i))
    (hr : ∀ j, j < n → result j = .ok (specShiftedBit W bf n k j)) :
    IsLogicalShift n k source result := by
  refine ⟨fun hk => ⟨fun i hi => ?_, fun j hj hjn => ?_⟩,
    fun hk => ⟨fun i hi => ?_, fun j hjn hj => ?_⟩, fun hk j hj => ?_, fun hk j hj => ?_⟩
  · rw [hr _ hi, hs i (by omega)]
    unfold specShiftedBit storedBit
    rw [if_pos (Int.le_of_lt hk), Nat.add_sub_cancel]
    simp [hi]
  · rw [hr j hjn]
    unfold specShiftedBit
    rw [if_pos (Int.le_of_lt hk)]
    simp [Nat.not_le.mpr hj]
  · rw [hr i (by omega), hs _ hi]
    unfold specShiftedBit storedBit
    rw [if_neg (by omega)]
    simp [hi]
  · rw [hr j hjn]
    unfold specShiftedBit
    rw [if_neg (by omega)]
    simp [Nat.not_lt.mpr hj]
  · rw [hr j hj, hs j hj, hk, specShiftedBit_zero W bf n j hj]
  · rw [hr j hj]
    unfold specShiftedBit
    by_cases h0 : 0 ≤ k
    · rw [if_pos h0]
      have : ¬ k.natAbs ≤ j := by omega
      simp [this]
    · rw [if_neg h0]
      have : ¬ j + k.natAbs < n := by omega
      simp [this]

theorem SHIFT_spec8 (pm : Nat → Nat) (hpm : MasksArePowers 8 pm) (x : cBitArrayBytes)
    (hx : (x.array_size + 7) / 8 ≤ x.bit_array.bit_fields.length) (k : Int)
    (hk1 : -2 ^ 31 ≤ k) (hk2 : k < 2 ^ 31) :
    ∃ r, x.SHIFT k = .ok r ∧ r.array_size = x.array_size ∧
      IsLogicalShift x.array_size k (x.Get pm) (r.Get pm) := by
  obtain ⟨R, hR, hlen, hbits⟩ := specShift_spec 8 (by decide) x.bit_array.bit_fields
    x.array_size (toUInt64 k) hx
  rw [toInt64_toUInt64 k (by omega) (by omega)] at hbits
  have hlen' : R.length = (x.array_size + 7) / 8 := hlen
  refine ⟨⟨⟨R⟩, x.array_size⟩, ?_, rfl, ?_⟩
  · unfold cBitArrayBytes.SHIFT cRawBitArrayBytes.SHIFT
    dsimp only
    rw [hR]
    rfl
  · refine logical_of_shiftedBit 8 x.bit_array.bit_fields x.array_size k _ _
      (fun i hi => Get_covered8 pm hpm x hx i hi) (fun j hj => ?_)
    rw [Get_covered8 pm hpm ⟨⟨R⟩, x.array_size⟩ (by rw [hlen']) j hj]
    exact congrArg Except.ok (hbits j hj)

theorem SHIFTSELF_spec8 (pm : Nat → Nat) (hpm : MasksArePowers 8 pm) (x : cBitArrayBytes)
    (hx : (x.array_size + 7) / 8 ≤ x.bit_array.bit_fields.length) (k : Int)
    (hk1 : -2 ^ 31 ≤ k) (hk2 : k < 2 ^ 31) :
    ∃ r, x.SHIFTSELF k = (.ok (), r) ∧ r.array_size = x.array_size ∧
      IsLogicalShift x.array_size k (x.Get pm) (r.Get pm) := by
  obtain ⟨R, hR, hlen, hbits⟩ := specShift_spec 8 (by decide) x.bit_array.bit_fields
    x.array_size (toUInt64 k) hx
  rw [toInt64_toUInt64 k (by omega) (by omega)] at hbits
  have hlen' : R.length = (x.array_size + 7) / 8 := hlen
  refine ⟨⟨⟨R ++ x.bit_array.bit_fields.drop (specNumWords 8 x.array_size)⟩, x.array_size⟩,
    ?_, rfl, ?_⟩
  · unfold cBitArrayBytes.SHIFTSELF cRawBitArrayBytes.SHIFT_in_place
    rw [hR]
    rfl
  · refine logical_of_shiftedBit 8 x.bit_array.bit_fields x.array_size k _ _
      (fun i hi => Get_covered8 pm hpm x hx i hi) (fun j hj => ?_)
    rw [Get_covered8 pm hpm
      ⟨⟨R ++ x.bit_array.bit_fields.drop (specNumWords 8 x.array_size)⟩, x.array_size⟩
      (by rw [List.length_append, hlen']; exact Nat.le_add_right _ _) j hj]
    have hj' : j / 8 < R.length := by
      rw [hlen]
      exact word_index_lt 8 (by decide) x.array_size j hj
    exact congrArg Except.ok ((storedBit_append_left 8 R _ j hj').trans (hbits j hj))

theorem SHIFT_spec32 (pm : Nat → Nat) (hpm : MasksArePowers 32 pm) (x : cBitArray)
    (hx : (x.array_size + 31) / 32 ≤ x.bit_array.bit_fields.length) (k : Int)
    (hk1 : -2 ^ 31 ≤ k) (hk2 : k < 2 ^ 31) :
    ∃ r, x.SHIFT k = .ok r ∧ r.array_size = x.array_size ∧
      IsLogicalShift x.array_size k (x.Get pm) (r.Get pm) := by
  obtain ⟨R, hR, hlen, hbits⟩ := specShift_spec 32 (by decide) x.bit_array.bit_fields
    x.array_size (toUInt64 k) hx
  rw [toInt64_toUInt64 k (by omega) (by omega)] at hbits
  have hlen' : R.length = (x.array_size + 31) / 32 := hlen
  refine ⟨⟨⟨R⟩, x.array_size⟩, ?_, rfl, ?_⟩
  · unfold cBitArray.SHIFT cRawBitArray.SHIFT
    dsimp only
    rw [hR]
    rfl
  · refine logical_of_shiftedBit 32 x.bit_array.bit_fields x.array_size k _ _
      (fun i hi => Get_covered32 pm hpm x hx i hi) (fun j hj => ?_)
    rw [Get_covered32 pm hpm ⟨⟨R⟩, x.array_size⟩ (by rw [hlen']) j hj]
    exact congrArg Except.ok (hbits j hj)

theorem SHIFTSELF_spec32 (pm : Nat → Nat) (hpm : MasksArePowers 32 pm) (x : cBitArray)
    (hx : (x.array_size + 31) / 32 ≤ x.bit_array.bit_fields.length) (k : Int)
    (hk1 : -2 ^ 31 ≤ k) (hk2 : k < 2 ^ 31) :
    ∃ r, x.SHIFTSELF k = (.ok (), r) ∧ r.array_size = x.array_size ∧
      IsLogicalShift x.array_size k (x.Get pm) (r.Get pm) := by
  obtain ⟨R, hR, hlen, hbits⟩ := specShift_spec 32 (by decide) x.bit_array.bit_fields
    x.array_size (toUInt64 k) hx
  rw [toInt64_toUInt64 k (by omega) (by omega)] at hbits
  have hlen' : R.length = (x.array_size + 31) / 32 := hlen
  refine ⟨⟨⟨R ++ x.bit_array.bit_fields.drop (specNumWords 32 x.array_size)⟩, x.array_size⟩,
    ?_, rfl, ?_⟩
  · unfold cBitArray.SHIFTSELF cRawBitArray.SHIFT_in_place
    rw [hR]
    rfl
  · refine logical_of_shiftedBit 32 x.bit_array.bit_fields x.array_size k _ _
      (fun i hi => Get_covered32 pm hpm x hx i hi) (fun j hj => ?_)
    rw [Get_covered32 pm hpm
      ⟨⟨R ++ x.bit_array.bit_fields.drop (specNumWords 32 x.array_size)⟩, x.array_size⟩
      (by rw [List.length_append, hlen']; exact Nat.le_add_right _ _) j hj]
    have hj' : j / 32 < R.length := by
      rw [hlen]
      exact word_index_lt 32 (by decide) x.array_size j hj
    exact congrArg Except.ok ((storedBit_append_left 32 R _ j hj').trans (hbits j hj))

/-- Claim C12, for `SHIFT` of the engines modelled from the specification.  For both facades,
every array `x` of `n` bits whose block holds the covering words and every `int` `k`:
`x.SHIFT(k)`, `x << k` and `x.SHIFTSELF(k)` return, keep the size, and give the logical shift
of `x` by `k` (left for `k > 0` with the low `k` bits 0, right for `k < 0` with the top `|k|`
bits 0, the bits of `x` for `k = 0`, all zero for `|k| ≥ n`); `x >> k` is `SHIFT(-k)`, the
logical shift by `-k`, for every `k` but `INT_MIN`, whose negation in `int` is `INT_MIN`
again. -/
theorem C12_shift_is_logical (pm8 pm32 : Nat → Nat) (h8 : MasksArePowers 8 pm8)
    (h32 : MasksArePowers 32 pm32) (x : cBitArrayBytes) (y : cBitArray) (k : Int)
    (hx : (x.GetSize + 7) / 8 ≤ x.bit_array.bit_fields.length)
    (hy : (y.GetSize + 31) / 32 ≤ y.bit_array.bit_fields.length)
    (hk1 : -2 ^ 31 ≤ k) (hk2 : k < 2 ^ 31) :
    ((∃ r, x.SHIFT k = .ok r ∧ r.GetSize = x.GetSize ∧
        IsLogicalShift x.GetSize k (x.Get pm8) (r.Get pm8)) ∧
      (∃ r, x.operator_shl k = .ok r ∧ r.GetSize = x.GetSize ∧
        IsLogicalShift x.GetSize k (x.Get pm8) (r.Get pm8)) ∧
      (∃ r, x.SHIFTSELF k = (.ok (), r) ∧ r.GetSize = x.GetSize ∧
        IsLogicalShift x.GetSize k (x.Get pm8) (r.Get pm8)) ∧
      (-2 ^ 31 < k → ∃ r, x.operator_shr k = .ok r ∧ r.GetSize = x.GetSize ∧
        IsLogicalShift x.GetSize (-k) (x.Get pm8) (r.Get pm8)) ∧
      (k = -2 ^ 31 → x.operator_shr k = x.SHIFT k)) ∧
    ((∃ r, y.SHIFT k = .ok r ∧ r.GetSize = y.GetSize ∧
        IsLogicalShift y.GetSize k (y.Get pm32) (r.Get pm32)) ∧
      (∃ r, y.operator_shl k = .ok r ∧ r.GetSize = y.GetSize ∧
        IsLogicalShift y.GetSize k (y.Get pm32) (r.Get pm32)) ∧
      (∃ r, y.SHIFTSELF k = (.ok (), r) ∧ r.GetSize = y.GetSize ∧
        IsLogicalShift y.GetSize k (y.Get pm32) (r.Get pm32)) ∧
      (-2 ^ 31 < k → ∃ r, y.operator_shr k = .ok r ∧ r.GetSize = y.GetSize ∧
        IsLogicalShift y.GetSize (-k) (y.Get pm32) (r.Get pm32)) ∧
      (k = -2 ^ 31 → y.operator_shr k = y.SHIFT k)) := by
  unfold cBitArrayBytes.GetSize at hx
  unfold cBitArray.GetSize at hy
  unfold cBitArrayBytes.GetSize cBitArray.GetSize
  refine ⟨⟨SHIFT_spec8 pm8 h8 x hx k hk1 hk2, SHIFT_spec8 pm8 h8 x hx k hk1 hk2,
      SHIFTSELF_spec8 pm8 h8 x hx k hk1 hk2, fun hmin => ?_, fun hmin => ?_⟩,
    ⟨SHIFT_spec32 pm32 h32 y hy k hk1 hk2, SHIFT_spec32 pm32 h32 y hy k hk1 hk2,
      SHIFTSELF_spec32 pm32 h32 y hy k hk1 hk2, fun hmin => ?_, fun hmin => ?_⟩⟩
  · unfold cBitArrayBytes.operator_shr
    rw [negInt32_eq_neg k hmin hk2]
    exact SHIFT_spec8 pm8 h8 x hx (-k) (by omega) (by omega)
  · unfold cBitArrayBytes.operator_shr
    rw [hmin]
    rfl
  · unfold cBitArray.operator_shr
    rw [negInt32_eq_neg k hmin hk2]
    exact SHIFT_spec32 pm32 h32 y hy (-k) (by omega) (by omega)
  · unfold cBitArray.operator_shr
    rw [hmin]
    rfl

/-- Claim C12 at concrete arrays: ten bits with 2, 5 and 9 set.  `SHIFT(2)` gives exactly the
bits 4 and 7, and `SHIFT(-2)`, which is also `x >> 2`, exactly the bits 0, 3 and 7. -/
theorem C12_shift_is_logical_witness :
    ((∃ r, cBitArrayBytes.SHIFT ⟨⟨[36, 2]⟩, 10⟩ 2 = .ok r ∧ r.GetSize = 10 ∧
        IsLogicalShift 10 2 (cBitArrayBytes.Get (fun k => 2 ^ k) ⟨⟨[36, 2]⟩, 10⟩)
          (r.Get (fun k => 2 ^ k))) ∧
      cBitArrayBytes.SHIFT ⟨⟨[36, 2]⟩, 10⟩ 2 = .ok ⟨⟨[144, 0]⟩, 10⟩ ∧
      cBitArrayBytes.SHIFT ⟨⟨[36, 2]⟩, 10⟩ (-2) = .ok ⟨⟨[137, 0]⟩, 10⟩ ∧
      cBitArrayBytes.operator_shr ⟨⟨[36, 2]⟩, 10⟩ 2 = .ok ⟨⟨[137, 0]⟩, 10⟩ ∧
      cBitArrayBytes.SHIFTSELF ⟨⟨[36, 2]⟩, 10⟩ (-2) = (.ok (), ⟨⟨[137, 0]⟩, 10⟩)) ∧
    ((∃ r, cBitArray.SHIFT ⟨⟨[548]⟩, 10⟩ 2 = .ok r ∧ r.GetSize = 10 ∧
        IsLogicalShift 10 2 (cBitArray.Get (fun k => 2 ^ k) ⟨⟨[548]⟩, 10⟩)
          (r.Get (fun k => 2 ^ k))) ∧
      cBitArray.SHIFT ⟨⟨[548]⟩, 10⟩ 2 = .ok ⟨⟨[144]⟩, 10⟩ ∧
      cBitArray.SHIFT ⟨⟨[548]⟩, 10⟩ (-2) = .ok ⟨⟨[137]⟩, 10⟩ ∧
      cBitArray.operator_shr ⟨⟨[548]⟩, 10⟩ 2 = .ok ⟨⟨[137]⟩, 10⟩ ∧
      cBitArray.SHIFTSELF ⟨⟨[548]⟩, 10⟩ (-2) = (.ok (), ⟨⟨[137]⟩, 10⟩)) :=
  have h := C12_shift_is_logical (fun k => 2 ^ k) (fun k => 2 ^ k) (fun _ _ => rfl)
    (fun _ _ => rfl) ⟨⟨[36, 2]⟩, 10⟩ ⟨⟨[548]⟩, 10⟩ 2 (by decide) (by decide) (by decide)
    (by decide)
  ⟨⟨h.1.1, rfl, rfl, rfl, rfl⟩, ⟨h.2.1, rfl, rfl, rfl, rfl⟩⟩
